import Mathlib

set_option autoImplicit false

/-!
Verification development for the `retrofy` source-to-source downlevel
compiler.

The development has three parts:

* Part A: a model of the pattern-match desugaring engine.  The engine
  module itself (`retrofy/_transformations/match_statement.py`) is not
  present under `src/` — only its callers (`_converters.py`) and its test
  suite (`tests/_transformations/test__match_patterns.py`) are.  The
  definitions are therefore modelled from the specification's §3/§4.1
  algorithm, with every emitted form checked against the exact expected
  outputs asserted by the test suite.
* Part B: a shallow embedding of the inline-assignment ("walrus")
  rewriter of `retrofy/_transformations/walrus.py`.
* Part C: a shallow embedding of the module-level behaviour of the
  typing-extensions compatibility rewriter of
  `retrofy/_transformations/typing_extensions.py` together with
  the import utilities of `retrofy/_transformations/import_utils.py`.
-/

/-! ## Part A: values of the source language -/

/-- A literal as it appears in a pattern: integer, float, boolean,
`None`, or string.  Floats are carried as exact rationals, which is
faithful for every literal the engine's tests exercise. -/
inductive PyLit where
  | int (n : Int)
  | float (q : Rat)
  | bool (b : Bool)
  | noneL
  | str (s : String)
deriving DecidableEq, Repr

/-- A runtime value of the (dynamically typed) source language, as far as
the compiled pattern tests can observe one: numbers, booleans, `None`,
strings, bytes, lists, tuples, mappings with literal keys, and class
instances carrying a class name and named attributes. -/
inductive PyVal where
  | int (n : Int)
  | float (q : Rat)
  | bool (b : Bool)
  | noneV
  | str (s : String)
  | bytes (bs : List Nat)
  | list (xs : List PyVal)
  | tuple (xs : List PyVal)
  | dict (kvs : List (PyLit × PyVal))
  | obj (cls : String) (attrs : List (String × PyVal))

/-- The value denoted by a literal. -/
def PyLit.toVal : PyLit → PyVal
  | .int n => .int n
  | .float q => .float q
  | .bool b => .bool b
  | .noneL => .noneV
  | .str s => .str s

/-- Numeric view of a value: `int`, `float` and `bool` all compare
numerically under the source language's `==` (`True == 1`,
`0 == 0.0`). -/
def PyVal.numView : PyVal → Option Rat
  | .int n => some (n : Rat)
  | .float q => some q
  | .bool b => some (if b then 1 else 0)
  | _ => none

mutual

/-- Source-language equality (`==`): numeric kinds compare numerically,
strings/bytes by content, lists with lists and tuples with tuples
element-wise (a list is never `==` a tuple), mappings pairwise, and
distinct objects are unequal (identity-style default `__eq__`). -/
def pyEq : PyVal → PyVal → Bool
  | .noneV, .noneV => true
  | .str a, .str b => a == b
  | .bytes a, .bytes b => a == b
  | .list a, .list b => pyEqList a b
  | .tuple a, .tuple b => pyEqList a b
  | .dict a, .dict b => pyEqKVs a b
  | a, b =>
    match a.numView, b.numView with
    | some x, some y => x == y
    | _, _ => false

/-- Element-wise equality of two value lists. -/
def pyEqList : List PyVal → List PyVal → Bool
  | [], [] => true
  | a :: as', b :: bs' => pyEq a b && pyEqList as' bs'
  | _, _ => false

/-- Pairwise equality of two key/value association lists. -/
def pyEqKVs : List (PyLit × PyVal) → List (PyLit × PyVal) → Bool
  | [], [] => true
  | (ka, va) :: as', (kb, vb) :: bs' =>
    ka == kb && pyEq va vb && pyEqKVs as' bs'
  | _, _ => false

end

/-- `len()` of a value, when defined. -/
def pyLen : PyVal → Option Nat
  | .str s => some s.length
  | .bytes bs => some bs.length
  | .list xs => some xs.length
  | .tuple xs => some xs.length
  | .dict kvs => some kvs.length
  | _ => none

/-- Truthiness of a value (`bool(v)`). -/
def pyTruthy : PyVal → Bool
  | .bool b => b
  | .int n => n != 0
  | .float q => q != 0
  | .noneV => false
  | .str s => s != ""
  | .bytes bs => !bs.isEmpty
  | .list xs => !xs.isEmpty
  | .tuple xs => !xs.isEmpty
  | .dict kvs => !kvs.isEmpty
  | .obj _ _ => true

/-- `isinstance(v, collections.abc.Sequence)`: lists, tuples, strings
and bytes register as sequences. -/
def pyIsSequence : PyVal → Bool
  | .list _ => true
  | .tuple _ => true
  | .str _ => true
  | .bytes _ => true
  | _ => false

/-- `isinstance(v, collections.abc.Mapping)`. -/
def pyIsMapping : PyVal → Bool
  | .dict _ => true
  | _ => false

/-- `isinstance(v, str)`. -/
def pyIsStr : PyVal → Bool
  | .str _ => true
  | _ => false

/-- `isinstance(v, bytes)`. -/
def pyIsBytes : PyVal → Bool
  | .bytes _ => true
  | _ => false

/-- `isinstance(v, cls)` for a class named by `cls`: the built-in names
are interpreted (with `bool` an instance of `int`, as in the source
language); any other name matches an object of exactly that class (the
model does not track user-defined inheritance). -/
def pyIsInst (v : PyVal) (cls : String) : Bool :=
  if cls = "int" then
    match v with
    | .int _ => true
    | .bool _ => true
    | _ => false
  else if cls = "bool" then
    match v with
    | .bool _ => true
    | _ => false
  else if cls = "float" then
    match v with
    | .float _ => true
    | _ => false
  else if cls = "str" then pyIsStr v
  else if cls = "bytes" then pyIsBytes v
  else
    match v with
    | .obj c _ => c == cls
    | _ => false

/-! ## Part A: access paths and condition terms -/

/-- An access path: an expression denoting "the value being matched at
this point", built from the single match subject by indexing, slicing,
key lookup and attribute access (spec §4.1 step 2). -/
inductive PyPath where
  | subject
  | index (p : PyPath) (i : Int)
  | sliceFrom (p : PyPath) (i : Nat)
  | sliceFromTo (p : PyPath) (i : Nat) (j : Int)
  | key (p : PyPath) (k : PyLit)
  | attr (p : PyPath) (a : String)
  | matchArg (p : PyPath) (cls : String) (i : Nat)
  | restDict (p : PyPath) (ks : List PyLit)
deriving DecidableEq, Repr

/-- A boolean test-term of a compiled condition.  `seqTest` is the
emitted structural-sequence test
`isinstance(p, collections.abc.Sequence) and not isinstance(p, (str, collections.abc.Mapping))`;
`instTest` with several class names renders as `isinstance(p, (c1, c2))`;
`tableShort cls n` is the emitted
`not (hasattr(cls, "__match_args__") and len(cls.__match_args__) >= n)`;
`orJoin` is the disjunction-of-conjunctions a merged OR-pattern
produces. -/
inductive PyTerm where
  | eqLit (p : PyPath) (v : PyLit)
  | isLit (p : PyPath) (v : PyLit)
  | eqConst (p : PyPath) (dotted : String)
  | eqTupleLit (p : PyPath) (vs : List PyLit)
  | inTupleLit (p : PyPath) (vs : List PyLit)
  | seqTest (p : PyPath)
  | mapTest (p : PyPath)
  | instTest (p : PyPath) (clss : List String)
  | lenEq (p : PyPath) (n : Nat)
  | lenGe (p : PyPath) (n : Nat)
  | hasKey (p : PyPath) (k : PyLit)
  | tableShort (cls : String) (n : Nat)
  | orJoin (alts : List (List PyTerm))

/-- Evaluation context: the per-class positional field-name tables
(`__match_args__`) and the global constants dotted value-patterns can
refer to. -/
structure PyCtx where
  matchArgs : List (String × List String)
  consts : List (String × PyVal)

/-- The elements of a value viewed as a sequence (indexing a string
yields one-character strings, indexing bytes yields integers, exactly as
in the source language). -/
def pySeqElems : PyVal → Option (List PyVal)
  | .list xs => some xs
  | .tuple xs => some xs
  | .str s => some (s.toList.map fun c => .str (String.mk [c]))
  | .bytes bs => some (bs.map fun b => .int b)
  | _ => none

/-- `v[i]` with the source language's negative-index convention. -/
def pyGetIdx (v : PyVal) (i : Int) : Except String PyVal :=
  match pySeqElems v with
  | none => .error "TypeError: object is not subscriptable"
  | some xs =>
    let n : Int := xs.length
    let j : Int := if i < 0 then n + i else i
    if h : 0 ≤ j ∧ j < n then
      .ok (xs.get ⟨j.toNat, by omega⟩)
    else
      .error "IndexError: index out of range"

/-- `list(v[i:j])` (with `j = none` meaning "to the end"), used for the
materialized starred-slice bindings. -/
def pySlice (v : PyVal) (i : Nat) (j : Option Int) : Except String PyVal :=
  match pySeqElems v with
  | none => .error "TypeError: object is not subscriptable"
  | some xs =>
    let n : Int := xs.length
    let stop : Int := match j with
      | none => n
      | some jv => if jv < 0 then n + jv else jv
    .ok (.list ((xs.drop i).take (stop - i).toNat))

/-- Look up an attribute of an object value. -/
def pyGetAttr (v : PyVal) (a : String) : Except String PyVal :=
  match v with
  | .obj _ attrs =>
    match attrs.lookup a with
    | some w => .ok w
    | none => .error ("AttributeError: " ++ a)
  | _ => .error ("AttributeError: " ++ a)

/-- Look up `v[k]` for a literal key on a mapping value. -/
def pyGetKey (v : PyVal) (k : PyLit) : Except String PyVal :=
  match v with
  | .dict kvs =>
    match kvs.find? (fun kv => pyEq kv.fst.toVal k.toVal) with
    | some kv => .ok kv.snd
    | none => .error "KeyError"
  | _ => .error "TypeError: object is not subscriptable"

/-- Evaluate an access path against the subject value (spec §4.1:
every nested access resolves to a sub-expression of the single captured
subject). -/
def evalPath (ctx : PyCtx) (subj : PyVal) : PyPath → Except String PyVal
  | .subject => .ok subj
  | .index p i => do pyGetIdx (← evalPath ctx subj p) i
  | .sliceFrom p i => do pySlice (← evalPath ctx subj p) i none
  | .sliceFromTo p i j => do pySlice (← evalPath ctx subj p) i (some j)
  | .key p k => do pyGetKey (← evalPath ctx subj p) k
  | .attr p a => do pyGetAttr (← evalPath ctx subj p) a
  | .matchArg p cls i => do
    let v ← evalPath ctx subj p
    match ctx.matchArgs.lookup cls with
    | none => .error ("AttributeError: type object '" ++ cls ++ "' has no attribute '__match_args__'")
    | some fields =>
      match fields.get? i with
      | none => .error "IndexError: tuple index out of range"
      | some f => pyGetAttr v f
  | .restDict p ks => do
    let v ← evalPath ctx subj p
    match v with
    | .dict kvs => .ok (.dict (kvs.filter fun kv => !(ks.any fun k => pyEq kv.fst.toVal k.toVal)))
    | _ => .error "TypeError: object is not a mapping"

mutual

/-- Evaluate one condition term against the subject. -/
def evalTerm (ctx : PyCtx) (subj : PyVal) : PyTerm → Except String Bool
  | .eqLit p v => do .ok (pyEq (← evalPath ctx subj p) v.toVal)
  | .isLit p v => do
    let w ← evalPath ctx subj p
    match v, w with
    | .bool b, .bool b' => .ok (b == b')
    | .noneL, .noneV => .ok true
    | _, _ => .ok false
  | .eqConst p dotted => do
    let w ← evalPath ctx subj p
    match ctx.consts.lookup dotted with
    | some c => .ok (pyEq w c)
    | none => .error ("NameError: " ++ dotted)
  | .eqTupleLit p vs => do
    .ok (pyEq (← evalPath ctx subj p) (.tuple (vs.map PyLit.toVal)))
  | .inTupleLit p vs => do
    let w ← evalPath ctx subj p
    .ok (vs.any fun v => pyEq w v.toVal)
  | .seqTest p => do
    let w ← evalPath ctx subj p
    .ok (pyIsSequence w && !(pyIsStr w || pyIsMapping w))
  | .mapTest p => do .ok (pyIsMapping (← evalPath ctx subj p))
  | .instTest p clss => do
    let w ← evalPath ctx subj p
    .ok (clss.any fun cls => pyIsInst w cls)
  | .lenEq p n => do
    match pyLen (← evalPath ctx subj p) with
    | some m => .ok (m == n)
    | none => .error "TypeError: object has no len()"
  | .lenGe p n => do
    match pyLen (← evalPath ctx subj p) with
    | some m => .ok (n ≤ m)
    | none => .error "TypeError: object has no len()"
  | .hasKey p k => do
    let w ← evalPath ctx subj p
    match w with
    | .dict kvs => .ok (kvs.any fun kv => pyEq kv.fst.toVal k.toVal)
    | _ => .error "TypeError: argument is not a mapping"
  | .tableShort cls n =>
    match ctx.matchArgs.lookup cls with
    | none => .ok true
    | some fields => .ok (!(n ≤ fields.length))
  | .orJoin alts => evalDisj ctx subj alts

/-- Left-to-right short-circuit conjunction of condition terms. -/
def evalConj (ctx : PyCtx) (subj : PyVal) : List PyTerm → Except String Bool
  | [] => .ok true
  | t :: ts => do
    if (← evalTerm ctx subj t) then evalConj ctx subj ts else .ok false

/-- Left-to-right short-circuit disjunction of conjunctions. -/
def evalDisj (ctx : PyCtx) (subj : PyVal) : List (List PyTerm) → Except String Bool
  | [] => .ok false
  | c :: cs => do
    if (← evalConj ctx subj c) then .ok true else evalDisj ctx subj cs

end

/-! ## Part A: patterns and their compilation -/

/-- Modelled from the spec: the `Pattern` variant of spec §3 (the engine
module is absent from `src/`).  `capture none` is the wildcard `_`;
`seqP` carries the concrete form (`tupleForm = true` for a parenthesized
tuple pattern, `false` for a bracketed list pattern), the fixed
subpatterns before and after an optional star, and the star's optional
capture name (`some none` is a bare `*_`). -/
inductive PyPattern where
  | lit (v : PyLit)
  | capture (nm : Option String)
  | valueP (dotted : String)
  | seqP (tupleForm : Bool) (pre : List PyPattern) (star : Option (Option String)) (post : List PyPattern)
  | mapP (pairs : List (PyLit × PyPattern)) (rest : Option String)
  | clsP (cls : String) (pos : List PyPattern) (kw : List (String × PyPattern))
  | orP (alts : List PyPattern)
  | asP (sub : PyPattern) (nm : String)
  | groupP (sub : PyPattern)

/-- A deferred runtime-error branch: when `cond` holds, the emitted code
raises a `TypeError` carrying `msg` (spec §7 "deferred/runtime
errors"). -/
structure RaiseArm where
  cond : List PyTerm
  msg : String

/-- One compiled alternative of a pattern: the spec §3 `CompiledBranch`
before guard and body are attached — deferred error branches, the
conjunction of condition terms, and the ordered name bindings. -/
structure PyAlt where
  raises : List RaiseArm
  terms : List PyTerm
  binds : List (String × PyPath)

/-- Conjunction of two alternative sets: every combination, with the
left factor's error branches, terms and bindings first. -/
def altProd (a b : List PyAlt) : List PyAlt :=
  a.flatMap fun x => b.map fun y =>
    ⟨x.raises ++ y.raises, x.terms ++ y.terms, x.binds ++ y.binds⟩

/-- The single always-true alternative. -/
def altOne : List PyAlt := [⟨[], [], []⟩]

/-- The test-term of a literal pattern: equality, except that the
booleans and `None` use identity comparison (spec §4.1 `Literal(v)`). -/
def litTerm (path : PyPath) (v : PyLit) : PyTerm :=
  match v with
  | .bool _ => .isLit path v
  | .noneL => .isLit path v
  | _ => .eqLit path v

/-- If every pattern in the list is a literal pattern, the literals. -/
def litsOf : List PyPattern → Option (List PyLit)
  | [] => some []
  | .lit v :: ps => (litsOf ps).map fun vs => v :: vs
  | _ => none

/-- If the alternative is exactly one equality-against-a-literal term
with no bindings and no error branches, that literal (used for the
`in`-tuple merge of all-literal OR-patterns). -/
def altSingleEqLit (path : PyPath) : PyAlt → Option PyLit
  | ⟨[], [.eqLit p v], []⟩ => if p = path then some v else none
  | _ => none

/-- If the alternative is exactly one `isinstance` term with no bindings
and no error branches, its class list (used for the
`isinstance`-tuple merge of OR-patterns of class patterns). -/
def altSingleInst (path : PyPath) : PyAlt → Option (List String)
  | ⟨[], [.instTest p cs], []⟩ => if p = path then some cs else none
  | _ => none

/-- Collect `some`-images of a function over a list, provided every
element maps to `some`. -/
def allSome {α β : Type} (f : α → Option β) : List α → Option (List β)
  | [] => some []
  | a :: as' => do pure ((← f a) :: (← allSome f as'))

/-- The deferred-error message for a positional class pattern whose
field-name table is missing or too short, exactly as the emitted code of
the tests spells it. -/
def posArityMsg (cls : String) (n : Nat) : String :=
  cls ++ "() accepts 0 positional sub-patterns (" ++ toString n ++ " given)"

mutual

/-- Modelled from the spec: the per-pattern-kind compilation of spec
§4.1 step 2 (the engine module is absent from `src/`), with the emitted
shapes of each kind taken from the expected outputs in
`test__match_patterns.py`:

* literals use equality (identity for booleans/`None`);
* a capture binds and tests nothing;
* for a tuple-form sequence pattern of literals only (and no star) the
  whole pattern is one equality against the literal tuple (test
  `test_sequence_matching_tuple`: `case (0, 0)` compiles to
  `point == (0, 0)`), while every other sequence pattern gets the
  structural-sequence test, the length test (`== N` fixed / `>= N`
  with a star, `N` the number of fixed positions), the fixed positions
  left-to-right (positions after a star indexed from the end), and a
  materialized list binding for a named star;
* a mapping pattern gets the mapping test, then per-key containment and
  recursive compilation (an empty mapping pattern gets a length-0 test);
* a class pattern gets `isinstance`, positional subpatterns resolved
  through the class's field-name table with a deferred arity-error
  branch, and keyword subpatterns as attribute accesses;
* an OR-pattern merges binding-free alternatives (literals into an
  `in`-tuple test, class tests into one `isinstance`, otherwise a
  disjunction) and expands alternatives that bind names into
  independent compiled alternatives in source order;
* an AS-pattern adds the whole-value binding in front;
* a group is transparent. -/
def compileP (path : PyPath) : PyPattern → List PyAlt
  | .lit v => [⟨[], [litTerm path v], []⟩]
  | .capture none => altOne
  | .capture (some n) => [⟨[], [], [(n, path)]⟩]
  | .valueP d => [⟨[], [.eqConst path d], []⟩]
  | .seqP tupleForm pre star post =>
    if tupleForm && star.isNone && post.isEmpty && (litsOf pre).isSome then
      [⟨[], [.eqTupleLit path ((litsOf pre).getD [])], []⟩]
    else
      let fixedCount := pre.length + post.length
      let lenT : PyTerm := match star with
        | none => .lenEq path fixedCount
        | some _ => .lenGe path fixedCount
      let starAlt : List PyAlt := match star with
        | some (some nm) =>
          if post.isEmpty then
            [⟨[], [], [(nm, .sliceFrom path pre.length)]⟩]
          else
            [⟨[], [], [(nm, .sliceFromTo path pre.length (-(post.length : Int)))]⟩]
        | _ => altOne
      altProd (altProd (altProd [⟨[], [.seqTest path, lenT], []⟩]
        (compileIdx path 0 pre)) starAlt)
        (compileNegIdx path post.length post)
  | .mapP pairs rest =>
    let restAlt : List PyAlt := match rest with
      | some nm => [⟨[], [], [(nm, .restDict path (pairs.map Prod.fst))]⟩]
      | none => altOne
    match pairs, rest with
    | [], none => [⟨[], [.mapTest path, .lenEq path 0], []⟩]
    | _, _ =>
      altProd (altProd [⟨[], [.mapTest path], []⟩] (compilePairs path pairs)) restAlt
  | .clsP cls pos kw =>
    let raises : List RaiseArm :=
      if pos.isEmpty then []
      else [⟨[.instTest path [cls], .tableShort cls pos.length], posArityMsg cls pos.length⟩]
    altProd (altProd [⟨raises, [.instTest path [cls]], []⟩]
      (compilePos path cls 0 pos))
      (compileKw path kw)
  | .orP alts =>
    let cs := compileList path alts
    if cs.all (fun a => a.binds.isEmpty && a.raises.isEmpty) && !cs.isEmpty then
      match allSome (altSingleEqLit path) cs with
      | some vs => [⟨[], [.inTupleLit path vs], []⟩]
      | none =>
        match allSome (altSingleInst path) cs with
        | some css => [⟨[], [.instTest path css.flatten], []⟩]
        | none => [⟨[], [.orJoin (cs.map PyAlt.terms)], []⟩]
    else cs
  | .asP sub nm => (compileP path sub).map fun a => ⟨a.raises, a.terms, (nm, path) :: a.binds⟩
  | .groupP sub => compileP path sub

/-- Compile the fixed subpatterns before a star, the `i`-th against
`path[i]`. -/
def compileIdx (path : PyPath) (i : Nat) : List PyPattern → List PyAlt
  | [] => altOne
  | p :: ps => altProd (compileP (.index path i) p) (compileIdx path (i + 1) ps)

/-- Compile the fixed subpatterns after a star, the next against
`path[-k]` where `k` subpatterns remain. -/
def compileNegIdx (path : PyPath) (k : Nat) : List PyPattern → List PyAlt
  | [] => altOne
  | p :: ps => altProd (compileP (.index path (-(k : Int))) p) (compileNegIdx path (k - 1) ps)

/-- Compile the key/subpattern pairs of a mapping pattern: a containment
test per key, then the subpattern against `path[key]`. -/
def compilePairs (path : PyPath) : List (PyLit × PyPattern) → List PyAlt
  | [] => altOne
  | (k, p) :: ps =>
    altProd (altProd [⟨[], [.hasKey path k], []⟩] (compileP (.key path k) p))
      (compilePairs path ps)

/-- Compile the positional subpatterns of a class pattern, the `i`-th
against `getattr(path, cls.__match_args__[i])`. -/
def compilePos (path : PyPath) (cls : String) (i : Nat) : List PyPattern → List PyAlt
  | [] => altOne
  | p :: ps => altProd (compileP (.matchArg path cls i) p) (compilePos path cls (i + 1) ps)

/-- Compile the keyword subpatterns of a class pattern against attribute
accesses. -/
def compileKw (path : PyPath) : List (String × PyPattern) → List PyAlt
  | [] => altOne
  | (k, p) :: ps => altProd (compileP (.attr path k) p) (compileKw path ps)

/-- Compile each alternative of an OR-pattern, concatenating the results
in source order. -/
def compileList (path : PyPath) : List PyPattern → List PyAlt
  | [] => []
  | p :: ps => compileP path p ++ compileList path ps

end

/-! ## Part A: guards, cases, and the compiled chain -/

/-- A guard expression: names bound by the pattern, access paths (after
substitution), literals, comparison and conjunction. -/
inductive PyGExpr where
  | gvar (n : String)
  | gpath (p : PyPath)
  | glit (v : PyLit)
  | gGt (a b : PyGExpr)
  | gAnd (a b : PyGExpr)
deriving Repr

/-- Substitute the case's bindings into a guard: a bound name becomes
its access path (the algebraic-substitution optimization of spec §4.1
step 3, visible in the tests as e.g. `value.x > 0` for a guard
`x > 0`). -/
def substG (binds : List (String × PyPath)) : PyGExpr → PyGExpr
  | .gvar n =>
    match binds.lookup n with
    | some p => .gpath p
    | none => .gvar n
  | .gpath p => .gpath p
  | .glit v => .glit v
  | .gGt a b => .gGt (substG binds a) (substG binds b)
  | .gAnd a b => .gAnd (substG binds a) (substG binds b)

/-- Evaluate a guard expression against the subject (free names resolve
through the global constants). -/
def evalG (ctx : PyCtx) (subj : PyVal) : PyGExpr → Except String PyVal
  | .gvar n =>
    match ctx.consts.lookup n with
    | some v => .ok v
    | none => .error ("NameError: " ++ n)
  | .gpath p => evalPath ctx subj p
  | .glit v => .ok v.toVal
  | .gGt a b => do
    match (← evalG ctx subj a).numView, (← evalG ctx subj b).numView with
    | some x, some y => .ok (.bool (decide (y < x)))
    | _, _ => .error "TypeError: unorderable types"
  | .gAnd a b => do
    let x ← evalG ctx subj a
    if pyTruthy x then evalG ctx subj b else .ok x

/-- One source `Case`: a pattern and an optional guard (spec §3); the
body is identified by the case's position. -/
structure MCase where
  pat : PyPattern
  guard : Option PyGExpr

/-- The spec §3 `CompiledBranch`: condition terms, deferred-error
branches, ordered pre-body bindings, the case's guard, and the index of
the case body it runs. -/
structure PyBranch where
  raises : List RaiseArm
  cond : List PyTerm
  binds : List (String × PyPath)
  guard : Option PyGExpr
  body : Nat

/-- What an arm of the serialized if/elif chain does when its condition
holds: run a case body (after binding), or raise a deferred
`TypeError`. -/
inductive ArmAct where
  | exec (binds : List (String × PyPath)) (guard : Option PyGExpr) (body : Nat)
  | raiseErr (msg : String)

/-- One arm of the serialized chain. -/
structure ChainArm where
  cond : List PyTerm
  act : ArmAct

/-- The serialized if/elif/…[/else] chain: ordered arms plus an
optional terminal `else` running a body after binding. -/
structure PyChain where
  arms : List ChainArm
  elseArm : Option (List (String × PyPath) × Nat)

/-- Modelled from the spec: per-case compilation (spec §4.1 step 1) —
each compiled alternative of the pattern becomes a branch carrying the
same guard and the case's body. -/
def compileCase (idx : Nat) (c : MCase) : List PyBranch :=
  (compileP .subject c.pat).map fun a => ⟨a.raises, a.terms, a.binds, c.guard, idx⟩

/-- Compile the cases in source order, numbering the bodies. -/
def compileCases (i : Nat) : List MCase → List PyBranch
  | [] => []
  | c :: cs => compileCase i c ++ compileCases (i + 1) cs

/-- The chain arms a single compiled branch contributes: its deferred
error arms, then the branch itself. -/
def branchArms (b : PyBranch) : List ChainArm :=
  b.raises.map (fun r => ⟨r.cond, .raiseErr r.msg⟩) ++
    [⟨b.cond, .exec b.binds b.guard b.body⟩]

/-- A compiled branch whose condition is always true: no condition
terms, no deferred error arms, and no guard. -/
def trivialBranch (b : PyBranch) : Bool :=
  b.cond.isEmpty && b.raises.isEmpty && b.guard.isNone

/-- Modelled from the spec: assembly (spec §4.1 step 4) — the branches
become if/elif arms in order; the final branch is rendered as the
terminal `else` exactly when its condition is always true and it has no
guard (its condition would serve no purpose as an `elif`); otherwise no
terminal catch-all is synthesized. -/
def assemble (bs : List PyBranch) : PyChain :=
  match bs.getLast? with
  | some lastB =>
    if trivialBranch lastB then
      ⟨(bs.dropLast).flatMap branchArms, some (lastB.binds, lastB.body)⟩
    else
      ⟨bs.flatMap branchArms, none⟩
  | none => ⟨[], none⟩

/-- Modelled from the spec: the whole-match contract (spec §4.1) —
compile every case in source order and assemble the chain. -/
def compileMatch (cases : List MCase) : PyChain :=
  assemble (compileCases 0 cases)

/-- The outcome of running a compiled chain on a subject: a case body
runs with an environment of bindings, a deferred `TypeError` is raised,
an evaluation error escapes, or no branch fires and nothing happens. -/
inductive PyOutcome where
  | body (idx : Nat) (env : List (String × PyVal))
  | raised (msg : String)
  | errored (msg : String)
  | nomatch

/-- Evaluate a branch's bindings left-to-right into an environment. -/
def evalBinds (ctx : PyCtx) (subj : PyVal) : List (String × PyPath) → Except String (List (String × PyVal))
  | [] => .ok []
  | (n, p) :: bs => do
    let v ← evalPath ctx subj p
    let rest ← evalBinds ctx subj bs
    .ok ((n, v) :: rest)

/-- Run the arms of a chain in order: the first arm whose condition
(and, for a body arm, substituted guard) holds fires; a failing guard or
condition falls through to the next arm. -/
def runArms (ctx : PyCtx) (subj : PyVal) : List ChainArm → Option PyOutcome
  | [] => none
  | arm :: rest =>
    match evalConj ctx subj arm.cond with
    | .error e => some (.errored e)
    | .ok false => runArms ctx subj rest
    | .ok true =>
      match arm.act with
      | .raiseErr msg => some (.raised msg)
      | .exec binds guard body =>
        let fire : Except String Bool :=
          match guard with
          | none => .ok true
          | some g => do .ok (pyTruthy (← evalG ctx subj (substG binds g)))
        match fire with
        | .error e => some (.errored e)
        | .ok false => runArms ctx subj rest
        | .ok true =>
          match evalBinds ctx subj binds with
          | .error e => some (.errored e)
          | .ok env => some (.body body env)

/-- Run a compiled chain on a subject: the arms in order, then the
terminal `else` if there is one, else silent fall-through. -/
def runChain (ctx : PyCtx) (subj : PyVal) (ch : PyChain) : PyOutcome :=
  match runArms ctx subj ch.arms with
  | some oc => oc
  | none =>
    match ch.elseArm with
    | some (binds, body) =>
      match evalBinds ctx subj binds with
      | .error e => .errored e
      | .ok env => .body body env
    | none => .nomatch
-- Sanity examples appended temporarily (validated, then trimmed)
-- test_sequence_matching_tuple: case (0, 0) -> point == (0, 0)
example : compileP .subject (.seqP true [.lit (.int 0), .lit (.int 0)] none []) =
    [⟨[], [.eqTupleLit .subject [.int 0, .int 0]], []⟩] := rfl

-- case (0, y) -> seq test, len == 2, point[0] == 0; y = point[1]
example : compileP .subject (.seqP true [.lit (.int 0), .capture (some "y")] none []) =
    [⟨[], [.seqTest .subject, .lenEq .subject 2, .eqLit (.index .subject 0) (.int 0)],
      [("y", .index .subject 1)]⟩] := rfl

-- test_star_patterns: [first, *rest] -> seq test, len >= 1; first = s[0]; rest = list(s[1:])
example : compileP .subject (.seqP false [.capture (some "first")] (some (some "rest")) []) =
    [⟨[], [.seqTest .subject, .lenGe .subject 1],
      [("first", .index .subject 0), ("rest", .sliceFrom .subject 1)]⟩] := rfl

-- [*pfx, last] -> len >= 1; pfx = list(s[0:-1]); last = s[-1]
example : compileP .subject (.seqP false [] (some (some "pfx")) [.capture (some "last")]) =
    [⟨[], [.seqTest .subject, .lenGe .subject 1],
      [("pfx", .sliceFromTo .subject 0 (-1)), ("last", .index .subject (-1))]⟩] := rfl

-- case [] (list form, all-literal vacuously) -> structural test + len == 0
example : compileP .subject (.seqP false [] none []) =
    [⟨[], [.seqTest .subject, .lenEq .subject 0], []⟩] := rfl

-- test_mixed_sequence_patterns: ["git", "add", *files] -> len >= 2
example : compileP .subject (.seqP false [.lit (.str "git"), .lit (.str "add")] (some (some "files")) []) =
    [⟨[], [.seqTest .subject, .lenGe .subject 2, .eqLit (.index .subject 0) (.str "git"),
      .eqLit (.index .subject 1) (.str "add")],
      [("files", .sliceFrom .subject 2)]⟩] := rfl

-- mapping: {"action": "get", "resource": r}
example : compileP .subject (.mapP [(.str "action", .lit (.str "get")), (.str "resource", .capture (some "r"))] none) =
    [⟨[], [.mapTest .subject, .hasKey .subject (.str "action"),
      .eqLit (.key .subject (.str "action")) (.str "get"), .hasKey .subject (.str "resource")],
      [("r", .key .subject (.str "resource"))]⟩] := rfl

-- class keyword: Point(x=0, y=y)
example : compileP .subject (.clsP "Point" [] [("x", .lit (.int 0)), ("y", .capture (some "y"))]) =
    [⟨[], [.instTest .subject ["Point"], .eqLit (.attr .subject "x") (.int 0)],
      [("y", .attr .subject "y")]⟩] := rfl

-- positional: Point(0, y) with deferred arity error branch
example : compileP .subject (.clsP "Point" [.lit (.int 0), .capture (some "y")] []) =
    [⟨[⟨[.instTest .subject ["Point"], .tableShort "Point" 2],
        "Point() accepts 0 positional sub-patterns (2 given)"⟩],
      [.instTest .subject ["Point"], .eqLit (.matchArg .subject "Point" 0) (.int 0)],
      [("y", .matchArg .subject "Point" 1)]⟩] := rfl

-- OR merges: (1 | 2 | 3) -> value in (1, 2, 3)
example : compileP .subject (.orP [.lit (.int 1), .lit (.int 2), .lit (.int 3)]) =
    [⟨[], [.inTupleLit .subject [.int 1, .int 2, .int 3]], []⟩] := rfl

-- (int() | float()) -> isinstance(value, (int, float))
example : compileP .subject (.orP [.clsP "int" [] [], .clsP "float" [] []]) =
    [⟨[], [.instTest .subject ["int", "float"]], []⟩] := rfl

-- (int() | 0 | bool()) -> isinstance(value, int) or value == 0 or isinstance(value, bool)
example : compileP .subject (.orP [.clsP "int" [] [], .lit (.int 0), .clsP "bool" [] []]) =
    [⟨[], [.orJoin [[.instTest .subject ["int"]], [.eqLit .subject (.int 0)],
      [.instTest .subject ["bool"]]]], []⟩] := rfl

-- OR expansion: Point(x=x, y=0) | Point(x=0, y=x) -> two independent alternatives
example : compileP .subject (.orP [.clsP "Point" [] [("x", .capture (some "x")), ("y", .lit (.int 0))],
    .clsP "Point" [] [("x", .lit (.int 0)), ("y", .capture (some "x"))]]) =
    [⟨[], [.instTest .subject ["Point"], .eqLit (.attr .subject "y") (.int 0)], [("x", .attr .subject "x")]⟩,
     ⟨[], [.instTest .subject ["Point"], .eqLit (.attr .subject "x") (.int 0)], [("x", .attr .subject "y")]⟩] := rfl

-- _ as anything -> always-true, binding to the whole subject
example : compileP .subject (.asP (.capture none) "anything") =
    [⟨[], [], [("anything", .subject)]⟩] := rfl

-- assembly: literal chain with a final wildcard gets an else
example : compileMatch [⟨.lit (.int 400), none⟩, ⟨.lit (.int 404), none⟩, ⟨.capture none, none⟩] =
    ⟨[⟨[.eqLit .subject (.int 400)], .exec [] none 0⟩,
      ⟨[.eqLit .subject (.int 404)], .exec [] none 1⟩], some ([], 2)⟩ := rfl

-- semantics: 0.0 matches "case 0" via equality
example : runChain ⟨[], []⟩ (.float 0)
    (compileMatch [⟨.lit (.int 0), none⟩, ⟨.lit (.float 0), none⟩]) = .body 0 [] := rfl

-- semantics: True matched by "case True" via identity, 1 is not
example : runChain ⟨[], []⟩ (.int 1)
    (compileMatch [⟨.lit (.bool true), none⟩]) = .nomatch := rfl

-- semantics: a dict matches no sequence branch
example : runChain ⟨[], []⟩ (.dict [(.str "x", .int 1)])
    (compileMatch [⟨.seqP true [.lit (.int 0), .capture (some "y")] none [], none⟩]) = .nomatch := rfl

-- semantics: list [0, 5] matches (0, y)
example : runChain ⟨[], []⟩ (.list [.int 0, .int 5])
    (compileMatch [⟨.seqP true [.lit (.int 0), .lit (.int 0)] none [], none⟩,
      ⟨.seqP true [.lit (.int 0), .capture (some "y")] none [], none⟩]) =
    .body 1 [("y", .int 5)] := rfl

-- semantics: guard case: "case n if n > 100" fires only when the guard holds
example : runChain ⟨[], []⟩ (.int 150)
    (compileMatch [⟨.capture (some "n"), some (.gGt (.gvar "n") (.glit (.int 100)))⟩]) =
    .body 0 [("n", .int 150)] := rfl

example : runChain ⟨[], []⟩ (.int 50)
    (compileMatch [⟨.capture (some "n"), some (.gGt (.gvar "n") (.glit (.int 100)))⟩]) =
    .nomatch := rfl

/-! ## Part A: helper lemmas -/

/-- Conjunction with a single bind-free left factor prepends its terms to
every right alternative. -/
theorem altProd_base (ts : List PyTerm) (rs : List RaiseArm) (l : List PyAlt) :
    altProd [⟨rs, ts, []⟩] l = l.map fun y => ⟨rs ++ y.raises, ts ++ y.terms, y.binds⟩ := by
  simp [altProd]

/-- Case-by-case compilation distributes over appending case lists. -/
theorem compileCases_append (i : Nat) (xs ys : List MCase) :
    compileCases i (xs ++ ys) = compileCases i xs ++ compileCases (i + xs.length) ys := by
  induction xs generalizing i with
  | nil => simp [compileCases]
  | cons c cs ih => simp [compileCases, ih, List.append_assoc, Nat.add_assoc, Nat.add_comm 1]

/-- An arm whose condition evaluates to a clean `False`. -/
def condFalse (ctx : PyCtx) (subj : PyVal) (arm : ChainArm) : Bool :=
  match evalConj ctx subj arm.cond with
  | .ok false => true
  | _ => false

/-- If every arm's condition evaluates to a clean `False`, no arm fires,
raises, or errors. -/
theorem runArms_none_of_all_condFalse (ctx : PyCtx) (subj : PyVal) :
    ∀ arms : List ChainArm, arms.all (condFalse ctx subj) = true →
      runArms ctx subj arms = none := by
  intro arms
  induction arms with
  | nil => intro _; rfl
  | cons arm rest ih =>
    intro hall
    rw [List.all_cons] at hall
    have h1 := (Bool.and_eq_true _ _).mp hall
    unfold condFalse at h1
    unfold runArms
    revert h1
    match hc : evalConj ctx subj arm.cond with
    | .error e => intro h1; exact absurd h1.1 (by simp)
    | .ok true => intro h1; exact absurd h1.1 (by simp)
    | .ok false => intro h1; exact ih h1.2

/-! ## Part A: claim theorems -/

/-- A bare wildcard or bare capture, in the words of the claim (an
as-wrapped wildcard such as `_ as name` is not bare). -/
def bareWildcardOrCapture : PyPattern → Bool
  | .capture _ => true
  | _ => false

/-- C1 (counterexample): a match whose single (hence final) case is
`case _ as anything:` is rendered with a terminal `else` although its
pattern is not a bare wildcard or bare capture, refuting the claim's
"only if" direction. -/
theorem C1_as_wildcard_counterexample :
    (compileMatch [⟨.asP (.capture none) "anything", none⟩]).elseArm.isSome = true
    ∧ bareWildcardOrCapture (.asP (.capture none) "anything") = false := ⟨rfl, rfl⟩

/-- C1 (amended): the chain ends in a terminal `else` exactly when the
final compiled branch is always-true — no condition terms, no
deferred-error arms, no guard (which holds for a bare wildcard or bare
capture without guard, and also e.g. for `_ as name`); a final bare
wildcard or capture case without guard always yields the `else`; and
when there is no terminal `else`, a subject for which every arm's
condition evaluates cleanly to false executes no body and raises no
error. -/
theorem C1_terminal_else_rule (cases : List MCase) (hne : compileCases 0 cases ≠ []) :
    ((compileMatch cases).elseArm.isSome = true ↔
      trivialBranch ((compileCases 0 cases).getLast hne) = true)
    ∧ (∀ (pre : List MCase) (nm : Option String),
        (compileMatch (pre ++ [⟨.capture nm, none⟩])).elseArm.isSome = true)
    ∧ (∀ (ctx : PyCtx) (subj : PyVal),
        (compileMatch cases).elseArm = none →
        (compileMatch cases).arms.all (condFalse ctx subj) = true →
        runChain ctx subj (compileMatch cases) = .nomatch) := by
  refine ⟨?_, ?_, ?_⟩
  · unfold compileMatch assemble
    rw [List.getLast?_eq_getLast _ hne]
    by_cases ht : trivialBranch ((compileCases 0 cases).getLast hne) = true
    · simp [ht]
    · simp [ht]
  · intro pre nm
    unfold compileMatch assemble
    have hc : compileCases 0 (pre ++ [⟨.capture nm, none⟩]) =
        compileCases 0 pre ++ [⟨[], [], (match nm with
          | some n => [(n, PyPath.subject)]
          | none => []), none, pre.length⟩] := by
      rw [compileCases_append]
      cases nm <;> simp [compileCases, compileCase, compileP, altOne]
    rw [hc, List.getLast?_concat]
    simp [trivialBranch]
  · intro ctx subj helse hall
    unfold runChain
    rw [runArms_none_of_all_condFalse ctx subj _ hall, helse]

/-- C1 (witness): the amended rule applied at a one-case literal
match. -/
theorem C1_terminal_else_rule_witness :
    ((compileMatch [⟨.lit (.int 1), none⟩]).elseArm.isSome = true ↔
      trivialBranch ((compileCases 0 [⟨.lit (.int 1), none⟩]).getLast
        (List.cons_ne_nil _ _)) = true)
    ∧ (compileMatch ([⟨.lit (.int 7), none⟩] ++ [⟨.capture (some "n"), none⟩])).elseArm.isSome = true
    ∧ runChain ⟨[], []⟩ (.int 2) (compileMatch [⟨.lit (.int 1), none⟩]) = .nomatch :=
  ⟨(C1_terminal_else_rule [⟨.lit (.int 1), none⟩] (List.cons_ne_nil _ _)).1,
   (C1_terminal_else_rule [⟨.lit (.int 1), none⟩] (List.cons_ne_nil _ _)).2.1
     [⟨.lit (.int 7), none⟩] (some "n"),
   (C1_terminal_else_rule [⟨.lit (.int 1), none⟩] (List.cons_ne_nil _ _)).2.2
     ⟨[], []⟩ (.int 2) rfl rfl⟩

/-- The structural-sequence type test as the claim (and spec §4.1)
words it: strings, bytes, and mappings are all excluded from qualifying
as sequences. -/
def specSeqTypeTest (v : PyVal) : Bool :=
  pyIsSequence v && !(pyIsStr v || pyIsBytes v || pyIsMapping v)

/-- The compiled chain for `match s: case [x, y]: <body 0>`. -/
def twoCaptureChain : PyChain :=
  compileMatch [⟨.seqP false [.capture (some "x"), .capture (some "y")] none [], none⟩]

/-- C3 (code bug): the emitted structural-sequence test
`isinstance(p, Sequence) and not isinstance(p, (str, Mapping))` fails to
exclude bytes, so a bytes subject `b"ab"` satisfies the sequence pattern
`[x, y]` and the branch fires (binding the byte values), although the
claim — and the structural test the specification describes — excludes
bytes; strings and mappings are excluded and lists do match. -/
theorem C3_bytes_satisfies_sequence_test :
    evalTerm ⟨[], []⟩ (.bytes [97, 98]) (.seqTest .subject) = .ok true
    ∧ specSeqTypeTest (.bytes [97, 98]) = false
    ∧ runChain ⟨[], []⟩ (.bytes [97, 98]) twoCaptureChain =
        .body 0 [("x", .int 97), ("y", .int 98)]
    ∧ runChain ⟨[], []⟩ (.str "ab") twoCaptureChain = .nomatch
    ∧ runChain ⟨[], []⟩ (.dict [(.str "a", .int 1), (.str "b", .int 2)]) twoCaptureChain = .nomatch
    ∧ runChain ⟨[], []⟩ (.list [.int 7, .int 8]) twoCaptureChain =
        .body 0 [("x", .int 7), ("y", .int 8)] :=
  ⟨rfl, rfl, rfl, rfl, rfl, rfl⟩

/-- The compiled chain for `match s: case 0: <body 0> case 0.0: <body 1>`. -/
def zeroChain : PyChain :=
  compileMatch [⟨.lit (.int 0), none⟩, ⟨.lit (.float 0), none⟩]

/-- The compiled chain for `match s: case True: <body 0>`. -/
def trueChain : PyChain :=
  compileMatch [⟨.lit (.bool true), none⟩]

/-- C6: every literal pattern compiles to an equality test except the
booleans and `None`, which compile to identity tests; consequently a
`0.0` subject fires a `case 0:` branch (the equality collision is
preserved) while an integer `1` does not fire `case True:`. -/
theorem C6_literal_tests (path : PyPath) :
    (∀ n : Int, compileP path (.lit (.int n)) = [⟨[], [.eqLit path (.int n)], []⟩])
    ∧ (∀ q : Rat, compileP path (.lit (.float q)) = [⟨[], [.eqLit path (.float q)], []⟩])
    ∧ (∀ s : String, compileP path (.lit (.str s)) = [⟨[], [.eqLit path (.str s)], []⟩])
    ∧ (∀ b : Bool, compileP path (.lit (.bool b)) = [⟨[], [.isLit path (.bool b)], []⟩])
    ∧ compileP path (.lit .noneL) = [⟨[], [.isLit path .noneL], []⟩]
    ∧ runChain ⟨[], []⟩ (.float 0) zeroChain = .body 0 []
    ∧ runChain ⟨[], []⟩ (.bool true) trueChain = .body 0 []
    ∧ runChain ⟨[], []⟩ (.int 1) trueChain = .nomatch :=
  ⟨fun _ => rfl, fun _ => rfl, fun _ => rfl, fun _ => rfl, rfl, rfl, rfl, rfl⟩

/-- Whether a compiled pattern is a single equality comparison against a
literal tuple, with no sequence-type test and no length test. -/
def isSingleTupleEquality : List PyAlt → Bool
  | [⟨[], [.eqTupleLit _ _], []⟩] => true
  | _ => false

/-- C10 (counterexample): the list-form pattern `[]` has (vacuously)
all-literal subpatterns, yet it compiles to the structural-sequence test
plus a length test, not to a single equality comparison. -/
theorem C10_list_form_counterexample :
    litsOf ([] : List PyPattern) = some []
    ∧ isSingleTupleEquality (compileP .subject (.seqP false [] none [])) = false
    ∧ compileP .subject (.seqP false [] none []) =
        [⟨[], [.seqTest .subject, .lenEq .subject 0], []⟩] := ⟨rfl, rfl, rfl⟩

/-- The compiled chain for
`match p: case (0, 0): <body 0> case (0, y): <body 1>`. -/
def pairChain : PyChain :=
  compileMatch [⟨.seqP true [.lit (.int 0), .lit (.int 0)] none [], none⟩,
    ⟨.seqP true [.lit (.int 0), .capture (some "y")] none [], none⟩]

/-- C10 (amended): a tuple-form sequence pattern with no star whose
subpatterns are all literals compiles to a single equality comparison
against the literal tuple, with no sequence-type and no length test;
consequently the list `[0, 0]` does not take the `case (0, 0)` branch
(a list never equals a tuple) and falls through to `case (0, y)`, while
the tuple `(0, 0)` takes it. -/
theorem C10_tuple_literal_equality (path : PyPath) (pre : List PyPattern) (vs : List PyLit)
    (h : litsOf pre = some vs) :
    compileP path (.seqP true pre none []) = [⟨[], [.eqTupleLit path vs], []⟩]
    ∧ runChain ⟨[], []⟩ (.list [.int 0, .int 0]) pairChain = .body 1 [("y", .int 0)]
    ∧ runChain ⟨[], []⟩ (.tuple [.int 0, .int 0]) pairChain = .body 0 [] := by
  refine ⟨?_, rfl, rfl⟩
  show (if (true && Option.isNone (none : Option (Option String)) &&
      List.isEmpty ([] : List PyPattern) && (litsOf pre).isSome : Bool) then
      [(⟨[], [.eqTupleLit path ((litsOf pre).getD [])], []⟩ : PyAlt)]
    else _) = _
  rw [h]
  rfl

/-- C10 (witness): the amended rule applied at the two-literal tuple
pattern `(0, 0)`. -/
theorem C10_tuple_literal_equality_witness :
    compileP .subject (.seqP true [.lit (.int 0), .lit (.int 0)] none []) =
      [⟨[], [.eqTupleLit .subject [.int 0, .int 0]], []⟩]
    ∧ runChain ⟨[], []⟩ (.list [.int 0, .int 0]) pairChain = .body 1 [("y", .int 0)]
    ∧ runChain ⟨[], []⟩ (.tuple [.int 0, .int 0]) pairChain = .body 0 [] :=
  C10_tuple_literal_equality .subject [.lit (.int 0), .lit (.int 0)] [.int 0, .int 0] rfl

/-- Membership in a conjunction of alternative sets decomposes into a
member of each factor. -/
theorem mem_altProd {a : PyAlt} {u v : List PyAlt} (h : a ∈ altProd u v) :
    ∃ b ∈ u, ∃ c ∈ v, a = ⟨b.raises ++ c.raises, b.terms ++ c.terms, b.binds ++ c.binds⟩ := by
  unfold altProd at h
  simp only [List.mem_flatMap, List.mem_map] at h
  obtain ⟨b, hb, c, hc, rfl⟩ := h
  exact ⟨b, hb, c, hc, rfl⟩

/-- The first OR-alternative of the claim's example
`case Point(x, 0) | Point(0, x)`, compiled. -/
def pointOrAlt1 : PyAlt :=
  ⟨[⟨[.instTest .subject ["Point"], .tableShort "Point" 2],
      "Point() accepts 0 positional sub-patterns (2 given)"⟩],
    [.instTest .subject ["Point"], .eqLit (.matchArg .subject "Point" 1) (.int 0)],
    [("x", .matchArg .subject "Point" 0)]⟩

/-- The second OR-alternative of the claim's example, compiled. -/
def pointOrAlt2 : PyAlt :=
  ⟨[⟨[.instTest .subject ["Point"], .tableShort "Point" 2],
      "Point() accepts 0 positional sub-patterns (2 given)"⟩],
    [.instTest .subject ["Point"], .eqLit (.matchArg .subject "Point" 0) (.int 0)],
    [("x", .matchArg .subject "Point" 1)]⟩

/-- The OR-pattern `Point(x, 0) | Point(0, x)` of the claim's example. -/
def pointOrAlts : List PyPattern :=
  [.clsP "Point" [.capture (some "x"), .lit (.int 0)] [],
   .clsP "Point" [.lit (.int 0), .capture (some "x")] []]

/-- A demonstration guard `x > 100`. -/
def orGuardDemo : Option PyGExpr := some (.gGt (.gvar "x") (.glit (.int 100)))

/-- A context whose field-name table has `Point.__match_args__ = ("x", "y")`. -/
def pointTableCtx : PyCtx := ⟨[("Point", ["x", "y"])], []⟩

/-- C2: an OR-pattern some of whose compiled alternatives bind names is
expanded into one independent compiled branch per alternative, in the
alternatives' source order, every branch carrying the case's guard and
body; in particular `case Point(x, 0) | Point(0, x)` becomes two
branches binding `x` from a different positional attribute, and running
the compiled chain on `Point(0, 5)` fires the second branch with
`x = 5`. -/
theorem C2_or_expansion (alts : List PyPattern) (g : Option PyGExpr) (idx : Nat)
    (h : ∃ a ∈ compileList .subject alts, a.binds ≠ []) :
    compileP .subject (.orP alts) = compileList .subject alts
    ∧ compileCase idx ⟨.orP alts, g⟩ =
        ((compileList .subject alts).map fun a => (⟨a.raises, a.terms, a.binds, g, idx⟩ : PyBranch))
    ∧ (∀ b ∈ compileCase idx ⟨.orP alts, g⟩, b.guard = g ∧ b.body = idx)
    ∧ compileCase 5 ⟨.orP pointOrAlts, orGuardDemo⟩ =
        [⟨pointOrAlt1.raises, pointOrAlt1.terms, pointOrAlt1.binds, orGuardDemo, 5⟩,
         ⟨pointOrAlt2.raises, pointOrAlt2.terms, pointOrAlt2.binds, orGuardDemo, 5⟩]
    ∧ runChain pointTableCtx (.obj "Point" [("x", .int 0), ("y", .int 5)])
        (compileMatch [⟨.orP pointOrAlts, none⟩]) = .body 0 [("x", .int 5)] := by
  obtain ⟨a, ha, hbn⟩ := h
  have hall : (compileList .subject alts).all
      (fun a => a.binds.isEmpty && a.raises.isEmpty) = false := by
    rw [List.all_eq_false]
    exact ⟨a, ha, by simp [hbn]⟩
  have h1 : compileP .subject (.orP alts) = compileList .subject alts := by
    simp [compileP, hall]
  refine ⟨h1, ?_, ?_, rfl, rfl⟩
  · unfold compileCase
    rw [h1]
  · intro b hb
    unfold compileCase at hb
    rw [h1] at hb
    simp only [List.mem_map] at hb
    obtain ⟨c, _, rfl⟩ := hb
    exact ⟨rfl, rfl⟩

/-- C2 (witness): the expansion rule applied at the claim's
`Point(x, 0) | Point(0, x)` example. -/
theorem C2_or_expansion_witness :
    compileP .subject (.orP pointOrAlts) = compileList .subject pointOrAlts
    ∧ compileCase 5 ⟨.orP pointOrAlts, orGuardDemo⟩ =
        ((compileList .subject pointOrAlts).map fun a => (⟨a.raises, a.terms, a.binds, orGuardDemo, 5⟩ : PyBranch))
    ∧ (∀ b ∈ compileCase 5 ⟨.orP pointOrAlts, orGuardDemo⟩, b.guard = orGuardDemo ∧ b.body = 5)
    ∧ compileCase 5 ⟨.orP pointOrAlts, orGuardDemo⟩ =
        [⟨pointOrAlt1.raises, pointOrAlt1.terms, pointOrAlt1.binds, orGuardDemo, 5⟩,
         ⟨pointOrAlt2.raises, pointOrAlt2.terms, pointOrAlt2.binds, orGuardDemo, 5⟩]
    ∧ runChain pointTableCtx (.obj "Point" [("x", .int 0), ("y", .int 5)])
        (compileMatch [⟨.orP pointOrAlts, none⟩]) = .body 0 [("x", .int 5)] :=
  C2_or_expansion pointOrAlts orGuardDemo 5
    ⟨pointOrAlt1,
      (show compileList .subject pointOrAlts = pointOrAlt1 :: [pointOrAlt2] from rfl) ▸
        List.mem_cons_self _ _,
      by decide⟩

/-- The starred length bound as the claim words it: `N - 1` where `N`
counts only the fixed (non-star) positions. -/
def claimStarLenBound (fixedCount : Nat) : Nat := fixedCount - 1

/-- The compiled chain for `match s: case [first, *rest]: <body 0>`. -/
def starChain : PyChain :=
  compileMatch [⟨.seqP false [.capture (some "first")] (some (some "rest")) [], none⟩]

/-- C4 (counterexample): for `[first, *rest]` (one fixed position, so
the claim's `N - 1` is `0`) the compiled length test is `len >= 1`, not
`len >= 0`; the difference is observable: the compiled chain rejects the
empty list, while the claim's bound would accept it. -/
theorem C4_star_length_counterexample :
    compileP .subject (.seqP false [.capture (some "first")] (some (some "rest")) []) =
      [⟨[], [.seqTest .subject, .lenGe .subject 1],
        [("first", .index .subject 0), ("rest", .sliceFrom .subject 1)]⟩]
    ∧ claimStarLenBound 1 = 0
    ∧ runChain ⟨[], []⟩ (.list []) starChain = .nomatch
    ∧ evalTerm ⟨[], []⟩ (.list []) (.lenGe .subject (claimStarLenBound 1)) = .ok true
    ∧ evalTerm ⟨[], []⟩ (.list []) (.lenGe .subject 1) = .ok false :=
  ⟨rfl, rfl, rfl, rfl, rfl⟩

/-- C4 (amended): for every sequence pattern compiled structurally, the
condition's second term is the length test — `len(path) == N` with no
star and `len(path) >= N` with a star, where `N` counts only the fixed
(non-star) positions. -/
theorem C4_length_test (path : PyPath) (tf : Bool) (pre post : List PyPattern) :
    (∀ nm, ∀ a ∈ compileP path (.seqP tf pre (some nm) post),
      ∃ rest, a.terms = .seqTest path :: .lenGe path (pre.length + post.length) :: rest)
    ∧ ((tf && post.isEmpty && (litsOf pre).isSome) = false →
       ∀ a ∈ compileP path (.seqP tf pre none post),
         ∃ rest, a.terms = .seqTest path :: .lenEq path (pre.length + post.length) :: rest) := by
  constructor
  · intro nm a ha
    have hform : compileP path (.seqP tf pre (some nm) post) =
        altProd (altProd (altProd
          [⟨[], [.seqTest path, .lenGe path (pre.length + post.length)], []⟩]
          (compileIdx path 0 pre))
          (match some nm with
            | some (some s) =>
              if post.isEmpty then [⟨[], [], [(s, .sliceFrom path pre.length)]⟩]
              else [⟨[], [], [(s, .sliceFromTo path pre.length (-(post.length : Int)))]⟩]
            | _ => altOne))
          (compileNegIdx path post.length post) := by
      simp [compileP]
    rw [hform] at ha
    obtain ⟨b, hb, d, _, rfl⟩ := mem_altProd ha
    obtain ⟨e, he, f, _, rfl⟩ := mem_altProd hb
    obtain ⟨x, hx, y, _, rfl⟩ := mem_altProd he
    simp only [List.mem_singleton] at hx
    subst hx
    exact ⟨y.terms ++ f.terms ++ d.terms, by simp⟩
  · intro hcond a ha
    have hform : compileP path (.seqP tf pre none post) =
        altProd (altProd (altProd
          [⟨[], [.seqTest path, .lenEq path (pre.length + post.length)], []⟩]
          (compileIdx path 0 pre))
          altOne)
          (compileNegIdx path post.length post) := by
      have hfull : (tf && Option.isNone (none : Option (Option String)) &&
          post.isEmpty && (litsOf pre).isSome) = false := by
        revert hcond
        cases tf <;> cases post.isEmpty <;> cases (litsOf pre).isSome <;> simp
      simp only [compileP]
      rw [hfull]
      simp [altOne]
    rw [hform] at ha
    obtain ⟨b, hb, d, _, rfl⟩ := mem_altProd ha
    obtain ⟨e, he, f, _, rfl⟩ := mem_altProd hb
    obtain ⟨x, hx, y, _, rfl⟩ := mem_altProd he
    simp only [List.mem_singleton] at hx
    subst hx
    exact ⟨y.terms ++ f.terms ++ d.terms, by simp⟩

/-- C4 (witness): the amended length rule applied to `[first, *rest]`
(star, bound `>= 1`) and `["a", y]` (list form with a capture, bound
`== 2`). -/
instance : Inhabited PyAlt := ⟨⟨[], [], []⟩⟩

theorem C4_length_test_witness :
    (∃ rest, (compileP .subject (.seqP false [.capture (some "first")] (some (some "rest")) [])).headI.terms
        = .seqTest .subject :: .lenGe .subject 1 :: rest)
    ∧ (∃ rest, (compileP .subject (.seqP false [.lit (.str "a"), .capture (some "y")] none [])).headI.terms
        = .seqTest .subject :: .lenEq .subject 2 :: rest) :=
  ⟨(C4_length_test .subject false [.capture (some "first")] []).1 (some "rest") _
      (List.mem_cons_self _ _),
   (C4_length_test .subject false [.lit (.str "a"), .capture (some "y")] []).2 rfl _
      (List.mem_cons_self _ _)⟩

/-- The compiled chain for
`match p: case Point(x, y): <body 0>` (positional class pattern). -/
def posChainDemo : PyChain :=
  compileMatch [⟨.clsP "Point" [.capture (some "x"), .capture (some "y")] [], none⟩]

/-- What a naive compilation without the deferred table check would emit
for the same case: the positional accesses guarded only by
`isinstance`. -/
def naiveChainDemo : PyChain :=
  ⟨[⟨[.instTest .subject ["Point"]],
      .exec [("x", .matchArg .subject "Point" 0), ("y", .matchArg .subject "Point" 1)] none 0⟩],
    none⟩

/-- A context in which no class exposes a field-name table. -/
def noTableCtx : PyCtx := ⟨[], []⟩

/-- C5: a class pattern with positional subpatterns always compiles (the
compiler is total and emits branches), and every compiled alternative
begins with a deferred error branch whose condition checks the
field-name table at match-evaluation time and whose message names the
class and the requested and accepted positional arities; running the
demo chain against an instance whose class has no table raises that
descriptive `TypeError` — whereas the naive chain without the check
dies with a generic attribute error — and with a sufficient table the
same chain binds the fields and runs the body. -/
theorem C5_positional_arity_runtime_error (path : PyPath) (cls : String)
    (pos : List PyPattern) (kw : List (String × PyPattern)) (h : pos ≠ []) :
    (∀ a ∈ compileP path (.clsP cls pos kw),
      ∃ rest, a.raises = ⟨[.instTest path [cls], .tableShort cls pos.length],
        posArityMsg cls pos.length⟩ :: rest)
    ∧ posArityMsg cls pos.length =
        cls ++ "() accepts 0 positional sub-patterns (" ++ toString pos.length ++ " given)"
    ∧ runChain noTableCtx (.obj "Point" [("x", .int 1), ("y", .int 2)]) posChainDemo =
        .raised "Point() accepts 0 positional sub-patterns (2 given)"
    ∧ runChain noTableCtx (.obj "Point" [("x", .int 1), ("y", .int 2)]) naiveChainDemo =
        .errored "AttributeError: type object 'Point' has no attribute '__match_args__'"
    ∧ runChain pointTableCtx (.obj "Point" [("x", .int 1), ("y", .int 2)]) posChainDemo =
        .body 0 [("x", .int 1), ("y", .int 2)] := by
  refine ⟨?_, rfl, rfl, rfl, rfl⟩
  intro a ha
  have hemp : pos.isEmpty = false := by
    cases pos with
    | nil => exact absurd rfl h
    | cons p ps => rfl
  have hform : compileP path (.clsP cls pos kw) =
      altProd (altProd
        [⟨[⟨[.instTest path [cls], .tableShort cls pos.length], posArityMsg cls pos.length⟩],
          [.instTest path [cls]], []⟩]
        (compilePos path cls 0 pos))
        (compileKw path kw) := by
    simp [compileP, hemp]
  rw [hform] at ha
  obtain ⟨b, hb, d, _, rfl⟩ := mem_altProd ha
  obtain ⟨x, hx, y, _, rfl⟩ := mem_altProd hb
  simp only [List.mem_singleton] at hx
  subst hx
  exact ⟨y.raises ++ d.raises, by simp⟩

/-- C5 (witness): the arity-error rule applied at the two-positional
`Point(x, y)` pattern. -/
theorem C5_positional_arity_runtime_error_witness :
    (∃ rest, (compileP .subject (.clsP "Point" [.capture (some "x"), .capture (some "y")] [])).headI.raises
        = ⟨[.instTest .subject ["Point"], .tableShort "Point" 2],
            posArityMsg "Point" 2⟩ :: rest)
    ∧ runChain noTableCtx (.obj "Point" [("x", .int 1), ("y", .int 2)]) posChainDemo =
        .raised "Point() accepts 0 positional sub-patterns (2 given)"
    ∧ runChain pointTableCtx (.obj "Point" [("x", .int 1), ("y", .int 2)]) posChainDemo =
        .body 0 [("x", .int 1), ("y", .int 2)] :=
  ⟨(C5_positional_arity_runtime_error .subject "Point"
      [.capture (some "x"), .capture (some "y")] [] (List.cons_ne_nil _ _)).1 _
      (List.mem_cons_self _ _),
   (C5_positional_arity_runtime_error .subject "Point"
      [.capture (some "x"), .capture (some "y")] [] (List.cons_ne_nil _ _)).2.2.1,
   (C5_positional_arity_runtime_error .subject "Point"
      [.capture (some "x"), .capture (some "y")] [] (List.cons_ne_nil _ _)).2.2.2.2⟩

/-! ## Part B: the inline-assignment ("walrus") rewriter
(`retrofy/_transformations/walrus.py`) -/

/-- An expression of the fragment the walrus rewriter manipulates:
names, literals, calls (callee named by a string), the inline-assignment
`namedExpr` (its target deliberately an arbitrary expression, since
`leave_NamedExpr` guards against non-name targets), boolean and binary
operations, comparisons, `not`, parenthesization, and tuples. -/
inductive WExpr where
  | name (s : String)
  | litE (v : PyLit)
  | call (f : String) (args : List WExpr)
  | namedExpr (target : WExpr) (value : WExpr)
  | boolOp (isAnd : Bool) (a b : WExpr)
  | binOp (a b : WExpr)
  | cmpGt (a b : WExpr)
  | unaryNot (a : WExpr)
  | paren (a : WExpr)
  | tupleE (els : List WExpr)

/-- The node-type name used in the `leave_NamedExpr` error message
(`f"Complex walrus targets not supported: {type(node.target)}"`; the
model renders the node-type name). -/
def wTypeName : WExpr → String
  | .name _ => "Name"
  | .litE _ => "Literal"
  | .call _ _ => "Call"
  | .namedExpr _ _ => "NamedExpr"
  | .boolOp _ _ _ => "BooleanOperation"
  | .binOp _ _ => "BinaryOperation"
  | .cmpGt _ _ => "Comparison"
  | .unaryNot _ => "UnaryOperation"
  | .paren _ => "Parenthesized"
  | .tupleE _ => "Tuple"

/-- Whether the expression is a plain name (the only target
`leave_NamedExpr` accepts). -/
def WExpr.isNameE : WExpr → Bool
  | .name _ => true
  | _ => false

/-- A hoisted assignment `target = value`. -/
abbrev WAssign := String × WExpr

/-- `_ensure_parentheses`: binary operations, boolean operations and
comparisons are parenthesized before being negated in the loop's break
condition. -/
def ensureParens : WExpr → WExpr
  | .binOp a b => .paren (.binOp a b)
  | .boolOp i a b => .paren (.boolOp i a b)
  | .cmpGt a b => .paren (.cmpGt a b)
  | e => e

mutual

/-- `leave_NamedExpr` threaded through the depth-first traversal of an
expression: every inline assignment is replaced by a bare name reference
and appended (post-order, hence left-to-right textually) to the list of
hoisted assignments for the enclosing scope; a non-name target raises
the descriptive `ValueError` instead. -/
def extractE : WExpr → Except String (WExpr × List WAssign)
  | .name s => .ok (.name s, [])
  | .litE v => .ok (.litE v, [])
  | .call f args => do
    let (args', as) ← extractList args
    .ok (.call f args', as)
  | .namedExpr t v => do
    let (v', as) ← extractE v
    match t with
    | .name s => .ok (.name s, as ++ [(s, v')])
    | _ => .error ("Complex walrus targets not supported: " ++ wTypeName t)
  | .boolOp i a b => do
    let (a', asa) ← extractE a
    let (b', asb) ← extractE b
    .ok (.boolOp i a' b', asa ++ asb)
  | .binOp a b => do
    let (a', asa) ← extractE a
    let (b', asb) ← extractE b
    .ok (.binOp a' b', asa ++ asb)
  | .cmpGt a b => do
    let (a', asa) ← extractE a
    let (b', asb) ← extractE b
    .ok (.cmpGt a' b', asa ++ asb)
  | .unaryNot a => do
    let (a', as) ← extractE a
    .ok (.unaryNot a', as)
  | .paren a => do
    let (a', as) ← extractE a
    .ok (.paren a', as)
  | .tupleE els => do
    let (els', as) ← extractList els
    .ok (.tupleE els', as)

/-- `extractE` over an argument list, left to right. -/
def extractList : List WExpr → Except String (List WExpr × List WAssign)
  | [] => .ok ([], [])
  | e :: es => do
    let (e', as) ← extractE e
    let (es', ass) ← extractList es
    .ok (e' :: es', as ++ ass)

end

/-- A statement of the fragment the walrus rewriter manipulates.
`assignLine` is a simple statement line of semicolon-joined assignments;
`mixedLine` is a line of hoisted assignments followed by an expression
statement (the `leave_Expr` splice). -/
inductive WStmt where
  | assignLine (assigns : List WAssign)
  | mixedLine (assigns : List WAssign) (e : WExpr)
  | exprLine (e : WExpr)
  | ifStmt (test : WExpr) (body : List WStmt)
  | whileStmt (test : WExpr) (body : List WStmt)
  | breakStmt
  | continueStmt
  | passStmt

/-- `_transform_while_with_walrus`: the loop is rewritten with test
`True`, and its body becomes the single hoisted assignment line, then
`if not (original test): break`, then the original body. -/
def transformWhileWithWalrus (test' : WExpr) (assigns : List WAssign)
    (body : List WStmt) : WStmt :=
  .whileStmt (.litE (.bool true))
    (.assignLine assigns ::
      .ifStmt (.unaryNot (ensureParens test')) [.breakStmt] :: body)

mutual

/-- The statement-level walrus rewrite (`WalrusOperatorTransformer`):
each recognized context pops its hoisted assignments and splices them —
`leave_If` prepends one assignment line before the `if`; `leave_While`
rebuilds the loop via `_transform_while_with_walrus`; `leave_Assign`
splices the hoisted assignments before the assignment on the same line;
`leave_Expr` likewise.  A statement with no inline assignment is
returned unchanged. -/
def transformStmt : WStmt → Except String (List WStmt)
  | .assignLine asgns => do
    let asgns' ← transformAssigns asgns
    .ok [.assignLine asgns']
  | .mixedLine asgns e => do
    let asgns' ← transformAssigns asgns
    let (e', as) ← extractE e
    .ok [.mixedLine (asgns' ++ as) e']
  | .exprLine e => do
    let (e', as) ← extractE e
    if as.isEmpty then .ok [.exprLine e']
    else .ok [.mixedLine as e']
  | .ifStmt test body => do
    let (test', as) ← extractE test
    let body' ← transformStmts body
    if as.isEmpty then .ok [.ifStmt test' body']
    else .ok [.assignLine as, .ifStmt test' body']
  | .whileStmt test body => do
    let (test', as) ← extractE test
    let body' ← transformStmts body
    if as.isEmpty then .ok [.whileStmt test' body']
    else .ok [transformWhileWithWalrus test' as body']
  | .breakStmt => .ok [.breakStmt]
  | .continueStmt => .ok [.continueStmt]
  | .passStmt => .ok [.passStmt]

/-- Rewrite each assignment of a line, splicing the hoisted walrus
assignments of each value before it. -/
def transformAssigns : List WAssign → Except String (List WAssign)
  | [] => .ok []
  | (t, v) :: rest => do
    let (v', as) ← extractE v
    let rest' ← transformAssigns rest
    .ok (as ++ [(t, v')] ++ rest')

/-- Rewrite a statement list, splicing each statement's replacement
sequence. -/
def transformStmts : List WStmt → Except String (List WStmt)
  | [] => .ok []
  | s :: rest => do
    .ok ((← transformStmt s) ++ (← transformStmts rest))

end

/-! ## Part B: an operational semantics for the rewritten fragment -/

/-- Evaluation state: the variable environment and the trace of calls
performed so far (in order). -/
structure WEnv where
  vars : List (String × PyVal)
  calls : List String

/-- Update (or add) a variable binding in place. -/
def setVar (s : String) (v : PyVal) : List (String × PyVal) → List (String × PyVal)
  | [] => [(s, v)]
  | (t, w) :: rest => if t = s then (t, v) :: rest else (t, w) :: setVar s v rest

mutual

/-- Evaluate an expression: calls consult an oracle mapping the callee
name and the number of earlier calls of that callee to a result (and are
recorded in the trace); boolean operations short-circuit; an inline
assignment (in untransformed code) assigns as a side effect. -/
def evalWE (oracle : String → Nat → PyVal) : WExpr → WEnv → PyVal × WEnv
  | .name s, st => ((st.vars.lookup s).getD .noneV, st)
  | .litE v, st => (v.toVal, st)
  | .call f args, st =>
    let (_, st') := evalWList oracle args st
    (oracle f (st'.calls.count f), ⟨st'.vars, st'.calls ++ [f]⟩)
  | .namedExpr t v, st =>
    let (x, st') := evalWE oracle v st
    match t with
    | .name s => (x, ⟨setVar s x st'.vars, st'.calls⟩)
    | _ => (x, st')
  | .boolOp i a b, st =>
    let (x, st') := evalWE oracle a st
    if i then
      if pyTruthy x then evalWE oracle b st' else (x, st')
    else
      if pyTruthy x then (x, st') else evalWE oracle b st'
  | .binOp a b, st =>
    let (x, st') := evalWE oracle a st
    let (y, st'') := evalWE oracle b st'
    (match x.numView, y.numView with
      | some p, some q => .float (p + q)
      | _, _ => .noneV, st'')
  | .cmpGt a b, st =>
    let (x, st') := evalWE oracle a st
    let (y, st'') := evalWE oracle b st'
    (match x.numView, y.numView with
      | some p, some q => .bool (decide (q < p))
      | _, _ => .noneV, st'')
  | .unaryNot a, st =>
    let (x, st') := evalWE oracle a st
    (.bool (!pyTruthy x), st')
  | .paren a, st => evalWE oracle a st
  | .tupleE els, st =>
    let (xs, st') := evalWList oracle els st
    (.tuple xs, st')

/-- Evaluate an expression list left to right. -/
def evalWList (oracle : String → Nat → PyVal) : List WExpr → WEnv → List PyVal × WEnv
  | [], st => ([], st)
  | e :: es, st =>
    let (x, st') := evalWE oracle e st
    let (xs, st'') := evalWList oracle es st'
    (x :: xs, st'')

end

/-- Execute an assignment line left to right: every assignment runs
(there is no conditional structure on a hoisted line). -/
def runAssigns (oracle : String → Nat → PyVal) : List WAssign → WEnv → WEnv
  | [], st => st
  | (n, e) :: rest, st =>
    let (v, st') := evalWE oracle e st
    runAssigns oracle rest ⟨setVar n v st'.vars, st'.calls⟩

/-- The control signal statement execution produces. -/
inductive WSig where
  | normal
  | brk
  | cont
  | fuelOut
deriving DecidableEq, Repr

/-- Fuel-indexed execution of a statement list; a `while` loop re-runs
itself while its test is truthy, and `break`/`continue` signals
propagate to the enclosing loop. -/
def execW (oracle : String → Nat → PyVal) : Nat → List WStmt → WEnv → WSig × WEnv
  | 0, _, st => (.fuelOut, st)
  | _ + 1, [], st => (.normal, st)
  | fuel + 1, s :: rest, st =>
    match s with
    | .assignLine asgns => execW oracle fuel rest (runAssigns oracle asgns st)
    | .mixedLine asgns e =>
      let st' := runAssigns oracle asgns st
      execW oracle fuel rest (evalWE oracle e st').2
    | .exprLine e => execW oracle fuel rest (evalWE oracle e st).2
    | .ifStmt t body =>
      let (x, st') := evalWE oracle t st
      if pyTruthy x then
        match execW oracle fuel body st' with
        | (.normal, st'') => execW oracle fuel rest st''
        | other => other
      else execW oracle fuel rest st'
    | .whileStmt t body =>
      let (x, st') := evalWE oracle t st
      if pyTruthy x then
        match execW oracle fuel body st' with
        | (.normal, st'') => execW oracle fuel (s :: rest) st''
        | (.cont, st'') => execW oracle fuel (s :: rest) st''
        | (.brk, st'') => execW oracle fuel rest st''
        | other => other
      else execW oracle fuel rest st'
    | .breakStmt => (.brk, st)
    | .continueStmt => (.cont, st)
    | .passStmt => execW oracle fuel rest st

/-! ## Part B: claim theorems -/

/-- Looking up the key just set succeeds. -/
theorem lookup_setVar_self (s : String) (v : PyVal) :
    ∀ l : List (String × PyVal), (setVar s v l).lookup s = some v := by
  intro l
  induction l with
  | nil => simp [setVar]
  | cons p rest ih =>
    obtain ⟨t, w⟩ := p
    by_cases h : t = s
    · subst h; simp [setVar]
    · simp [setVar, h, List.lookup, ih, beq_false_of_ne (Ne.symm h)]

/-- Setting one key preserves the presence of every key. -/
theorem lookup_setVar_present (s x : String) (v : PyVal) :
    ∀ l : List (String × PyVal), l.lookup x ≠ none → (setVar s v l).lookup x ≠ none := by
  intro l
  induction l with
  | nil => simp [List.lookup]
  | cons p rest ih =>
    obtain ⟨t, w⟩ := p
    intro h
    by_cases ht : t = s
    · subst ht
      simp only [setVar, if_pos rfl]
      simp only [List.lookup] at h ⊢
      cases hx : (x == t)
      · simp only [hx] at h ⊢
        exact h
      · simp only [hx]
        simp
    · simp only [setVar, if_neg ht]
      simp only [List.lookup] at h ⊢
      cases hx : (x == t)
      · simp only [hx] at h ⊢
        exact ih h
      · simp only [hx] at h ⊢
        exact h

mutual

/-- Expression evaluation never removes a variable binding. -/
theorem evalWE_vars_present (oracle : String → Nat → PyVal) (x : String) :
    ∀ (e : WExpr) (st : WEnv), st.vars.lookup x ≠ none →
      (evalWE oracle e st).2.vars.lookup x ≠ none := by
  intro e
  cases e with
  | name s => intro st h; exact h
  | litE v => intro st h; exact h
  | call f args =>
    intro st h
    simp only [evalWE]
    exact evalWList_vars_present oracle x args st h
  | namedExpr t v =>
    intro st h
    simp only [evalWE]
    have h' := evalWE_vars_present oracle x v st h
    cases t
    case name s => exact lookup_setVar_present s x _ _ h'
    all_goals exact h'
  | boolOp i a b =>
    intro st h
    simp only [evalWE]
    have ha := evalWE_vars_present oracle x a st h
    by_cases hi : i <;> by_cases htr : pyTruthy (evalWE oracle a st).1 <;>
      simp [hi, htr, ha, evalWE_vars_present oracle x b _ ha]
  | binOp a b =>
    intro st h
    simp only [evalWE]
    exact evalWE_vars_present oracle x b _ (evalWE_vars_present oracle x a st h)
  | cmpGt a b =>
    intro st h
    simp only [evalWE]
    exact evalWE_vars_present oracle x b _ (evalWE_vars_present oracle x a st h)
  | unaryNot a =>
    intro st h
    simp only [evalWE]
    exact evalWE_vars_present oracle x a st h
  | paren a =>
    intro st h
    simp only [evalWE]
    exact evalWE_vars_present oracle x a st h
  | tupleE els =>
    intro st h
    simp only [evalWE]
    exact evalWList_vars_present oracle x els st h

/-- List evaluation never removes a variable binding. -/
theorem evalWList_vars_present (oracle : String → Nat → PyVal) (x : String) :
    ∀ (es : List WExpr) (st : WEnv), st.vars.lookup x ≠ none →
      (evalWList oracle es st).2.vars.lookup x ≠ none := by
  intro es
  cases es with
  | nil => intro st h; exact h
  | cons e rest =>
    intro st h
    simp only [evalWList]
    exact evalWList_vars_present oracle x rest _ (evalWE_vars_present oracle x e st h)

end

/-- Running an assignment line never removes a variable binding. -/
theorem runAssigns_vars_present (oracle : String → Nat → PyVal) (x : String) :
    ∀ (assigns : List WAssign) (st : WEnv), st.vars.lookup x ≠ none →
      (runAssigns oracle assigns st).vars.lookup x ≠ none := by
  intro assigns
  induction assigns with
  | nil => intro st h; exact h
  | cons a rest ih =>
    obtain ⟨n, e⟩ := a
    intro st h
    simp only [runAssigns]
    refine ih _ ?_
    by_cases hnx : n = x
    · subst hnx; simp [lookup_setVar_self]
    · exact lookup_setVar_present n x _ _
        (evalWE_vars_present oracle x e st h)

/-- After an assignment line runs, every target of the line is bound. -/
theorem runAssigns_binds_all (oracle : String → Nat → PyVal) :
    ∀ (assigns : List WAssign) (st : WEnv), ∀ a ∈ assigns,
      (runAssigns oracle assigns st).vars.lookup a.1 ≠ none := by
  intro assigns
  induction assigns with
  | nil => intro st a ha; cases ha
  | cons hd rest ih =>
    obtain ⟨n, e⟩ := hd
    intro st a ha
    rcases List.mem_cons.mp ha with h | h
    · subst h
      simp only [runAssigns]
      exact runAssigns_vars_present oracle n rest _ (by simp [lookup_setVar_self])
    · exact ih _ a h

/-- The spec §8 scenario loop `while (chunk := file.read(8192)): process(chunk)`. -/
def demoWhileSrc : WStmt :=
  .whileStmt (.namedExpr (.name "chunk") (.call "file.read" [.litE (.int 8192)]))
    [.exprLine (.call "process" [.name "chunk"])]

/-- Its rewritten form: read, break if falsy, else process. -/
def demoWhileOut : WStmt :=
  .whileStmt (.litE (.bool true))
    [.assignLine [("chunk", .call "file.read" [.litE (.int 8192)])],
     .ifStmt (.unaryNot (.name "chunk")) [.breakStmt],
     .exprLine (.call "process" [.name "chunk"])]

/-- An oracle under which the first read yields a nonempty chunk (5) and
the second a falsy one (0). -/
def readOracle : String → Nat → PyVal := fun f n =>
  if f = "file.read" then (if n = 0 then .int 5 else .int 0) else .noneV

/-- The `test_while__multiple` loop
`while (chunk := f()) and (alive := g()) > 2: pass`. -/
def demoWhile2Src : WStmt :=
  .whileStmt (.boolOp true (.namedExpr (.name "chunk") (.call "f" []))
      (.cmpGt (.namedExpr (.name "alive") (.call "g" [])) (.litE (.int 2))))
    [.passStmt]

/-- Its rewritten form: both assignments hoisted onto one line, then
`if not (chunk and alive > 2): break`. -/
def demoWhile2Out : WStmt :=
  .whileStmt (.litE (.bool true))
    [.assignLine [("chunk", .call "f" []), ("alive", .call "g" [])],
     .ifStmt (.unaryNot (.paren (.boolOp true (.name "chunk")
       (.cmpGt (.name "alive") (.litE (.int 2)))))) [.breakStmt],
     .passStmt]

/-- An oracle making `f()` falsy at once while `g()` is well defined:
the original test would short-circuit past `g()`, the rewritten loop
calls it anyway. -/
def scOracle : String → Nat → PyVal := fun f _ =>
  if f = "f" then .int 0 else if f = "g" then .int 7 else .noneV

/-- C7: a `while` loop whose test hoists inline assignments is rewritten
into `while True:` whose body is the hoisted assignment line, then
`if not (test): break`, then the original body; each iteration of the
rewritten loop begins by running the whole assignment line, so every
hoisted target is (re)bound on every iteration regardless of the
short-circuit structure of the original test — concretely, the
`file.read` loop processes the one nonempty chunk and stops at the first
falsy one, and the two-walrus `and` test still executes both calls on
the iteration where the first conjunct is already falsy. -/
theorem C7_while_walrus_hoisting (test : WExpr) (body : List WStmt)
    (test' : WExpr) (assigns : List WAssign) (body' : List WStmt)
    (h1 : extractE test = .ok (test', assigns)) (h2 : assigns ≠ [])
    (h3 : transformStmts body = .ok body') :
    transformStmt (.whileStmt test body) =
      .ok [.whileStmt (.litE (.bool true))
        (.assignLine assigns ::
          .ifStmt (.unaryNot (ensureParens test')) [.breakStmt] :: body')]
    ∧ (∀ (oracle : String → Nat → PyVal) (fuel : Nat) (st : WEnv) (rest : List WStmt),
        execW oracle (fuel + 1) (.assignLine assigns :: rest) st =
          execW oracle fuel rest (runAssigns oracle assigns st))
    ∧ (∀ (oracle : String → Nat → PyVal) (st : WEnv), ∀ a ∈ assigns,
        (runAssigns oracle assigns st).vars.lookup a.1 ≠ none)
    ∧ transformStmts [demoWhileSrc] = .ok [demoWhileOut]
    ∧ execW readOracle 20 [demoWhileOut] ⟨[], []⟩ =
        (.normal, ⟨[("chunk", .int 0)], ["file.read", "process", "file.read"]⟩)
    ∧ transformStmts [demoWhile2Src] = .ok [demoWhile2Out]
    ∧ execW scOracle 20 [demoWhile2Out] ⟨[], []⟩ =
        (.normal, ⟨[("chunk", .int 0), ("alive", .int 7)], ["f", "g"]⟩) := by
  refine ⟨?_, fun _ _ _ _ => rfl, fun oracle st => runAssigns_binds_all oracle assigns st,
    rfl, rfl, rfl, rfl⟩
  have hne : assigns.isEmpty = false := by
    cases assigns with
    | nil => exact absurd rfl h2
    | cons a rest => rfl
  simp only [transformStmt, h1, h3, bind, Except.bind, transformWhileWithWalrus]
  simp [hne]

/-- The hoisted assignment line of the demo loop. -/
def demoAssigns : List WAssign := [("chunk", .call "file.read" [.litE (.int 8192)])]

/-- C7 (witness): the while-rewrite applied to the spec's
`while (chunk := file.read(8192)): process(chunk)` scenario. -/
theorem C7_while_walrus_hoisting_witness :
    transformStmt demoWhileSrc = .ok [demoWhileOut]
    ∧ execW readOracle 5 [.assignLine demoAssigns] ⟨[], []⟩ =
        execW readOracle 4 [] (runAssigns readOracle demoAssigns ⟨[], []⟩)
    ∧ (runAssigns readOracle demoAssigns ⟨[], []⟩).vars.lookup "chunk" ≠ none
    ∧ execW readOracle 20 [demoWhileOut] ⟨[], []⟩ =
        (.normal, ⟨[("chunk", .int 0)], ["file.read", "process", "file.read"]⟩) :=
  ⟨(C7_while_walrus_hoisting (.namedExpr (.name "chunk") (.call "file.read" [.litE (.int 8192)]))
      [.exprLine (.call "process" [.name "chunk"])] (.name "chunk") demoAssigns
      [.exprLine (.call "process" [.name "chunk"])] rfl (List.cons_ne_nil _ _) rfl).1,
   (C7_while_walrus_hoisting (.namedExpr (.name "chunk") (.call "file.read" [.litE (.int 8192)]))
      [.exprLine (.call "process" [.name "chunk"])] (.name "chunk") demoAssigns
      [.exprLine (.call "process" [.name "chunk"])] rfl (List.cons_ne_nil _ _) rfl).2.1
      readOracle 4 ⟨[], []⟩ [],
   (C7_while_walrus_hoisting (.namedExpr (.name "chunk") (.call "file.read" [.litE (.int 8192)]))
      [.exprLine (.call "process" [.name "chunk"])] (.name "chunk") demoAssigns
      [.exprLine (.call "process" [.name "chunk"])] rfl (List.cons_ne_nil _ _) rfl).2.2.1
      readOracle ⟨[], []⟩ _ (List.mem_cons_self _ _),
   (C7_while_walrus_hoisting (.namedExpr (.name "chunk") (.call "file.read" [.litE (.int 8192)]))
      [.exprLine (.call "process" [.name "chunk"])] (.name "chunk") demoAssigns
      [.exprLine (.call "process" [.name "chunk"])] rfl (List.cons_ne_nil _ _) rfl).2.2.2.2.1⟩

/-- C8: an inline assignment whose target is anything other than a plain
name makes the rewriter raise the descriptive
"Complex walrus targets not supported" error at rewrite time, instead of
producing a rewritten tree, and the error propagates out of the
enclosing statement contexts. -/
theorem C8_complex_target_rejected (t v v' : WExpr) (as : List WAssign)
    (hv : extractE v = .ok (v', as)) (ht : t.isNameE = false) :
    extractE (.namedExpr t v) =
      .error ("Complex walrus targets not supported: " ++ wTypeName t)
    ∧ (∀ body, transformStmt (.ifStmt (.namedExpr t v) body) =
        .error ("Complex walrus targets not supported: " ++ wTypeName t))
    ∧ (∀ tgt, transformStmt (.assignLine [(tgt, .namedExpr t v)]) =
        .error ("Complex walrus targets not supported: " ++ wTypeName t)) := by
  have he : extractE (.namedExpr t v) =
      .error ("Complex walrus targets not supported: " ++ wTypeName t) := by
    cases t
    case name s => simp [WExpr.isNameE] at ht
    all_goals simp [extractE, hv, bind, Except.bind]
  refine ⟨he, ?_, ?_⟩
  · intro body
    simp [transformStmt, he, bind, Except.bind]
  · intro tgt
    simp [transformStmt, transformAssigns, he, bind, Except.bind]

/-- C8 (witness): a tuple-target walrus is rejected with the descriptive
error in expression, `if`-test, and assignment positions. -/
theorem C8_complex_target_rejected_witness :
    extractE (.namedExpr (.tupleE [.name "a", .name "b"]) (.litE (.int 1))) =
      .error "Complex walrus targets not supported: Tuple"
    ∧ transformStmt (.ifStmt (.namedExpr (.tupleE [.name "a", .name "b"]) (.litE (.int 1)))
        [.passStmt]) = .error "Complex walrus targets not supported: Tuple"
    ∧ transformStmt (.assignLine [("y", .namedExpr (.tupleE [.name "a", .name "b"])
        (.litE (.int 1)))]) = .error "Complex walrus targets not supported: Tuple" :=
  ⟨(C8_complex_target_rejected (.tupleE [.name "a", .name "b"]) (.litE (.int 1))
      (.litE (.int 1)) [] rfl rfl).1,
   (C8_complex_target_rejected (.tupleE [.name "a", .name "b"]) (.litE (.int 1))
      (.litE (.int 1)) [] rfl rfl).2.1 [.passStmt],
   (C8_complex_target_rejected (.tupleE [.name "a", .name "b"]) (.litE (.int 1))
      (.litE (.int 1)) [] rfl rfl).2.2 "y"⟩

/-! ## Part C: the typing-extensions compatibility rewriter
(`retrofy/_transformations/typing_extensions.py` with
`retrofy/_transformations/import_utils.py`), embedded at module level.
A module is a list of statements; version-guard blocks are represented
structurally (`guardAssign` renders as
`if sys.version_info < ver: import typing_extensions;
[nested guards]; typing.f = typing_extensions.f ...`, and
`guardCondImport` as `if sys.version_info >= ver: from typing import …
else: from typing_extensions import …`). -/

/-- A (major, minor) runtime version tuple. -/
abbrev PyVer := Nat × Nat

/-- A statement of the module-level fragment the rewriter manipulates.
Imported names carry an optional alias.  `useTypingDot f` is any plain
statement containing a `typing.f` attribute access; `funcWithUse` is a
function definition whose body contains such accesses. -/
inductive TStmt where
  | docstring
  | importSys
  | importTyping
  | importOther
  | fromTyping (names : List (String × Option String))
  | fromOther (mod : String) (names : List (String × Option String))
  | guardAssign (ver : PyVer) (features : List String) (nested : List (PyVer × List String))
  | guardCondImport (ver : PyVer) (names : List (String × Option String))
  | useTypingDot (feature : String)
  | funcWithUse (features : List String)
  | other
deriving DecidableEq, Repr

/-- The configured feature table (`TYPING_FEATURES`). -/
def TYPING_FEATURES : List (String × PyVer) :=
  [("Literal", (3, 8)), ("get_args", (3, 10)), ("get_origin", (3, 10)),
   ("final", (3, 8)), ("TypedDict", (3, 8))]

/-- The minimum version of a feature, if the name is a configured
feature (`FEATURE_LOOKUP`). -/
def featVer? (f : String) : Option PyVer := TYPING_FEATURES.lookup f

/-- Whether a name is a configured typing feature. -/
def isFeature (f : String) : Bool := (featVer? f).isSome

/-- The scope of a usage or version check: module level, inside the
body of the `i`-th top-level statement (a guard or function), or inside
the `j`-th nested guard of the `i`-th statement. -/
inductive TScope where
  | top
  | inGuard (i : Nat)
  | inFunc (i : Nat)
  | inNested (i j : Nat)
deriving DecidableEq, Repr

/-- The kind of an existing version check
(`_classify_version_check`). -/
inductive CheckKind where
  | assign
  | condImport
deriving DecidableEq, Repr

/-- The names imported from `typing` at module level
(`EnhancedImportManager.scan_imports` scans only the top-level
statement list). -/
def typingImportedNames (m : List TStmt) : List (String × Option String) :=
  m.flatMap fun s =>
    match s with
    | .fromTyping ns => ns
    | _ => []

/-- `has_import("typing", f)`. -/
def hasTypingImport (m : List TStmt) (f : String) : Bool :=
  (typingImportedNames m).any fun p => p.1 == f

/-- `get_import_alias("typing", f)`, defaulting to the feature name. -/
def typingAlias (m : List TStmt) (f : String) : String :=
  match (typingImportedNames m).find? fun p => p.1 == f with
  | some (_, some a) => a
  | some (_, none) => f
  | none => f

/-- The existing version checks with the scope of their parent
(`_detect_existing_version_check` records the scope path excluding the
check's own `If`). -/
def existingChecks (m : List TStmt) : List (TScope × PyVer × CheckKind) :=
  m.enum.flatMap fun p =>
    match p.2 with
    | .guardAssign v _ nested =>
      (TScope.top, v, CheckKind.assign) ::
        nested.map fun nb => (TScope.inGuard p.1, nb.1, CheckKind.assign)
    | .guardCondImport v _ => [(TScope.top, v, CheckKind.condImport)]
    | _ => []

/-- `_version_check_exists`. -/
def checkExists (m : List TStmt) (sc : TScope) (v : PyVer) (k : CheckKind) : Bool :=
  (existingChecks m).any fun c => decide (c = (sc, v, k))

/-- The `typing.<feature>` usages one statement (at index `i`)
contributes, in document order (inside a `guardAssign` body the nested
guards precede the guard's own assignments). -/
def stmtUsages (i : Nat) : TStmt → List (TScope × String)
  | .useTypingDot f => if isFeature f then [(TScope.top, f)] else []
  | .guardAssign _ fs nested =>
    (nested.enum.flatMap fun nb =>
      (nb.2.2.filter isFeature).map fun f => (TScope.inNested i nb.1, f)) ++
      (fs.filter isFeature).map fun f => (TScope.inGuard i, f)
  | .funcWithUse fs => (fs.filter isFeature).map fun f => (TScope.inFunc i, f)
  | _ => []

/-- The `typing.<feature>` usages in document order with their scopes
(`visit_Attribute` inside the analysis pass). -/
def dotUsages (m : List TStmt) : List (TScope × String) :=
  m.enum.flatMap fun p => stmtUsages p.1 p.2

/-- The module-level `from typing import` usages, iterated in the order
of the feature table (`_detect_from_typing_imports`): feature name with
its effective alias. -/
def fromTypingUsages (m : List TStmt) : List (String × String) :=
  TYPING_FEATURES.filterMap fun fv =>
    if hasTypingImport m fv.1 then some (fv.1, typingAlias m fv.1) else none

/-- Whether any import statement carries transformable features — a
module-level `from typing import` of one, or the nested import inside a
conditional-import guard (`visit_ImportFrom` records both). -/
def hasImportStatements (m : List TStmt) : Bool :=
  m.any fun s =>
    match s with
    | .fromTyping ns => ns.any fun p => isFeature p.1
    | .guardCondImport _ ns => ns.any fun p => isFeature p.1
    | _ => false

/-- Whether a module-level `from typing import` carries a feature (the
`module_level_imports` of `leave_Module`). -/
def hasModuleLevelFeatureImport (m : List TStmt) : Bool :=
  m.any fun s =>
    match s with
    | .fromTyping ns => ns.any fun p => isFeature p.1
    | _ => false

/-- The common prefix of two scope paths
(`_find_common_scope_path`). -/
def scopeMeet : TScope → TScope → TScope
  | .top, _ => .top
  | _, .top => .top
  | .inGuard i, .inGuard j => if i = j then .inGuard i else .top
  | .inGuard i, .inNested j _ => if i = j then .inGuard i else .top
  | .inNested j _, .inGuard i => if i = j then .inGuard i else .top
  | .inNested i k, .inNested j l =>
    if i = j then (if k = l then .inNested i k else .inGuard i) else .top
  | .inFunc i, .inFunc j => if i = j then .inFunc i else .top
  | .inFunc _, _ => .top
  | _, .inFunc _ => .top

/-- The common scope of a list of usage scopes. -/
def commonScope : List TScope → TScope
  | [] => .top
  | s :: rest => rest.foldl scopeMeet s

/-- The scope at which the `typing.X = typing_extensions.X` assignment
patches are placed (`_plan_typing_dot_assignments`): the common scope
when it is exactly one `If` deep (deeper than the `import typing`
scope, which is the module level throughout this fragment), else the
module level. -/
def optimalScope (m : List TStmt) : TScope :=
  match commonScope ((dotUsages m).map Prod.fst) with
  | .inGuard i => .inGuard i
  | _ => .top

/-- Left fold that keeps the first occurrence of each element. -/
def dedupeAux {α : Type} [DecidableEq α] (seen : List α) : List α → List α
  | [] => []
  | v :: rest =>
    if v ∈ seen then dedupeAux seen rest else v :: dedupeAux (v :: seen) rest

/-- The distinct elements of a list, in order of first occurrence. -/
def dedupeL {α : Type} [DecidableEq α] (l : List α) : List α := dedupeAux [] l

/-- The distinct features used through `typing.<feature>` attributes, in
order of first use (the planner's `feature_groups`). -/
def assignFeatures (m : List TStmt) : List String :=
  dedupeL ((dotUsages m).map Prod.snd)

/-- Group a feature list by minimum version, versions in order of first
appearance, features per version in list order (the
`version_groups` defaultdict). -/
def versionGroups (fs : List String) : List (PyVer × List String) :=
  (dedupeL (fs.filterMap featVer?)).map fun v =>
    (v, fs.filter fun f => featVer? f == some v)

/-- Version-tuple order. -/
def verLe (a b : PyVer) : Bool :=
  a.1 < b.1 || (a.1 == b.1 && a.2 ≤ b.2)

/-- Insert into a version-sorted list. -/
def insertByVer {α : Type} (x : PyVer × α) : List (PyVer × α) → List (PyVer × α)
  | [] => [x]
  | y :: rest => if verLe x.1 y.1 then x :: y :: rest else y :: insertByVer x rest

/-- Sort by version ascending (the `sorted(version_groups.keys())` and
the `all_transformations.sort`). -/
def sortByVer {α : Type} (l : List (PyVer × α)) : List (PyVer × α) :=
  l.foldr insertByVer []

/-- Whether `import sys` appears among the leading import lines
(`_check_early_sys_import`: the scan stops at the first statement that
is not a simple import line — including a module docstring). -/
def earlySysImport : List TStmt → Bool
  | [] => false
  | .importSys :: _ => true
  | .importTyping :: rest => earlySysImport rest
  | .importOther :: rest => earlySysImport rest
  | .fromTyping _ :: rest => earlySysImport rest
  | .fromOther _ _ :: rest => earlySysImport rest
  | _ => false

/-- A `from __future__ import` line. -/
def isFutureImport : TStmt → Bool
  | .fromOther mod _ => mod == "__future__"
  | _ => false

/-- The number of leading `from __future__ import` lines. -/
def futureSkip : List TStmt → Nat
  | [] => 0
  | s :: rest => if isFutureImport s then 1 + futureSkip rest else 0

/-- `find_import_position`: after the module docstring and the
`__future__` imports. -/
def findImportPos (m : List TStmt) : Nat :=
  match m with
  | .docstring :: rest => 1 + futureSkip rest
  | _ => futureSkip m

/-- An import statement line. -/
def isImportLine : TStmt → Bool
  | .importSys => true
  | .importTyping => true
  | .importOther => true
  | .fromTyping _ => true
  | .fromOther _ _ => true
  | _ => false

/-- The number of leading import lines. -/
def importSkip : List TStmt → Nat
  | [] => 0
  | s :: rest => if isImportLine s then 1 + importSkip rest else 0

/-- `find_post_import_position`: after the module docstring and all
leading import lines. -/
def postImportPos (m : List TStmt) : Nat :=
  match m with
  | .docstring :: rest => 1 + importSkip rest
  | _ => importSkip m

/-- Insert a statement at a position. -/
def insertAt (n : Nat) (s : TStmt) (m : List TStmt) : List TStmt :=
  m.take n ++ s :: m.drop n

/-- Insert a block list at a position. -/
def insertAllAt (n : Nat) (blocks : List TStmt) (m : List TStmt) : List TStmt :=
  m.take n ++ blocks ++ m.drop n

/-- `ensure_sys_import`: add `import sys` at the import position unless
it already appears among the leading import lines. -/
def ensureSysImport (m : List TStmt) : List TStmt :=
  if earlySysImport m then m else insertAt (findImportPos m) .importSys m

/-- Whether a plain `import typing` exists at module level. -/
def hasDirectTypingImport (m : List TStmt) : Bool :=
  m.any fun s =>
    match s with
    | .importTyping => true
    | _ => false

/-- Modelled from the spec: `ensure_direct_import` (called by
`leave_Module` but absent from the provided `import_utils.py`; the
spec's Import Utility exposes
`ensure_module_import(statement_list, module) -> statement_list`, which
adds the module import, avoiding duplicates, at the import insertion
point). -/
def ensureTypingImport (m : List TStmt) : List TStmt :=
  if hasDirectTypingImport m then m else insertAt (findImportPos m) .importTyping m

/-- Strip the transformable feature names out of the module-level
`from typing import` statements, dropping a statement that becomes
empty (`remove_from_imports` looped over `module_level_imports`). -/
def removeFeatureImports (m : List TStmt) : List TStmt :=
  m.filterMap fun s =>
    match s with
    | .fromTyping ns =>
      let ns' := ns.filter fun p => !isFeature p.1
      if ns'.isEmpty then none else some (.fromTyping ns')
    | s' => some s'

/-- `leave_If`: when the assignment patches are planned into a guard's
scope, insert one nested assignment-guard per needed version (sorted
ascending, after the guard's leading import, before the existing body)
unless an equivalent nested check already exists there. -/
def nestedPhase (m : List TStmt) : List TStmt :=
  match optimalScope m, (dotUsages m).isEmpty with
  | .inGuard g, false =>
    m.enum.map fun p =>
      if p.1 = g then
        match p.2 with
        | .guardAssign v fs nested =>
          let needed := sortByVer (versionGroups (assignFeatures m))
          let newNested := (needed.filter fun vg =>
            !checkExists m (.inGuard g) vg.1 .assign).map fun vg => (vg.1, vg.2)
          .guardAssign v fs (newNested ++ nested)
        | s' => s'
      else p.2
  | _, _ => m

/-- Render a conditional-import alias pair (`_create_import_alias`
drops the `as` clause when the alias equals the name). -/
def condAlias (p : String × String) : String × Option String :=
  (p.1, if p.2 == p.1 then none else some p.2)

/-- The new version-guard blocks `leave_Module` inserts at the
post-import position: the assignment guards (for the module-level
typing-dot plan) and then the conditional-import guards (for the
module-level `from typing` imports), each sorted by version and each
skipped when an equivalent module-level check already exists. -/
def newBlocks (m : List TStmt) : List TStmt :=
  let assignBlocks : List TStmt :=
    if optimalScope m = .top && !(dotUsages m).isEmpty then
      (sortByVer ((versionGroups (assignFeatures m)).filter fun vg =>
        !checkExists m .top vg.1 .assign)).map fun vg => .guardAssign vg.1 vg.2 []
    else []
  let condBlocks : List TStmt :=
    (sortByVer ((versionGroups ((fromTypingUsages m).map Prod.fst)).filter fun vg =>
      !checkExists m .top vg.1 .condImport)).map fun vg =>
        .guardCondImport vg.1 (((fromTypingUsages m).filter fun u =>
          featVer? u.1 == some vg.1).map condAlias)
  assignBlocks ++ condBlocks

/-- The module after the nested-guard insertions and the stripping of
the module-level feature imports (the first two actions of the rewrite
pass). -/
def strippedModule (m : List TStmt) : List TStmt :=
  if hasModuleLevelFeatureImport m then removeFeatureImports (nestedPhase m)
  else nestedPhase m

/-- The two-pass module-level rewrite (`transform_typing_extensions`):
analyze the module, then — when there is anything to do — apply the
nested-guard insertions, strip the module-level feature imports, ensure
the `sys` (and, for module-level assignment patches, `typing`) imports,
and insert the new version-guard blocks after the imports. -/
def transformTE (m : List TStmt) : List TStmt :=
  if hasImportStatements m || !(dotUsages m).isEmpty then
    let m2 := strippedModule m
    let m3 := ensureSysImport m2
    let m4 :=
      if optimalScope m = .top && !(dotUsages m).isEmpty then ensureTypingImport m3
      else m3
    insertAllAt (postImportPos m4) (newBlocks m) m4
  else m

-- test_already_in_block: a module that already carries the equivalent guard is unchanged
example : transformTE [.importSys, .importTyping, .guardAssign (3, 8) ["final"] [],
    .useTypingDot "final"] =
  [.importSys, .importTyping, .guardAssign (3, 8) ["final"] [], .useTypingDot "final"] := by decide

-- test_not_quite_right_version_check: a (3, 9) guard does not satisfy the (3, 8) need;
-- the new guard is inserted after the imports, before the old one, and the result is a fixed point
example : transformTE [.importSys, .importTyping, .guardAssign (3, 9) ["final"] [],
    .useTypingDot "final"] =
  [.importSys, .importTyping, .guardAssign (3, 8) ["final"] [],
   .guardAssign (3, 9) ["final"] [], .useTypingDot "final"] := by decide

example : transformTE [.importSys, .importTyping, .guardAssign (3, 8) ["final"] [],
    .guardAssign (3, 9) ["final"] [], .useTypingDot "final"] =
  [.importSys, .importTyping, .guardAssign (3, 8) ["final"] [],
   .guardAssign (3, 9) ["final"] [], .useTypingDot "final"] := by decide

-- a module-level `from typing import Literal` becomes a conditional-import guard
example : transformTE [.fromTyping [("Literal", none)], .useTypingDot "final"] =
  [.importTyping, .importSys, .guardAssign (3, 8) ["final"] [],
   .guardCondImport (3, 8) [("Literal", none)], .useTypingDot "final"] := by decide

-- a module whose only typing uses sit inside one guard gets the nested guard (leave_If)
example : transformTE [.guardAssign (3, 9) ["final"] []] =
  [.importSys, .guardAssign (3, 9) ["final"] [((3, 8), ["final"])]] := by decide

-- and that output is a fixed point
example : transformTE [.importSys, .guardAssign (3, 9) ["final"] [((3, 8), ["final"])]] =
  [.importSys, .guardAssign (3, 9) ["final"] [((3, 8), ["final"])]] := by decide

-- modules with nothing to transform are untouched
example : transformTE [.docstring, .importOther, .other] = [.docstring, .importOther, .other] := rfl

-- the docstring counterexample: the second run duplicates `import sys`
example : transformTE [.docstring, .importTyping, .useTypingDot "final"] =
  [.docstring, .importSys, .importTyping, .guardAssign (3, 8) ["final"] [],
   .useTypingDot "final"] := by decide

example : transformTE [.docstring, .importSys, .importTyping, .guardAssign (3, 8) ["final"] [],
    .useTypingDot "final"] =
  [.docstring, .importSys, .importSys, .importTyping, .guardAssign (3, 8) ["final"] [],
   .useTypingDot "final"] := by decide

/-- The module-docstring example on which textual idempotence fails. -/
def docstringDemo : List TStmt := [.docstring, .importTyping, .useTypingDot "final"]

/-- C9 (counterexample): on a module with a leading docstring the
rewriter is not textually idempotent — `_check_early_sys_import` stops
scanning at the docstring line (which is not an import), never sees the
`import sys` the first run placed after the docstring, and so the
second run inserts a duplicate `import sys`; no version-guard block is
duplicated. -/
theorem C9_docstring_counterexample :
    transformTE docstringDemo =
      [.docstring, .importSys, .importTyping, .guardAssign (3, 8) ["final"] [],
       .useTypingDot "final"]
    ∧ transformTE (transformTE docstringDemo) =
      [.docstring, .importSys, .importSys, .importTyping, .guardAssign (3, 8) ["final"] [],
       .useTypingDot "final"]
    ∧ transformTE (transformTE docstringDemo) ≠ transformTE docstringDemo :=
  ⟨by decide, by decide, by decide⟩

/-! ## Part C: lemmas towards idempotence -/

/-- Scope-path prefix order (reflexive; `top` below everything; an
`inGuard` below its `inNested` scopes). -/
def pfxB : TScope → TScope → Bool
  | .top, _ => true
  | .inGuard i, .inGuard j => i == j
  | .inGuard i, .inNested j _ => i == j
  | .inFunc i, .inFunc j => i == j
  | .inNested i j, .inNested k l => i == k && j == l
  | _, _ => false

/-- The statement index a scope refers to, if not the module level. -/
def scopeIdx : TScope → Option Nat
  | .top => none
  | .inGuard i => some i
  | .inFunc i => some i
  | .inNested i _ => some i

theorem pfxB_refl (a : TScope) : pfxB a a = true := by
  cases a <;> simp [pfxB]

theorem pfxB_trans {a b c : TScope} (h1 : pfxB a b = true) (h2 : pfxB b c = true) :
    pfxB a c = true := by
  cases a <;> cases b <;> cases c <;> simp_all [pfxB]

theorem scopeMeet_pfx_left (a b : TScope) : pfxB (scopeMeet a b) a = true := by
  cases a <;> cases b <;> simp only [scopeMeet] <;> (repeat' split) <;> simp_all [pfxB]

theorem scopeMeet_pfx_right (a b : TScope) : pfxB (scopeMeet a b) b = true := by
  cases a <;> cases b <;> simp only [scopeMeet] <;> (repeat' split) <;> simp_all [pfxB]

/-- A scope below `inGuard g` is `inGuard g` itself or one of its nested scopes. -/
theorem pfxB_inGuard_cases {g : Nat} {x : TScope}
    (h : pfxB (.inGuard g) x = true) :
    x = .inGuard g ∨ ∃ j, x = .inNested g j := by
  cases x <;> simp_all [pfxB]

theorem scopeMeet_mono {p a b : TScope} (ha : pfxB p a = true) (hb : pfxB p b = true) :
    pfxB p (scopeMeet a b) = true := by
  cases p with
  | top => cases a <;> cases b <;> simp [pfxB]
  | inGuard i =>
    rcases pfxB_inGuard_cases ha with rfl | ⟨j, rfl⟩ <;>
      rcases pfxB_inGuard_cases hb with rfl | ⟨k, rfl⟩
    · simp [scopeMeet, pfxB]
    · simp [scopeMeet, pfxB]
    · simp [scopeMeet, pfxB]
    · by_cases h : j = k <;> simp [scopeMeet, pfxB, h]
  | inFunc i =>
    obtain rfl : a = .inFunc i := by cases a <;> simp_all [pfxB]
    obtain rfl : b = .inFunc i := by cases b <;> simp_all [pfxB]
    simp [scopeMeet, pfxB]
  | inNested i j =>
    obtain rfl : a = .inNested i j := by
      cases a <;> simp_all [pfxB]
    obtain rfl : b = .inNested i j := by
      cases b <;> simp_all [pfxB]
    simp [scopeMeet, pfxB]

/-- The fold result of `commonScope` is a prefix of every element. -/
theorem commonScope_pfx : ∀ (l : List TScope) (x : TScope), x ∈ l →
    pfxB (commonScope l) x = true := by
  have key : ∀ (l : List TScope) (acc : TScope),
      pfxB (l.foldl scopeMeet acc) acc = true ∧
        ∀ x ∈ l, pfxB (l.foldl scopeMeet acc) x = true := by
    intro l
    induction l with
    | nil => intro acc; exact ⟨pfxB_refl acc, by simp⟩
    | cons y rest ih =>
      intro acc
      have h := ih (scopeMeet acc y)
      constructor
      · exact pfxB_trans h.1 (scopeMeet_pfx_left acc y)
      · intro x hx
        rcases List.mem_cons.mp hx with h' | h'
        · subst h'
          exact pfxB_trans h.1 (scopeMeet_pfx_right acc x)
        · exact h.2 x h'
  intro l x hx
  cases l with
  | nil => cases hx
  | cons s rest =>
    unfold commonScope
    rcases List.mem_cons.mp hx with h' | h'
    · subst h'; exact (key rest x).1
    · exact (key rest s).2 x h'

/-- If `p` is a prefix of every element of a nonempty list, it is a prefix
of the `commonScope` fold. -/
theorem commonScope_mono {p : TScope} : ∀ (l : List TScope), l ≠ [] →
    (∀ x ∈ l, pfxB p x = true) → pfxB p (commonScope l) = true := by
  have key : ∀ (l : List TScope) (acc : TScope), pfxB p acc = true →
      (∀ x ∈ l, pfxB p x = true) → pfxB p (l.foldl scopeMeet acc) = true := by
    intro l
    induction l with
    | nil => intro acc hacc _; exact hacc
    | cons y rest ih =>
      intro acc hacc hall
      exact ih (scopeMeet acc y)
        (scopeMeet_mono hacc (hall y (List.mem_cons_self y rest)))
        (fun x hx => hall x (List.mem_cons_of_mem y hx))
  intro l hne hall
  cases l with
  | nil => exact absurd rfl hne
  | cons s rest =>
    unfold commonScope
    exact key rest s (hall s (List.mem_cons_self s rest))
      (fun x hx => hall x (List.mem_cons_of_mem s hx))

/-- A non-`top` scope that is a prefix of `x` fixes the statement index of `x`. -/
theorem pfxB_scopeIdx {c x : TScope} (hc : c ≠ .top) (h : pfxB c x = true) :
    scopeIdx c = scopeIdx x := by
  cases c <;> cases x <;> simp_all [pfxB, scopeIdx]

/-- If `top` occurs in the list, the common scope is `top`. -/
theorem commonScope_of_mem_top {l : List TScope} (h : .top ∈ l) :
    commonScope l = .top := by
  have := commonScope_pfx l .top h
  cases hcs : commonScope l <;> simp_all [pfxB]

/-- Two scopes in the list referring to distinct statement indices force the
common scope down to `top`. -/
theorem commonScope_of_two_idx {l : List TScope} {a b : TScope}
    (ha : a ∈ l) (hb : b ∈ l) (hne : scopeIdx a ≠ scopeIdx b) :
    commonScope l = .top := by
  by_contra hcs
  have h1 := pfxB_scopeIdx hcs (commonScope_pfx l a ha)
  have h2 := pfxB_scopeIdx hcs (commonScope_pfx l b hb)
  exact hne (h1 ▸ h2)

/-- If every element sits below `inGuard g` and `inGuard g` itself occurs,
the common scope is exactly `inGuard g`. -/
theorem commonScope_eq_inGuard_of_mem {l : List TScope} {g : Nat}
    (hall : ∀ x ∈ l, pfxB (.inGuard g) x = true) (hmem : .inGuard g ∈ l) :
    commonScope l = .inGuard g := by
  have hup : pfxB (.inGuard g) (commonScope l) = true :=
    commonScope_mono l (List.ne_nil_of_mem hmem) hall
  have hlow := commonScope_pfx l (.inGuard g) hmem
  cases hcs : commonScope l <;> rw [hcs] at hup hlow <;> simp_all [pfxB]

/-- If every element sits below `inGuard g` and two distinct nested scopes of
`g` occur, the common scope is exactly `inGuard g`. -/
theorem commonScope_eq_inGuard_of_two_nested {l : List TScope} {g j1 j2 : Nat}
    (hall : ∀ x ∈ l, pfxB (.inGuard g) x = true)
    (h1 : .inNested g j1 ∈ l) (h2 : .inNested g j2 ∈ l) (hj : j1 ≠ j2) :
    commonScope l = .inGuard g := by
  have hup : pfxB (.inGuard g) (commonScope l) = true :=
    commonScope_mono l (List.ne_nil_of_mem h1) hall
  have hl1 := commonScope_pfx l (.inNested g j1) h1
  have hl2 := commonScope_pfx l (.inNested g j2) h2
  cases hcs : commonScope l <;> rw [hcs] at hup hl1 hl2 <;> simp_all [pfxB]

/-- Whether the head statement is a module docstring (`strippedModule m`
starting with one is exactly the situation in which
`_check_early_sys_import` fails to see the inserted `import sys`). -/
def noDocHead : List TStmt → Bool
  | .docstring :: _ => false
  | _ => true

/-- The features a statement uses through `typing.<feature>` attributes
(the second components of its `stmtUsages`, index-free). -/
def stmtFeatures : TStmt → List String
  | .useTypingDot f => if isFeature f then [f] else []
  | .guardAssign _ fs nested =>
    (nested.flatMap fun nb => nb.2.filter isFeature) ++ fs.filter isFeature
  | .funcWithUse fs => fs.filter isFeature
  | _ => []

/-- Whether a statement carries any `typing.<feature>` usage. -/
def featBearing (s : TStmt) : Bool := !(stmtFeatures s).isEmpty

/-- `stmtFeatures` is the feature projection of `stmtUsages`. -/
theorem stmtUsages_map_snd (i : Nat) (s : TStmt) :
    (stmtUsages i s).map Prod.snd = stmtFeatures s := by
  cases s with
  | useTypingDot f => simp only [stmtUsages, stmtFeatures]; split <;> simp
  | guardAssign v fs nested =>
    simp only [stmtUsages, stmtFeatures, List.map_append, List.map_flatMap, List.map_map]
    congr 1
    · have h1 : (fun a : Nat × PyVer × List String =>
          (a.2.2.filter isFeature).map (Prod.snd ∘ fun f => (TScope.inNested i a.1, f))) =
          ((fun nb : PyVer × List String => nb.2.filter isFeature) ∘ Prod.snd) := by
        funext a; simp
      rw [h1]
      have h2 := List.flatMap_map (Prod.snd : Nat × PyVer × List String → PyVer × List String)
        (fun nb : PyVer × List String => nb.2.filter isFeature) nested.enum
      rw [List.enum_map_snd] at h2
      exact h2.symm
    · simp
  | funcWithUse fs => simp [stmtUsages, stmtFeatures]
  | _ => simp [stmtUsages, stmtFeatures]
  all_goals simp [stmtUsages, stmtFeatures]

/-- A statement's usage list is nonempty exactly when it is feature-bearing. -/
theorem stmtUsages_ne_nil_iff (i : Nat) (s : TStmt) :
    stmtUsages i s ≠ [] ↔ featBearing s = true := by
  rw [featBearing, Bool.not_eq_true', ← stmtUsages_map_snd i]
  cases stmtUsages i s <;> simp

/-- The feature component of a usage is a feature of its statement. -/
theorem mem_stmtFeatures_of_usage {i : Nat} {s : TStmt} {sc : TScope} {f : String}
    (h : (sc, f) ∈ stmtUsages i s) : f ∈ stmtFeatures s := by
  rw [← stmtUsages_map_snd i]
  exact List.mem_map.mpr ⟨(sc, f), h, rfl⟩

/-- Every feature of a statement is witnessed by a usage. -/
theorem usage_of_mem_stmtFeatures {i : Nat} {s : TStmt} {f : String}
    (h : f ∈ stmtFeatures s) : ∃ sc, (sc, f) ∈ stmtUsages i s := by
  rw [← stmtUsages_map_snd i] at h
  obtain ⟨⟨sc, f'⟩, hm, he⟩ := List.mem_map.mp h
  exact ⟨sc, by simpa [← he] using hm⟩

/-- Attribution of usages: a usage belongs to the module iff some indexed
statement contributes it. -/
theorem mem_dotUsages_iff {l : List TStmt} {sc : TScope} {f : String} :
    (sc, f) ∈ dotUsages l ↔ ∃ i s, l.get? i = some s ∧ (sc, f) ∈ stmtUsages i s := by
  simp only [dotUsages, List.mem_flatMap]
  constructor
  · rintro ⟨⟨i, s⟩, hm, hu⟩
    exact ⟨i, s, List.mk_mem_enum_iff_get?.mp hm, hu⟩
  · rintro ⟨i, s, hg, hu⟩
    exact ⟨(i, s), List.mk_mem_enum_iff_get?.mpr hg, hu⟩

/-- The feature projection of the module's usages is the statement-wise
feature flatMap. -/
theorem dotUsages_map_snd (l : List TStmt) :
    (dotUsages l).map Prod.snd = l.flatMap stmtFeatures := by
  rw [dotUsages, List.map_flatMap]
  have h1 : (fun p : Nat × TStmt => (stmtUsages p.1 p.2).map Prod.snd) =
      (stmtFeatures ∘ Prod.snd) := by
    funext p; exact stmtUsages_map_snd p.1 p.2
  rw [h1]
  have h2 := List.flatMap_map (Prod.snd : Nat × TStmt → TStmt) stmtFeatures l.enum
  rw [List.enum_map_snd] at h2
  exact h2.symm

/-- The module has no usages iff no statement is feature-bearing. -/
theorem dotUsages_eq_nil_iff {l : List TStmt} :
    dotUsages l = [] ↔ ∀ s ∈ l, featBearing s = false := by
  constructor
  · intro h s hs
    obtain ⟨i, hi⟩ := List.mem_iff_get?.mp hs
    by_contra hb
    have hb' : featBearing s = true := by
      revert hb; cases featBearing s <;> simp
    obtain ⟨u, hu⟩ := List.exists_mem_of_ne_nil _ ((stmtUsages_ne_nil_iff i s).mpr hb')
    have : (u.1, u.2) ∈ dotUsages l := mem_dotUsages_iff.mpr ⟨i, s, hi, by simpa using hu⟩
    rw [h] at this
    cases this
  · intro h
    by_contra hne
    obtain ⟨⟨sc, f⟩, hu⟩ := List.exists_mem_of_ne_nil _ hne
    obtain ⟨i, s, hg, hus⟩ := mem_dotUsages_iff.mp hu
    have hs : s ∈ l := List.mem_iff_get?.mpr ⟨i, hg⟩
    have : stmtUsages i s ≠ [] := by
      intro hnil; rw [hnil] at hus; cases hus
    rw [stmtUsages_ne_nil_iff] at this
    rw [h s hs] at this
    cases this

/-- The scope of a usage is the module level or refers to the statement's
own index. -/
theorem stmtUsages_scopeIdx {i : Nat} {s : TStmt} {sc : TScope} {f : String}
    (h : (sc, f) ∈ stmtUsages i s) : sc = .top ∨ scopeIdx sc = some i := by
  cases s <;> simp only [stmtUsages] at h
  case useTypingDot f0 =>
    split at h <;> simp_all
  case guardAssign v fs nested =>
    rcases List.mem_append.mp h with h' | h'
    · obtain ⟨nb, _, h2⟩ := List.mem_flatMap.mp h'
      obtain ⟨f0, _, h3⟩ := List.mem_map.mp h2
      right; rw [show sc = TScope.inNested i nb.1 from (Prod.mk.injEq .. ▸ h3).1.symm]; rfl
    · obtain ⟨f0, _, h3⟩ := List.mem_map.mp h'
      right; rw [show sc = TScope.inGuard i from (Prod.mk.injEq .. ▸ h3).1.symm]; rfl
  case funcWithUse fs =>
    obtain ⟨f0, _, h3⟩ := List.mem_map.mp h
    right; rw [show sc = TScope.inFunc i from (Prod.mk.injEq .. ▸ h3).1.symm]; rfl
  all_goals cases h

/-- A non-module-level usage scope comes from a guard statement or a
function statement, and a guard's usages sit in its own or a nested scope. -/
theorem stmtUsages_guard_shape {i : Nat} {v : PyVer} {fs : List String}
    {nested : List (PyVer × List String)} {sc : TScope} {f : String}
    (h : (sc, f) ∈ stmtUsages i (.guardAssign v fs nested)) :
    sc = .inGuard i ∨ ∃ j, sc = .inNested i j := by
  simp only [stmtUsages] at h
  rcases List.mem_append.mp h with h' | h'
  · obtain ⟨nb, _, h2⟩ := List.mem_flatMap.mp h'
    obtain ⟨f0, _, h3⟩ := List.mem_map.mp h2
    exact Or.inr ⟨nb.1, (Prod.mk.injEq .. ▸ h3).1.symm⟩
  · obtain ⟨f0, _, h3⟩ := List.mem_map.mp h'
    exact Or.inl (Prod.mk.injEq .. ▸ h3).1.symm

/-- A `top`-scoped usage comes only from a `useTypingDot` statement. -/
theorem stmtUsages_top_shape {i : Nat} {s : TStmt} {f : String}
    (h : (.top, f) ∈ stmtUsages i s) : s = .useTypingDot f ∧ isFeature f = true := by
  cases s <;> simp only [stmtUsages] at h
  case useTypingDot f0 =>
    split at h <;> simp_all
  case guardAssign v fs nested =>
    rcases List.mem_append.mp h with h' | h'
    · obtain ⟨nb, _, h2⟩ := List.mem_flatMap.mp h'
      obtain ⟨f0, _, h3⟩ := List.mem_map.mp h2
      cases (Prod.mk.injEq .. ▸ h3).1
    · obtain ⟨f0, _, h3⟩ := List.mem_map.mp h'
      cases (Prod.mk.injEq .. ▸ h3).1
  case funcWithUse fs =>
    obtain ⟨f0, _, h3⟩ := List.mem_map.mp h
    cases (Prod.mk.injEq .. ▸ h3).1
  all_goals cases h

/-- A guard's own-scope usages are exactly its feature assignments. -/
theorem stmtUsages_inGuard_iff {i : Nat} {v : PyVer} {fs : List String}
    {nested : List (PyVer × List String)} {f : String} :
    (.inGuard i, f) ∈ stmtUsages i (.guardAssign v fs nested) ↔
      f ∈ fs ∧ isFeature f = true := by
  simp only [stmtUsages, List.mem_append, List.mem_flatMap, List.mem_map]
  constructor
  · rintro (⟨nb, _, f0, _, h3⟩ | ⟨f0, h2, h3⟩)
    · cases (Prod.mk.injEq .. ▸ h3).1
    · obtain ⟨h4, h5⟩ := List.mem_filter.mp h2
      obtain rfl : f0 = f := (Prod.mk.injEq .. ▸ h3).2
      exact ⟨h4, h5⟩
  · rintro ⟨h1, h2⟩
    exact Or.inr ⟨f, List.mem_filter.mpr ⟨h1, h2⟩, rfl⟩

/-- A guard's nested-scope usages are exactly the features of the
corresponding nested entry. -/
theorem stmtUsages_inNested_iff {i j : Nat} {v : PyVer} {fs : List String}
    {nested : List (PyVer × List String)} {f : String} :
    (.inNested i j, f) ∈ stmtUsages i (.guardAssign v fs nested) ↔
      ∃ nb, nested.get? j = some nb ∧ f ∈ nb.2 ∧ isFeature f = true := by
  simp only [stmtUsages, List.mem_append, List.mem_flatMap, List.mem_map]
  constructor
  · rintro (⟨nb, h1, f0, h2, h3⟩ | ⟨f0, _, h3⟩)
    · obtain ⟨hj, rfl⟩ : nb.1 = j ∧ f0 = f := by
        have := Prod.mk.injEq .. ▸ h3
        exact ⟨(TScope.inNested.injEq .. ▸ this.1).2, this.2⟩
      obtain ⟨h4, h5⟩ := List.mem_filter.mp h2
      refine ⟨nb.2, ?_, h4, h5⟩
      have := List.mk_mem_enum_iff_get?.mp (show (nb.1, nb.2) ∈ nested.enum by simpa using h1)
      rw [hj] at this
      exact this
    · cases (Prod.mk.injEq .. ▸ h3).1
  · rintro ⟨nb, h1, h2, h3⟩
    refine Or.inl ⟨(j, nb), List.mk_mem_enum_iff_get?.mpr h1, f, List.mem_filter.mpr ⟨h2, h3⟩, rfl⟩

/-- Membership through a single-statement insertion. -/
theorem mem_insertAt {s x : TStmt} {n : Nat} {l : List TStmt} :
    s ∈ insertAt n x l ↔ s = x ∨ s ∈ l := by
  unfold insertAt
  constructor
  · intro h
    rcases List.mem_append.mp h with h' | h'
    · exact Or.inr (List.mem_of_mem_take h')
    · rcases List.mem_cons.mp h' with h'' | h''
      · exact Or.inl h''
      · exact Or.inr (List.mem_of_mem_drop h'')
  · intro h
    rcases h with h' | h'
    · exact List.mem_append.mpr (Or.inr (List.mem_cons.mpr (Or.inl h')))
    · rw [← List.take_append_drop n l] at h'
      rcases List.mem_append.mp h' with h'' | h''
      · exact List.mem_append.mpr (Or.inl h'')
      · exact List.mem_append.mpr (Or.inr (List.mem_cons.mpr (Or.inr h'')))

/-- Membership through a block insertion. -/
theorem mem_insertAllAt {s : TStmt} {n : Nat} {blocks l : List TStmt} :
    s ∈ insertAllAt n blocks l ↔ s ∈ blocks ∨ s ∈ l := by
  unfold insertAllAt
  constructor
  · intro h
    rcases List.mem_append.mp h with h' | h'
    · rcases List.mem_append.mp h' with h'' | h''
      · exact Or.inr (List.mem_of_mem_take h'')
      · exact Or.inl h''
    · exact Or.inr (List.mem_of_mem_drop h')
  · intro h
    rcases h with h' | h'
    · exact List.mem_append.mpr (Or.inl (List.mem_append.mpr (Or.inr h')))
    · rw [← List.take_append_drop n l] at h'
      rcases List.mem_append.mp h' with h'' | h''
      · exact List.mem_append.mpr (Or.inl (List.mem_append.mpr (Or.inl h'')))
      · exact List.mem_append.mpr (Or.inr h'')

/-- Inserting an empty block list is the identity. -/
theorem insertAllAt_nil (n : Nat) (l : List TStmt) : insertAllAt n [] l = l := by
  unfold insertAllAt
  rw [List.append_nil, List.take_append_drop]

/-- `dedupeAux` keeps exactly the elements not previously seen. -/
theorem mem_dedupeAux {α : Type} [DecidableEq α] {x : α} :
    ∀ {l seen : List α}, x ∈ dedupeAux seen l ↔ x ∈ l ∧ x ∉ seen := by
  intro l
  induction l with
  | nil => intro seen; simp [dedupeAux]
  | cons v rest ih =>
    intro seen
    by_cases hv : v ∈ seen
    · rw [dedupeAux, if_pos hv, ih]
      constructor
      · rintro ⟨h1, h2⟩; exact ⟨List.mem_cons_of_mem v h1, h2⟩
      · rintro ⟨h1, h2⟩
        rcases List.mem_cons.mp h1 with rfl | h1'
        · exact absurd hv h2
        · exact ⟨h1', h2⟩
    · rw [dedupeAux, if_neg hv]
      constructor
      · intro h
        rcases List.mem_cons.mp h with rfl | h'
        · exact ⟨List.mem_cons_self x rest, hv⟩
        · obtain ⟨h1, h2⟩ := ih.mp h'
          refine ⟨List.mem_cons_of_mem v h1, fun hx => h2 (List.mem_cons_of_mem v hx)⟩
      · rintro ⟨h1, h2⟩
        rcases List.mem_cons.mp h1 with rfl | h1'
        · exact List.mem_cons_self x _
        · by_cases hxv : x = v
          · subst hxv; exact List.mem_cons_self x _
          · exact List.mem_cons_of_mem v (ih.mpr ⟨h1', fun hx => by
              rcases List.mem_cons.mp hx with h | h
              · exact hxv h
              · exact h2 h⟩)

/-- Deduplication preserves membership. -/
theorem mem_dedupeL {α : Type} [DecidableEq α] {x : α} {l : List α} :
    x ∈ dedupeL l ↔ x ∈ l := by
  rw [dedupeL, mem_dedupeAux]
  simp

/-- Version-sorted insertion preserves membership. -/
theorem mem_insertByVer {α : Type} {x a : PyVer × α} :
    ∀ {l : List (PyVer × α)}, x ∈ insertByVer a l ↔ x = a ∨ x ∈ l := by
  intro l
  induction l with
  | nil => simp [insertByVer]
  | cons y rest ih =>
    rw [insertByVer]
    split
    · simp
    · rw [List.mem_cons, ih, List.mem_cons]
      tauto

/-- Version sorting preserves membership. -/
theorem mem_sortByVer {α : Type} {x : PyVer × α} :
    ∀ {l : List (PyVer × α)}, x ∈ sortByVer l ↔ x ∈ l := by
  intro l
  induction l with
  | nil => simp [sortByVer]
  | cons y rest ih =>
    rw [sortByVer, List.foldr_cons, mem_insertByVer, List.mem_cons]
    rw [sortByVer] at ih
    rw [ih]


/-- Each version group carries at least one feature of that version from
the input list. -/
theorem versionGroups_sound {fs : List String} {w : PyVer} {grp : List String}
    (h : (w, grp) ∈ versionGroups fs) :
    ∃ f, f ∈ grp ∧ f ∈ fs ∧ featVer? f = some w := by
  obtain ⟨v, hv, he⟩ := List.mem_map.mp h
  injection he with h1 h2
  subst h1
  subst h2
  obtain ⟨f, hf, hfv⟩ := List.mem_filterMap.mp (mem_dedupeL.mp hv)
  exact ⟨f, List.mem_filter.mpr ⟨hf, by simp [hfv]⟩, hf, hfv⟩

/-- Each member of a version group is a feature of the input list with
exactly that version. -/
theorem versionGroups_members {fs : List String} {w : PyVer} {grp : List String}
    (h : (w, grp) ∈ versionGroups fs) {f : String} (hf : f ∈ grp) :
    f ∈ fs ∧ featVer? f = some w := by
  obtain ⟨v, hv, he⟩ := List.mem_map.mp h
  injection he with h1 h2
  subst h1
  subst h2
  obtain ⟨h1, h2⟩ := List.mem_filter.mp hf
  exact ⟨h1, by simpa using h2⟩

/-- Every version of a feature of the input list heads some version group. -/
theorem versionGroups_complete {fs : List String} {f : String} {w : PyVer}
    (hf : f ∈ fs) (hw : featVer? f = some w) :
    ∃ grp, (w, grp) ∈ versionGroups fs := by
  refine ⟨fs.filter fun f => featVer? f == some w, List.mem_map.mpr ⟨w, ?_, rfl⟩⟩
  exact mem_dedupeL.mpr (List.mem_filterMap.mpr ⟨f, hf, hw⟩)

/-- A module-level assignment-kind check exists iff a guard with that
version tuple sits at the top level. -/
theorem checkExists_top_assign {l : List TStmt} {w : PyVer} :
    checkExists l .top w .assign = true ↔
      ∃ fs nested, .guardAssign w fs nested ∈ l := by
  rw [checkExists, List.any_eq_true]
  constructor
  · rintro ⟨c, hc, he⟩
    rw [decide_eq_true_eq] at he
    subst he
    obtain ⟨⟨i, s⟩, hm, hc2⟩ := List.mem_flatMap.mp hc
    have hsl : s ∈ l := List.mem_iff_get?.mpr ⟨i, List.mk_mem_enum_iff_get?.mp hm⟩
    cases s <;> simp only at hc2
    case guardAssign v fs nested =>
      rcases List.mem_cons.mp hc2 with he2 | he2
      · injection he2 with h1 h2
        injection h2 with h3 h4
        subst h3
        exact ⟨fs, nested, hsl⟩
      · obtain ⟨nb, _, he3⟩ := List.mem_map.mp he2
        injection he3 with h1 h2
        cases h1
    case guardCondImport v ns =>
      rcases List.mem_cons.mp hc2 with he2 | he2
      · injection he2 with h1 h2
        injection h2 with h3 h4
        cases h4
      · cases he2
    all_goals cases hc2
  · rintro ⟨fs, nested, hm⟩
    obtain ⟨i, hi⟩ := List.mem_iff_get?.mp hm
    refine ⟨(.top, w, .assign), List.mem_flatMap.mpr
      ⟨(i, .guardAssign w fs nested), List.mk_mem_enum_iff_get?.mpr hi, ?_⟩, by simp⟩
    exact List.mem_cons_self _ _

/-- A guard-scope assignment-kind check exists iff the guard at that index
has a nested check for that version. -/
theorem checkExists_inGuard_assign {l : List TStmt} {g : Nat} {w : PyVer} :
    checkExists l (.inGuard g) w .assign = true ↔
      ∃ v fs nested, l.get? g = some (.guardAssign v fs nested) ∧
        w ∈ nested.map Prod.fst := by
  rw [checkExists, List.any_eq_true]
  constructor
  · rintro ⟨c, hc, he⟩
    rw [decide_eq_true_eq] at he
    subst he
    obtain ⟨⟨i, s⟩, hm, hc2⟩ := List.mem_flatMap.mp hc
    have hg : l.get? i = some s := List.mk_mem_enum_iff_get?.mp hm
    cases s <;> simp only at hc2
    case guardAssign v fs nested =>
      rcases List.mem_cons.mp hc2 with he2 | he2
      · injection he2 with h1 h2
        cases h1
      · obtain ⟨nb, hnb, he3⟩ := List.mem_map.mp he2
        injection he3 with h1 h2
        injection h2 with h3 h4
        injection h1 with h5
        subst h5
        exact ⟨v, fs, nested, hg, List.mem_map.mpr ⟨nb, hnb, h3⟩⟩
    case guardCondImport v ns =>
      rcases List.mem_cons.mp hc2 with he2 | he2
      · injection he2 with h1 h2
        cases h1
      · cases he2
    all_goals cases hc2
  · rintro ⟨v, fs, nested, hg, hw⟩
    obtain ⟨nb, hnb, hfst⟩ := List.mem_map.mp hw
    refine ⟨(.inGuard g, w, .assign), List.mem_flatMap.mpr
      ⟨(g, .guardAssign v fs nested), List.mk_mem_enum_iff_get?.mpr hg, ?_⟩, by simp⟩
    exact List.mem_cons_of_mem _ (List.mem_map.mpr ⟨nb, hnb, by rw [hfst]⟩)

/-- Inserting at position zero is a cons. -/
theorem insertAt_zero (x : TStmt) (l : List TStmt) : insertAt 0 x l = x :: l := rfl

/-- Inserting past a head keeps the head. -/
theorem insertAt_succ_cons (n : Nat) (x s : TStmt) (l : List TStmt) :
    insertAt (n + 1) x (s :: l) = s :: insertAt n x l := by
  simp [insertAt]

/-- Inserting `import sys` after the `__future__` prefix makes the early
`import sys` scan succeed. -/
theorem earlySys_insert_future_sys : ∀ (l : List TStmt),
    earlySysImport (insertAt (futureSkip l) .importSys l) = true := by
  intro l
  induction l with
  | nil => rfl
  | cons s rest ih =>
    by_cases hf : isFutureImport s = true
    · obtain ⟨mod, ns, rfl⟩ : ∃ mod ns, s = .fromOther mod ns := by
        cases s <;> simp_all [isFutureImport]
      rw [show futureSkip (.fromOther mod ns :: rest) = 1 + futureSkip rest from by
        rw [futureSkip, if_pos hf]]
      rw [Nat.add_comm, insertAt_succ_cons]
      exact ih
    · rw [show futureSkip (s :: rest) = 0 from by
        rw [futureSkip, if_neg hf]]
      rfl

/-- Inserting `import typing` after the `__future__` prefix preserves a
successful early `import sys` scan. -/
theorem earlySys_insert_future_typing : ∀ (l : List TStmt),
    earlySysImport l = true →
    earlySysImport (insertAt (futureSkip l) .importTyping l) = true := by
  intro l
  induction l with
  | nil => intro h; cases h
  | cons s rest ih =>
    intro h
    by_cases hf : isFutureImport s = true
    · obtain ⟨mod, ns, rfl⟩ : ∃ mod ns, s = .fromOther mod ns := by
        cases s <;> simp_all [isFutureImport]
      rw [show futureSkip (.fromOther mod ns :: rest) = 1 + futureSkip rest from by
        rw [futureSkip, if_pos hf]]
      rw [Nat.add_comm, insertAt_succ_cons]
      exact ih (by exact h)
    · rw [show futureSkip (s :: rest) = 0 from by
        rw [futureSkip, if_neg hf]]
      rw [insertAt_zero]
      exact h

/-- A successful early `import sys` scan survives truncation to the
leading import lines followed by anything. -/
theorem earlySys_take_importSkip : ∀ (l : List TStmt), earlySysImport l = true →
    ∀ (w : List TStmt), earlySysImport (l.take (importSkip l) ++ w) = true := by
  intro l
  induction l with
  | nil => intro h; cases h
  | cons s rest ih =>
    intro h w
    cases s with
    | importSys =>
      rw [show importSkip (.importSys :: rest) = 1 + importSkip rest from by
        rw [importSkip]; rfl]
      rw [Nat.add_comm, List.take_succ_cons]
      rfl
    | importTyping =>
      rw [show importSkip (.importTyping :: rest) = 1 + importSkip rest from by
        rw [importSkip]; rfl]
      rw [Nat.add_comm, List.take_succ_cons]
      exact ih h w
    | importOther =>
      rw [show importSkip (.importOther :: rest) = 1 + importSkip rest from by
        rw [importSkip]; rfl]
      rw [Nat.add_comm, List.take_succ_cons]
      exact ih h w
    | fromTyping ns =>
      rw [show importSkip (.fromTyping ns :: rest) = 1 + importSkip rest from by
        rw [importSkip]; rfl]
      rw [Nat.add_comm, List.take_succ_cons]
      exact ih h w
    | fromOther mod ns =>
      rw [show importSkip (.fromOther mod ns :: rest) = 1 + importSkip rest from by
        rw [importSkip]; rfl]
      rw [Nat.add_comm, List.take_succ_cons]
      exact ih h w
    | docstring => cases h
    | guardAssign v fs nested => cases h
    | guardCondImport v ns => cases h
    | useTypingDot f => cases h
    | funcWithUse fs => cases h
    | other => cases h

/-- Without a leading docstring `find_import_position` is the
`__future__` skip. -/
theorem findImportPos_eq {l : List TStmt} (h : noDocHead l = true) :
    findImportPos l = futureSkip l := by
  cases l with
  | nil => rfl
  | cons s rest => cases s <;> first | rfl | (exact absurd h (by simp [noDocHead]))

/-- Without a leading docstring `find_post_import_position` is the count
of leading import lines. -/
theorem postImportPos_eq {l : List TStmt} (h : noDocHead l = true) :
    postImportPos l = importSkip l := by
  cases l with
  | nil => rfl
  | cons s rest => cases s <;> first | rfl | (exact absurd h (by simp [noDocHead]))

/-- Inserting a non-docstring statement keeps the head docstring-free. -/
theorem noDocHead_insertAt {x : TStmt} {l : List TStmt} (n : Nat)
    (h : noDocHead l = true) (hx : x ≠ .docstring) :
    noDocHead (insertAt n x l) = true := by
  cases n with
  | zero =>
    rw [insertAt_zero]
    cases x <;> first | rfl | (exact absurd rfl hx)
  | succ n =>
    cases l with
    | nil =>
      rw [show insertAt (n + 1) x [] = [x] from by simp [insertAt]]
      cases x <;> first | rfl | (exact absurd rfl hx)
    | cons s rest =>
      rw [insertAt_succ_cons]
      cases s <;> first | rfl | (exact absurd h (by simp [noDocHead]))

/-- `ensure_sys_import` keeps the head docstring-free. -/
theorem noDocHead_ensureSys {l : List TStmt} (h : noDocHead l = true) :
    noDocHead (ensureSysImport l) = true := by
  rw [ensureSysImport]
  split
  · exact h
  · exact noDocHead_insertAt _ h (by intro hc; cases hc)

/-- Modelled from the spec: the `typing`-import insertion keeps the head
docstring-free. -/
theorem noDocHead_ensureTyping {l : List TStmt} (h : noDocHead l = true) :
    noDocHead (ensureTypingImport l) = true := by
  rw [ensureTypingImport]
  split
  · exact h
  · exact noDocHead_insertAt _ h (by intro hc; cases hc)

/-- `ensure_sys_import` establishes a successful early scan when the head
is not a docstring. -/
theorem earlySys_ensureSys {l : List TStmt} (h : noDocHead l = true) :
    earlySysImport (ensureSysImport l) = true := by
  rw [ensureSysImport]
  split
  · assumption
  · rw [findImportPos_eq h]
    exact earlySys_insert_future_sys l

/-- The `typing`-import insertion preserves a successful early scan when
the head is not a docstring. -/
theorem earlySys_ensureTyping {l : List TStmt} (hd : noDocHead l = true)
    (h : earlySysImport l = true) :
    earlySysImport (ensureTypingImport l) = true := by
  rw [ensureTypingImport]
  split
  · exact h
  · rw [findImportPos_eq hd]
    exact earlySys_insert_future_typing l h

/-- The block insertion at the post-import position preserves a
successful early scan when the head is not a docstring. -/
theorem earlySys_insertBlocks {l blocks : List TStmt} (hd : noDocHead l = true)
    (h : earlySysImport l = true) :
    earlySysImport (insertAllAt (postImportPos l) blocks l) = true := by
  rw [postImportPos_eq hd, insertAllAt, List.append_assoc]
  exact earlySys_take_importSkip l h _

/-- A direct `import typing` is exactly membership of the import line. -/
theorem hasDirectTypingImport_iff {l : List TStmt} :
    hasDirectTypingImport l = true ↔ .importTyping ∈ l := by
  rw [hasDirectTypingImport, List.any_eq_true]
  constructor
  · rintro ⟨s, hs, hm⟩
    cases s <;> simp_all
  · intro h
    exact ⟨.importTyping, h, rfl⟩

/-- Modelled from the spec: the `typing`-import insertion establishes the
direct import. -/
theorem hasDirect_ensureTyping {l : List TStmt} :
    hasDirectTypingImport (ensureTypingImport l) = true := by
  rw [ensureTypingImport]
  split
  · assumption
  · exact hasDirectTypingImport_iff.mpr (mem_insertAt.mpr (Or.inl rfl))

/-- Whether one statement is a module-level feature import. -/
def stmtMLFI : TStmt → Bool
  | .fromTyping ns => ns.any fun p => isFeature p.1
  | _ => false

/-- The module-level feature-import test is statement-wise. -/
theorem hasMLFI_eq : ∀ (l : List TStmt),
    hasModuleLevelFeatureImport l = l.any stmtMLFI := by
  intro l
  induction l with
  | nil => rfl
  | cons s rest ih =>
    rw [show hasModuleLevelFeatureImport (s :: rest) =
        ((match s with
          | TStmt.fromTyping ns => ns.any fun p => isFeature p.1
          | _ => false) || hasModuleLevelFeatureImport rest) from by
      rw [hasModuleLevelFeatureImport, hasModuleLevelFeatureImport, List.any_cons]]
    rw [List.any_cons, ih]
    cases s <;> rfl

/-- `removeFeatureImports` on a non-`fromTyping` head keeps it. -/
theorem removeFeatureImports_cons_other (s : TStmt) (rest : List TStmt)
    (h : ∀ ns, s ≠ .fromTyping ns) :
    removeFeatureImports (s :: rest) = s :: removeFeatureImports rest := by
  rw [removeFeatureImports, removeFeatureImports, List.filterMap_cons]
  cases s
  case fromTyping ns => exact absurd rfl (h ns)
  all_goals rfl

/-- `removeFeatureImports` on a `fromTyping` head filters or drops it. -/
theorem removeFeatureImports_cons_fromTyping (ns : List (String × Option String))
    (rest : List TStmt) :
    removeFeatureImports (.fromTyping ns :: rest) =
      if (ns.filter fun p => !isFeature p.1).isEmpty then removeFeatureImports rest
      else .fromTyping (ns.filter fun p => !isFeature p.1) :: removeFeatureImports rest := by
  rw [removeFeatureImports, removeFeatureImports, List.filterMap_cons]
  by_cases hc : (ns.filter fun p => !isFeature p.1).isEmpty = true <;> simp [hc]

/-- Stripping the feature imports leaves no module-level feature import. -/
theorem hasMLFI_removeFeatureImports (l : List TStmt) :
    hasModuleLevelFeatureImport (removeFeatureImports l) = false := by
  rw [hasMLFI_eq, List.any_eq_false]
  intro s hs
  intro hc
  obtain ⟨s0, _, hf⟩ := List.mem_filterMap.mp hs
  cases s0 <;> simp only [removeFeatureImports] at hf
  case fromTyping ns =>
    split at hf
    · cases hf
    · injection hf with h1
      subst h1
      rw [stmtMLFI, List.any_eq_true] at hc
      obtain ⟨p, hp, hpf⟩ := hc
      have := (List.mem_filter.mp hp).2
      rw [hpf] at this
      cases this
  all_goals
    injection hf with h1
    subst h1
    cases hc

/-- Membership provenance through the nested-guard phase. -/
theorem mem_nestedPhase {m : List TStmt} {s : TStmt} (h : s ∈ nestedPhase m) :
    s ∈ m ∨ ∃ v fs nested, s = .guardAssign v fs nested := by
  rw [nestedPhase] at h
  split at h
  · obtain ⟨⟨i, si⟩, hm, he⟩ := List.mem_map.mp h
    have hsi : si ∈ m := List.mem_iff_get?.mpr ⟨i, List.mk_mem_enum_iff_get?.mp hm⟩
    simp only at he
    split at he
    · split at he
      · exact Or.inr ⟨_, _, _, he.symm⟩
      · exact Or.inl (he ▸ hsi)
    · exact Or.inl (he ▸ hsi)
  · exact Or.inl h

/-- Feature-bearing statements survive the import stripping, in both
directions. -/
theorem featBearing_removeFeatureImports {l : List TStmt} {s : TStmt}
    (hb : featBearing s = true) :
    s ∈ removeFeatureImports l ↔ s ∈ l := by
  constructor
  · intro h
    obtain ⟨s0, hs0, hf⟩ := List.mem_filterMap.mp h
    cases s0 <;> simp only [removeFeatureImports] at hf
    case fromTyping ns =>
      split at hf
      · cases hf
      · injection hf with h1
        rw [← h1] at hb
        cases hb
    all_goals
      injection hf with h1
      subst h1
      exact hs0
  · intro h
    refine List.mem_filterMap.mpr ⟨s, h, ?_⟩
    cases s <;> first | rfl | (cases hb)

/-- The import stripping preserves the count of feature-bearing
statements. -/
theorem countP_featBearing_removeFeatureImports : ∀ (l : List TStmt),
    (removeFeatureImports l).countP featBearing = l.countP featBearing := by
  intro l
  induction l with
  | nil => rfl
  | cons s rest ih =>
    cases s
    case fromTyping ns =>
      rw [removeFeatureImports_cons_fromTyping]
      split
      · rw [ih, List.countP_cons]
        simp [featBearing, stmtFeatures]
      · rw [List.countP_cons, List.countP_cons, ih]
        simp [featBearing, stmtFeatures]
    all_goals
      rw [removeFeatureImports_cons_other _ _ (by intro ns h; cases h),
        List.countP_cons, List.countP_cons, ih]

/-- Single-statement insertion adds the inserted statement's count. -/
theorem countP_insertAt (p : TStmt → Bool) (n : Nat) (x : TStmt) (l : List TStmt) :
    (insertAt n x l).countP p = (if p x then 1 else 0) + l.countP p := by
  rw [insertAt, List.countP_append, List.countP_cons]
  conv_rhs => rw [← List.take_append_drop n l, List.countP_append]
  cases hx : p x <;> simp <;> omega

/-- Block insertion adds the blocks' count. -/
theorem countP_insertAllAt (p : TStmt → Bool) (n : Nat) (blocks l : List TStmt) :
    (insertAllAt n blocks l).countP p = blocks.countP p + l.countP p := by
  rw [insertAllAt, List.countP_append, List.countP_append]
  conv_rhs => rw [← List.take_append_drop n l, List.countP_append]
  omega

/-- Two distinct positions with the counted property force a count of at
least two. -/
theorem two_pos_countP {p : TStmt → Bool} : ∀ {l : List TStmt} {i j : Nat}
    {s t : TStmt}, l.get? i = some s → l.get? j = some t → i < j →
    p s = true → p t = true → 2 ≤ l.countP p := by
  intro l
  induction l with
  | nil => intro i j s t hi _ _ _ _; cases i <;> cases hi
  | cons a rest ih =>
    intro i j s t hi hj hij hs ht
    cases i with
    | zero =>
      injection hi with h1
      subst h1
      cases j with
      | zero => cases hij
      | succ j' =>
        have ht' : t ∈ rest := List.mem_iff_get?.mpr ⟨j', hj⟩
        have : 0 < rest.countP p := List.countP_pos_iff.mpr ⟨t, ht', ht⟩
        rw [List.countP_cons, if_pos hs]
        omega
    | succ i' =>
      cases j with
      | zero => cases hij
      | succ j' =>
        have := ih hi hj (Nat.lt_of_succ_lt_succ hij) hs ht
        rw [List.countP_cons]
        split <;> omega

/-- With a count of one, the counted position is unique. -/
theorem countP_one_unique {p : TStmt → Bool} {l : List TStmt} {i j : Nat}
    {s t : TStmt} (hc : l.countP p = 1) (hi : l.get? i = some s)
    (hj : l.get? j = some t) (hs : p s = true) (ht : p t = true) : i = j := by
  rcases Nat.lt_trichotomy i j with h | h | h
  · have := two_pos_countP hi hj h hs ht
    omega
  · exact h
  · have := two_pos_countP hj hi h ht hs
    omega

/-- Members of the new blocks are guard statements. -/
theorem mem_newBlocks {m : List TStmt} {s : TStmt} (h : s ∈ newBlocks m) :
    (∃ vg : PyVer × List String, s = .guardAssign vg.1 vg.2 []) ∨
      ∃ v ns, s = .guardCondImport v ns := by
  simp only [newBlocks] at h
  rcases List.mem_append.mp h with h' | h'
  · split at h'
    · obtain ⟨vg, _, he⟩ := List.mem_map.mp h'
      exact Or.inl ⟨vg, he.symm⟩
    · cases h'
  · obtain ⟨vg, _, he⟩ := List.mem_map.mp h'
    exact Or.inr ⟨vg.1, _, he.symm⟩

/-- Features of the new blocks are features the module already uses. -/
theorem newBlocks_features {m : List TStmt} {b : TStmt} (hb : b ∈ newBlocks m)
    {f : String} (hf : f ∈ stmtFeatures b) : f ∈ (dotUsages m).map Prod.snd := by
  simp only [newBlocks] at hb
  rcases List.mem_append.mp hb with h' | h'
  · split at h'
    · obtain ⟨vg, hvg, he⟩ := List.mem_map.mp h'
      rw [← he] at hf
      simp only [stmtFeatures, List.flatMap_nil, List.nil_append] at hf
      have hvg2 : vg ∈ versionGroups (assignFeatures m) :=
        (List.mem_filter.mp (mem_sortByVer.mp hvg)).1
      have hfv : f ∈ vg.2 := (List.mem_filter.mp hf).1
      have := (versionGroups_members hvg2 hfv).1
      exact mem_dedupeL.mp this
    · cases h'
  · obtain ⟨vg, _, he⟩ := List.mem_map.mp h'
    rw [← he] at hf
    cases hf

/-- A feature-free module has no `from typing` feature usages. -/
theorem fromTypingUsages_nil {l : List TStmt}
    (h : hasModuleLevelFeatureImport l = false) : fromTypingUsages l = [] := by
  rw [fromTypingUsages, List.filterMap_eq_nil_iff]
  intro fv hfv
  rw [if_neg]
  intro hti
  rw [hasTypingImport, List.any_eq_true] at hti
  obtain ⟨p, hp, hpe⟩ := hti
  obtain ⟨s, hs, hp2⟩ := List.mem_flatMap.mp hp
  rw [hasMLFI_eq, List.any_eq_false] at h
  have hmlfi := h s hs
  cases s <;> simp only at hp2
  case fromTyping ns =>
    refine hmlfi ?_
    rw [stmtMLFI, List.any_eq_true]
    refine ⟨p, hp2, ?_⟩
    have h1 : p.1 = fv.1 := by simpa using hpe
    rw [h1, isFeature, featVer?]
    simp only [TYPING_FEATURES, List.mem_cons, List.mem_singleton,
      List.not_mem_nil, or_false] at hfv
    simp only [TYPING_FEATURES]
    rcases hfv with rfl | rfl | rfl | rfl | rfl <;> rfl
  all_goals cases hp2

theorem scopeMeet_idem (c : TScope) : scopeMeet c c = c := by
  cases c <;> simp [scopeMeet]

/-- The common scope of a constant nonempty list is that scope. -/
theorem commonScope_const {c : TScope} : ∀ {l : List TScope}, l ≠ [] →
    (∀ x ∈ l, x = c) → commonScope l = c := by
  have key : ∀ (l : List TScope), (∀ x ∈ l, x = c) → l.foldl scopeMeet c = c := by
    intro l
    induction l with
    | nil => intro _; rfl
    | cons y rest ih =>
      intro h
      rw [List.foldl_cons, h y (List.mem_cons_self y rest), scopeMeet_idem]
      exact ih fun x hx => h x (List.mem_cons_of_mem y hx)
  intro l hne hall
  cases l with
  | nil => exact absurd rfl hne
  | cons s rest =>
    rw [commonScope, hall s (List.mem_cons_self s rest)]
    exact key rest fun x hx => hall x (List.mem_cons_of_mem s hx)

/-- The nested-guard phase is the identity when the planned scope is the
module level. -/
theorem nestedPhase_top {m : List TStmt} (h : optimalScope m = .top) :
    nestedPhase m = m := by
  rw [nestedPhase]
  split
  · rename_i heq _
    rw [h] at heq
    cases heq
  · rfl

/-- The nested-guard phase is the identity when there are no usages. -/
theorem nestedPhase_empty {m : List TStmt} (h : dotUsages m = []) :
    nestedPhase m = m := by
  rw [nestedPhase]
  split
  · rename_i _ heq2
    rw [h] at heq2
    cases heq2
  · rfl

/-- The planned scope is the module level or a guard scope. -/
theorem optimalScope_cases (m : List TStmt) :
    optimalScope m = .top ∨ ∃ g, optimalScope m = .inGuard g ∧
      commonScope ((dotUsages m).map Prod.fst) = .inGuard g := by
  rw [optimalScope]
  cases h : commonScope ((dotUsages m).map Prod.fst)
  case inGuard g => exact Or.inr ⟨g, rfl, rfl⟩
  all_goals exact Or.inl rfl

/-- A usage source that is neither module-level nor function-scoped is a
version guard. -/
theorem stmtUsages_source_guard {i : Nat} {s : TStmt} {sc : TScope} {f : String}
    (h : (sc, f) ∈ stmtUsages i s) (ht : sc ≠ .top) (hf : ∀ j, sc ≠ .inFunc j) :
    ∃ v fs nested, s = .guardAssign v fs nested := by
  cases s <;> simp only [stmtUsages] at h
  case useTypingDot f0 =>
    split at h <;> simp_all
  case guardAssign v fs nested => exact ⟨v, fs, nested, rfl⟩
  case funcWithUse fs =>
    obtain ⟨f0, _, h3⟩ := List.mem_map.mp h
    injection h3 with h4 h5
    exact absurd h4.symm (hf i)
  all_goals cases h

/-- Analysis of a module whose usages plan into a guard scope: the guard
sits at the planned index and is the only feature-bearing statement. -/
theorem inGuard_analysis {l : List TStmt} {g : Nat}
    (hcs : commonScope ((dotUsages l).map Prod.fst) = .inGuard g) :
    ∃ v fs nested, l.get? g = some (.guardAssign v fs nested) ∧
      (∀ i s, l.get? i = some s → featBearing s = true →
        i = g ∧ s = .guardAssign v fs nested) ∧
      dotUsages l ≠ [] := by
  have husne : dotUsages l ≠ [] := by
    intro hnil
    rw [hnil] at hcs
    cases hcs
  have hpfx : ∀ sc ∈ (dotUsages l).map Prod.fst, pfxB (.inGuard g) sc = true := by
    intro sc hsc
    rw [← hcs]
    exact commonScope_pfx _ sc hsc
  have key : ∀ i s, l.get? i = some s → featBearing s = true →
      i = g ∧ ∃ v fs nested, s = .guardAssign v fs nested := by
    intro i s hg hb
    obtain ⟨u, hu⟩ := List.exists_mem_of_ne_nil _ ((stmtUsages_ne_nil_iff i s).mpr hb)
    obtain ⟨sc, f⟩ := u
    have hmem : (sc, f) ∈ dotUsages l := mem_dotUsages_iff.mpr ⟨i, s, hg, hu⟩
    have hscp := hpfx sc (List.mem_map.mpr ⟨(sc, f), hmem, rfl⟩)
    have hsct : sc ≠ .top := by
      intro hc
      rw [hc] at hscp
      cases hscp
    have hidx : scopeIdx sc = some i := by
      rcases stmtUsages_scopeIdx hu with hc | hc
      · exact absurd hc hsct
      · exact hc
    have hig : i = g := by
      rcases pfxB_inGuard_cases hscp with rfl | ⟨j, rfl⟩ <;>
        simpa [scopeIdx] using hidx.symm
    refine ⟨hig, stmtUsages_source_guard hu hsct ?_⟩
    intro j hc
    rw [hc] at hscp
    cases hscp
  obtain ⟨⟨sc0, f0⟩, hu0⟩ := List.exists_mem_of_ne_nil _ husne
  obtain ⟨i0, s0, hg0, hus0⟩ := mem_dotUsages_iff.mp hu0
  have hb0 : featBearing s0 = true := by
    rw [← stmtUsages_ne_nil_iff i0]
    intro hc
    rw [hc] at hus0
    cases hus0
  obtain ⟨rfl, v, fs, nested, rfl⟩ := key i0 s0 hg0 hb0
  refine ⟨v, fs, nested, hg0, ?_, husne⟩
  intro i s hg hb
  obtain ⟨hig, _⟩ := key i s hg hb
  subst hig
  rw [hg0] at hg
  injection hg with h1
  exact ⟨rfl, h1.symm⟩

/-- A guard-level common scope is witnessed by the guard's own scope or by
two distinct nested scopes. -/
theorem inGuard_spread {l : List TScope} {g : Nat}
    (hcs : commonScope l = .inGuard g) :
    (.inGuard g) ∈ l ∨
      ∃ j1 j2, j1 ≠ j2 ∧ (.inNested g j1) ∈ l ∧ (.inNested g j2) ∈ l := by
  by_contra hcon
  push_neg at hcon
  obtain ⟨h1, h2⟩ := hcon
  have hne : l ≠ [] := by
    intro hnil
    rw [hnil] at hcs
    cases hcs
  have hpfx : ∀ sc ∈ l, pfxB (.inGuard g) sc = true := by
    intro sc hsc
    rw [← hcs]
    exact commonScope_pfx _ sc hsc
  obtain ⟨σ0, hσ0⟩ := List.exists_mem_of_ne_nil _ hne
  obtain ⟨j0, rfl⟩ : ∃ j0, σ0 = .inNested g j0 := by
    rcases pfxB_inGuard_cases (hpfx σ0 hσ0) with rfl | ⟨j, rfl⟩
    · exact absurd hσ0 h1
    · exact ⟨j, rfl⟩
  have hall : ∀ sc ∈ l, sc = .inNested g j0 := by
    intro sc hsc
    rcases pfxB_inGuard_cases (hpfx sc hsc) with rfl | ⟨j, rfl⟩
    · exact absurd hsc h1
    · by_cases hj : j = j0
      · rw [hj]
      · exact absurd hσ0 (h2 j j0 hj hsc)
  rw [commonScope_const hne hall] at hcs
  cases hcs

/-- Unfolding of the nested-guard phase in the guard-scope case. -/
theorem nestedPhase_inGuard {m : List TStmt} {g : Nat}
    (hopt : optimalScope m = .inGuard g) (hne : (dotUsages m).isEmpty = false) :
    nestedPhase m = m.enum.map fun p =>
      if p.1 = g then
        match p.2 with
        | .guardAssign v fs nested =>
          .guardAssign v fs ((((sortByVer (versionGroups (assignFeatures m))).filter fun vg =>
            !checkExists m (.inGuard g) vg.1 .assign).map fun vg => (vg.1, vg.2)) ++ nested)
        | s' => s'
      else p.2 := by
  rw [nestedPhase, hopt, hne]

/-- A position-respecting identity map over the enumeration. -/
theorem enum_map_id {l : List TStmt} {F : Nat × TStmt → TStmt}
    (h : ∀ i s, l.get? i = some s → F (i, s) = s) : l.enum.map F = l := by
  have h2 : ∀ p ∈ l.enum, F p = Prod.snd p := by
    intro p hp
    obtain ⟨i, s⟩ := p
    exact h i s (List.mk_mem_enum_iff_get?.mp hp)
  rw [List.map_eq_map_iff.mpr h2, List.enum_map_snd]

/-- The module after stripping and the `sys` import step. -/
def te3 (m : List TStmt) : List TStmt := ensureSysImport (strippedModule m)

/-- The module after stripping, the `sys` import step and the conditional
`typing` import step. -/
def te4 (m : List TStmt) : List TStmt :=
  if optimalScope m = .top && !(dotUsages m).isEmpty then ensureTypingImport (te3 m)
  else te3 m

/-- Unfolding of the rewrite when the pass triggers. -/
theorem transformTE_pos {m : List TStmt}
    (h : (hasImportStatements m || !(dotUsages m).isEmpty) = true) :
    transformTE m = insertAllAt (postImportPos (te4 m)) (newBlocks m) (te4 m) := by
  rw [transformTE, if_pos h]
  rfl

/-- The rewrite is the identity when the pass does not trigger. -/
theorem transformTE_neg {m : List TStmt}
    (h : ¬(hasImportStatements m || !(dotUsages m).isEmpty) = true) :
    transformTE m = m := by
  rw [transformTE, if_neg h]

theorem mem_ensureSys_elim {l : List TStmt} {s : TStmt} (h : s ∈ ensureSysImport l) :
    s = .importSys ∨ s ∈ l := by
  rw [ensureSysImport] at h
  split at h
  · exact Or.inr h
  · exact mem_insertAt.mp h

theorem mem_ensureSys_intro {l : List TStmt} {s : TStmt} (h : s ∈ l) :
    s ∈ ensureSysImport l := by
  rw [ensureSysImport]
  split
  · exact h
  · exact mem_insertAt.mpr (Or.inr h)

theorem mem_ensureTyping_elim {l : List TStmt} {s : TStmt} (h : s ∈ ensureTypingImport l) :
    s = .importTyping ∨ s ∈ l := by
  rw [ensureTypingImport] at h
  split at h
  · exact Or.inr h
  · exact mem_insertAt.mp h

theorem mem_ensureTyping_intro {l : List TStmt} {s : TStmt} (h : s ∈ l) :
    s ∈ ensureTypingImport l := by
  rw [ensureTypingImport]
  split
  · exact h
  · exact mem_insertAt.mpr (Or.inr h)

theorem mem_te4_elim {m : List TStmt} {s : TStmt} (h : s ∈ te4 m) :
    s = .importSys ∨ s = .importTyping ∨ s ∈ strippedModule m := by
  rw [te4] at h
  split at h
  · rcases mem_ensureTyping_elim h with h' | h'
    · exact Or.inr (Or.inl h')
    · rcases mem_ensureSys_elim h' with h'' | h''
      · exact Or.inl h''
      · exact Or.inr (Or.inr h'')
  · rcases mem_ensureSys_elim h with h' | h'
    · exact Or.inl h'
    · exact Or.inr (Or.inr h')

theorem mem_te4_intro {m : List TStmt} {s : TStmt} (h : s ∈ strippedModule m) :
    s ∈ te4 m := by
  rw [te4]
  split
  · exact mem_ensureTyping_intro (mem_ensureSys_intro h)
  · exact mem_ensureSys_intro h

/-- Member provenance of the rewrite's output. -/
theorem mem_transformTE_elim {m : List TStmt} {s : TStmt}
    (htr : (hasImportStatements m || !(dotUsages m).isEmpty) = true)
    (h : s ∈ transformTE m) :
    s ∈ newBlocks m ∨ s = .importSys ∨ s = .importTyping ∨ s ∈ strippedModule m := by
  rw [transformTE_pos htr] at h
  rcases mem_insertAllAt.mp h with h' | h'
  · exact Or.inl h'
  · exact Or.inr (mem_te4_elim h')

/-- Survival of stripped-module statements into the rewrite's output. -/
theorem mem_transformTE_intro {m : List TStmt} {s : TStmt}
    (htr : (hasImportStatements m || !(dotUsages m).isEmpty) = true)
    (h : s ∈ strippedModule m) : s ∈ transformTE m := by
  rw [transformTE_pos htr]
  exact mem_insertAllAt.mpr (Or.inr (mem_te4_intro h))

/-- Survival of the new blocks into the rewrite's output. -/
theorem mem_transformTE_blocks {m : List TStmt} {s : TStmt}
    (htr : (hasImportStatements m || !(dotUsages m).isEmpty) = true)
    (h : s ∈ newBlocks m) : s ∈ transformTE m := by
  rw [transformTE_pos htr]
  exact mem_insertAllAt.mpr (Or.inl h)

theorem featBearing_importSys : featBearing .importSys = false := rfl

theorem featBearing_importTyping : featBearing .importTyping = false := rfl

theorem countP_ensureSys (l : List TStmt) :
    (ensureSysImport l).countP featBearing = l.countP featBearing := by
  rw [ensureSysImport]
  split
  · rfl
  · rw [countP_insertAt, featBearing_importSys]
    simp

theorem countP_ensureTyping (l : List TStmt) :
    (ensureTypingImport l).countP featBearing = l.countP featBearing := by
  rw [ensureTypingImport]
  split
  · rfl
  · rw [countP_insertAt, featBearing_importTyping]
    simp

theorem countP_te4 (m : List TStmt) :
    (te4 m).countP featBearing = (strippedModule m).countP featBearing := by
  rw [te4, te3]
  split
  · rw [countP_ensureTyping, countP_ensureSys]
  · rw [countP_ensureSys]

/-- The output's feature-bearing count is the stripped module's plus the
new blocks'. -/
theorem countP_transformTE {m : List TStmt}
    (htr : (hasImportStatements m || !(dotUsages m).isEmpty) = true) :
    (transformTE m).countP featBearing =
      (newBlocks m).countP featBearing + (strippedModule m).countP featBearing := by
  rw [transformTE_pos htr, countP_insertAllAt, countP_te4]

/-- The stripped module keeps the feature-bearing count of the
nested-guard phase. -/
theorem countP_strippedModule (m : List TStmt) :
    (strippedModule m).countP featBearing = (nestedPhase m).countP featBearing := by
  rw [strippedModule]
  split
  · exact countP_featBearing_removeFeatureImports _
  · rfl

/-- The stripped module has no module-level feature import. -/
theorem hasMLFI_nestedPhase {m : List TStmt}
    (h : hasModuleLevelFeatureImport m = false) :
    hasModuleLevelFeatureImport (nestedPhase m) = false := by
  rw [hasMLFI_eq, List.any_eq_false]
  intro s hs hc
  rcases mem_nestedPhase hs with h' | ⟨v, fs, nested, rfl⟩
  · rw [hasMLFI_eq, List.any_eq_false] at h
    exact h s h' hc
  · cases hc

theorem hasMLFI_strippedModule (m : List TStmt) :
    hasModuleLevelFeatureImport (strippedModule m) = false := by
  rw [strippedModule]
  split
  · exact hasMLFI_removeFeatureImports _
  · rename_i hcond
    exact hasMLFI_nestedPhase (by revert hcond; cases hasModuleLevelFeatureImport m <;> simp)

/-- The rewrite's output has no module-level feature import. -/
theorem hasMLFI_transformTE {m : List TStmt}
    (htr : (hasImportStatements m || !(dotUsages m).isEmpty) = true) :
    hasModuleLevelFeatureImport (transformTE m) = false := by
  rw [hasMLFI_eq, List.any_eq_false]
  intro s hs hc
  rcases mem_transformTE_elim htr hs with h' | rfl | rfl | h'
  · rcases mem_newBlocks h' with ⟨vg, rfl⟩ | ⟨v, ns, rfl⟩ <;> cases hc
  · cases hc
  · cases hc
  · have := hasMLFI_strippedModule m
    rw [hasMLFI_eq, List.any_eq_false] at this
    exact this s h' hc

/-- The rewrite's output keeps the head docstring-free. -/
theorem noDocHead_transformTE {m : List TStmt}
    (htr : (hasImportStatements m || !(dotUsages m).isEmpty) = true)
    (hD : noDocHead (strippedModule m) = true) :
    noDocHead (te4 m) = true ∧ earlySysImport (te4 m) = true := by
  have h3d : noDocHead (te3 m) = true := noDocHead_ensureSys hD
  have h3e : earlySysImport (te3 m) = true := earlySys_ensureSys hD
  constructor
  · rw [te4]
    split
    · exact noDocHead_ensureTyping h3d
    · exact h3d
  · rw [te4]
    split
    · exact earlySys_ensureTyping h3d h3e
    · exact h3e

/-- The early `import sys` scan succeeds on the rewrite's output. -/
theorem earlySys_transformTE {m : List TStmt}
    (htr : (hasImportStatements m || !(dotUsages m).isEmpty) = true)
    (hD : noDocHead (strippedModule m) = true) :
    earlySysImport (transformTE m) = true := by
  obtain ⟨h1, h2⟩ := noDocHead_transformTE htr hD
  rw [transformTE_pos htr]
  exact earlySys_insertBlocks h1 h2

/-- The nested guard entries planned into guard `g` (the `new_checks` of
`leave_If`). -/
def guardNN (m : List TStmt) (g : Nat) : List (PyVer × List String) :=
  ((sortByVer (versionGroups (assignFeatures m))).filter fun vg =>
    !checkExists m (.inGuard g) vg.1 .assign).map fun vg => (vg.1, vg.2)

theorem stmtFeatures_guard_append (v : PyVer) (fs : List String)
    (NN nested : List (PyVer × List String)) :
    stmtFeatures (.guardAssign v fs (NN ++ nested)) =
      (NN.flatMap fun nb => nb.2.filter isFeature) ++
        stmtFeatures (.guardAssign v fs nested) := by
  simp [stmtFeatures, List.flatMap_append, List.append_assoc]

theorem featBearing_eq_true_iff (s : TStmt) :
    featBearing s = true ↔ stmtFeatures s ≠ [] := by
  rw [featBearing]
  cases h : stmtFeatures s <;> simp [h]

theorem featBearing_guard_append {v : PyVer} {fs : List String}
    {nested : List (PyVer × List String)} (NN : List (PyVer × List String))
    (h : featBearing (.guardAssign v fs nested) = true) :
    featBearing (.guardAssign v fs (NN ++ nested)) = true := by
  rw [featBearing_eq_true_iff] at h ⊢
  rw [stmtFeatures_guard_append]
  intro hc
  exact h (List.append_eq_nil.mp hc).2

/-- A unique counted position forces a count of one. -/
theorem countP_eq_one_of_unique {p : TStmt → Bool} : ∀ {l : List TStmt} {k : Nat}
    {s : TStmt}, l.get? k = some s → p s = true →
    (∀ i t, l.get? i = some t → p t = true → i = k) → l.countP p = 1 := by
  intro l
  induction l with
  | nil => intro k s hk _ _; cases k <;> cases hk
  | cons a rest ih =>
    intro k s hk hs huniq
    cases k with
    | zero =>
      injection hk with h1
      subst h1
      rw [List.countP_cons, if_pos hs]
      have hz : rest.countP p = 0 := by
        rw [List.countP_eq_zero]
        intro t ht hpt
        obtain ⟨j, hj⟩ := List.mem_iff_get?.mp ht
        have := huniq (j + 1) t (by simpa using hj) hpt
        cases this
      omega
    | succ k' =>
      have hpa : p a = false := by
        cases hpa : p a
        · rfl
        · have := huniq 0 a rfl hpa
          cases this
      rw [List.countP_cons, hpa]
      simp only [Bool.false_eq_true, if_false]
      have := ih hk hs fun i t hi hpt => by
        have := huniq (i + 1) t (by simpa using hi) hpt
        omega
      omega

/-- A feature-bearing statement of the nested-guard phase survives
the import stripping. -/
theorem mem_strippedModule_of_featBearing {m : List TStmt} {s : TStmt}
    (hb : featBearing s = true) (h : s ∈ nestedPhase m) : s ∈ strippedModule m := by
  rw [strippedModule]
  split
  · exact (featBearing_removeFeatureImports hb).mpr h
  · exact h

/-- The new blocks reduce to the conditional-import guards when the
planned scope is not the module level. -/
theorem newBlocks_not_top {m : List TStmt} (h : optimalScope m ≠ .top) :
    newBlocks m =
      (sortByVer ((versionGroups ((fromTypingUsages m).map Prod.fst)).filter fun vg =>
        !checkExists m .top vg.1 .condImport)).map fun vg =>
          .guardCondImport vg.1 (((fromTypingUsages m).filter fun u =>
            featVer? u.1 == some vg.1).map condAlias) := by
  simp only [newBlocks]
  rw [if_neg, List.nil_append]
  intro hc
  rw [Bool.and_eq_true, decide_eq_true_eq] at hc
  exact h hc.1

/-- The guard of the plan, updated with the new nested entries, sits at
the planned index after the nested-guard phase. -/
theorem caseB_m1 {m : List TStmt} {g : Nat} {v : PyVer} {fs : List String}
    {nested : List (PyVer × List String)}
    (hopt : optimalScope m = .inGuard g) (hne : (dotUsages m).isEmpty = false)
    (hγ : m.get? g = some (.guardAssign v fs nested)) :
    (nestedPhase m).get? g = some (.guardAssign v fs (guardNN m g ++ nested)) := by
  rw [nestedPhase_inGuard hopt hne, List.get?_map, List.enum_get?, hγ]
  simp [guardNN]

/-- After the nested-guard phase every feature-bearing statement is the
updated guard. -/
theorem caseB_featBearing_mem {m : List TStmt} {g : Nat} {v : PyVer}
    {fs : List String} {nested : List (PyVer × List String)}
    (hopt : optimalScope m = .inGuard g) (hne : (dotUsages m).isEmpty = false)
    (hγ : m.get? g = some (.guardAssign v fs nested))
    (honly : ∀ i s, m.get? i = some s → featBearing s = true →
      i = g ∧ s = .guardAssign v fs nested)
    {s : TStmt} (hs : s ∈ nestedPhase m) (hb : featBearing s = true) :
    s = .guardAssign v fs (guardNN m g ++ nested) := by
  rw [nestedPhase_inGuard hopt hne] at hs
  obtain ⟨⟨i, si⟩, hm, he⟩ := List.mem_map.mp hs
  have hgi : m.get? i = some si := List.mk_mem_enum_iff_get?.mp hm
  by_cases hig : i = g
  · subst hig
    rw [hγ] at hgi
    injection hgi with h1
    subst h1
    simp only [if_pos] at he
    rw [← he]
    simp [guardNN]
  · simp only at he
    rw [if_neg hig] at he
    subst he
    exact absurd (honly i si hgi hb).1 hig

/-- The nested-guard phase retains a single feature-bearing statement in
the guard-scope case. -/
theorem caseB_countP {m : List TStmt} {g : Nat} {v : PyVer} {fs : List String}
    {nested : List (PyVer × List String)}
    (hopt : optimalScope m = .inGuard g) (hne : (dotUsages m).isEmpty = false)
    (hγ : m.get? g = some (.guardAssign v fs nested))
    (honly : ∀ i s, m.get? i = some s → featBearing s = true →
      i = g ∧ s = .guardAssign v fs nested)
    (hbγ : featBearing (.guardAssign v fs nested) = true) :
    (nestedPhase m).countP featBearing = 1 := by
  refine countP_eq_one_of_unique (caseB_m1 hopt hne hγ)
    (featBearing_guard_append _ hbγ) ?_
  intro i t hi hpt
  rw [nestedPhase_inGuard hopt hne, List.get?_map, List.enum_get?] at hi
  cases hgi : m.get? i with
  | none => rw [hgi] at hi; cases hi
  | some si =>
    rw [hgi] at hi
    simp only [Option.map] at hi
    injection hi with h1
    by_cases hig : i = g
    · exact hig
    · rw [if_neg hig] at h1
      subst h1
      exact absurd (honly i si hgi hpt).1 hig

set_option maxHeartbeats 2000000 in
/-- In the guard-scope case the rewrite's output plans into a guard scope
again (at the updated guard's position) and its nested-guard phase is the
identity: the updated guard covers every needed version. -/
theorem caseB_core {m : List TStmt} {g : Nat}
    (htr : (hasImportStatements m || !(dotUsages m).isEmpty) = true)
    (hopt : optimalScope m = .inGuard g)
    (hcs : commonScope ((dotUsages m).map Prod.fst) = .inGuard g) :
    ∃ k, optimalScope (transformTE m) = .inGuard k ∧
      nestedPhase (transformTE m) = transformTE m := by
  obtain ⟨v, fs, nested, hγ, honly, husne⟩ := inGuard_analysis hcs
  have hneB : (dotUsages m).isEmpty = false := by
    cases h : (dotUsages m).isEmpty
    · rfl
    · exact absurd (List.isEmpty_iff.mp h) husne
  have hbγ : featBearing (.guardAssign v fs nested) = true := by
    obtain ⟨⟨sc, f⟩, hu⟩ := List.exists_mem_of_ne_nil _ husne
    obtain ⟨i, s, hg2, hus⟩ := mem_dotUsages_iff.mp hu
    have hbs : featBearing s = true := by
      rw [← stmtUsages_ne_nil_iff i]
      intro hc
      rw [hc] at hus
      cases hus
    obtain ⟨rfl, rfl⟩ := honly i s hg2 hbs
    exact hbs
  have hM : featBearing (.guardAssign v fs (guardNN m g ++ nested)) = true :=
    featBearing_guard_append _ hbγ
  have hm1γ := caseB_m1 hopt hneB hγ
  have hMy : (.guardAssign v fs (guardNN m g ++ nested)) ∈ transformTE m :=
    mem_transformTE_intro htr (mem_strippedModule_of_featBearing hM
      (List.mem_iff_get?.mpr ⟨g, hm1γ⟩))
  obtain ⟨k, hk⟩ := List.mem_iff_get?.mp hMy
  have hoptne : optimalScope m ≠ .top := by
    rw [hopt]
    intro hc
    cases hc
  have hcntB : (newBlocks m).countP featBearing = 0 := by
    rw [newBlocks_not_top hoptne, List.countP_eq_zero]
    intro b hb
    obtain ⟨vg, _, he⟩ := List.mem_map.mp hb
    rw [← he]
    intro hc
    rw [featBearing_eq_true_iff] at hc
    exact hc rfl
  have hcnty : (transformTE m).countP featBearing = 1 := by
    rw [countP_transformTE htr, hcntB, countP_strippedModule,
      caseB_countP hopt hneB hγ honly hbγ]
  have hally : ∀ s ∈ transformTE m, featBearing s = true →
      s = .guardAssign v fs (guardNN m g ++ nested) := by
    intro s hs hb
    rcases mem_transformTE_elim htr hs with h' | rfl | rfl | h'
    · rw [newBlocks_not_top hoptne] at h'
      obtain ⟨vg, _, he⟩ := List.mem_map.mp h'
      rw [← he] at hb
      rw [featBearing_eq_true_iff] at hb
      exact absurd rfl hb
    · exact absurd hb (by decide)
    · exact absurd hb (by decide)
    · rw [strippedModule] at h'
      have h'' : s ∈ nestedPhase m := by
        split at h'
        · exact (featBearing_removeFeatureImports hb).mp h'
        · exact h'
      exact caseB_featBearing_mem hopt hneB hγ honly h'' hb
  have hkey : ∀ sc f, (sc, f) ∈ dotUsages (transformTE m) →
      sc = .inGuard k ∨ ∃ j, sc = .inNested k j := by
    intro sc f hu
    obtain ⟨i, s, hgi, hus⟩ := mem_dotUsages_iff.mp hu
    have hbs : featBearing s = true := by
      rw [← stmtUsages_ne_nil_iff i]
      intro hc
      rw [hc] at hus
      cases hus
    have hsM := hally s (List.mem_iff_get?.mpr ⟨i, hgi⟩) hbs
    subst hsM
    have hik : i = k := countP_one_unique hcnty hgi hk hbs hM
    subst hik
    exact stmtUsages_guard_shape hus
  have husy : dotUsages (transformTE m) ≠ [] := by
    have hne2 : stmtFeatures (.guardAssign v fs (guardNN m g ++ nested)) ≠ [] :=
      (featBearing_eq_true_iff _).mp hM
    obtain ⟨f0, hf0⟩ := List.exists_mem_of_ne_nil _ hne2
    obtain ⟨sc0, hu0⟩ := @usage_of_mem_stmtFeatures k _ _ hf0
    intro hnil
    have := mem_dotUsages_iff.mpr ⟨k, _, hk, hu0⟩
    rw [hnil] at this
    cases this
  have hpfxy : ∀ sc ∈ (dotUsages (transformTE m)).map Prod.fst,
      pfxB (.inGuard k) sc = true := by
    intro sc hsc
    obtain ⟨⟨sc', f⟩, hu, he⟩ := List.mem_map.mp hsc
    rcases hkey sc' f hu with h' | ⟨j, h'⟩ <;> rw [← he, h'] <;> simp [pfxB]
  have hcsy : commonScope ((dotUsages (transformTE m)).map Prod.fst) = .inGuard k := by
    rcases inGuard_spread hcs with hmem | ⟨j1, j2, hj, hn1, hn2⟩
    · obtain ⟨⟨sc', f⟩, hu, he⟩ := List.mem_map.mp hmem
      have hsc' : sc' = .inGuard g := he
      subst hsc'
      obtain ⟨i, s, hgi, hus⟩ := mem_dotUsages_iff.mp hu
      have hbs : featBearing s = true := by
        rw [← stmtUsages_ne_nil_iff i]
        intro hc
        rw [hc] at hus
        cases hus
      obtain ⟨hig, hseq⟩ := honly i s hgi hbs
      subst hseq
      rw [hig] at hus
      have hf := stmtUsages_inGuard_iff.mp hus
      have husk : ((.inGuard k : TScope), f) ∈
          stmtUsages k (.guardAssign v fs (guardNN m g ++ nested)) :=
        stmtUsages_inGuard_iff.mpr hf
      exact commonScope_eq_inGuard_of_mem hpfxy
        (List.mem_map.mpr ⟨(.inGuard k, f), mem_dotUsages_iff.mpr ⟨k, _, hk, husk⟩, rfl⟩)
    · have key2 : ∀ j, (TScope.inNested g j) ∈ (dotUsages m).map Prod.fst →
          ∃ f, ((.inNested k ((guardNN m g).length + j) : TScope), f) ∈
            stmtUsages k (.guardAssign v fs (guardNN m g ++ nested)) := by
        intro j hjm
        obtain ⟨⟨sc', f⟩, hu, he⟩ := List.mem_map.mp hjm
        have hsc' : sc' = .inNested g j := he
        subst hsc'
        obtain ⟨i, s, hgi, hus⟩ := mem_dotUsages_iff.mp hu
        have hbs : featBearing s = true := by
          rw [← stmtUsages_ne_nil_iff i]
          intro hc
          rw [hc] at hus
          cases hus
        obtain ⟨hig, hseq⟩ := honly i s hgi hbs
        subst hseq
        rw [hig] at hus
        obtain ⟨nb, hnb, hfnb, hfeat⟩ := stmtUsages_inNested_iff.mp hus
        refine ⟨f, stmtUsages_inNested_iff.mpr ⟨nb, ?_, hfnb, hfeat⟩⟩
        rw [List.get?_append_right (Nat.le_add_right _ _), Nat.add_sub_cancel_left]
        exact hnb
      obtain ⟨f1, hu1⟩ := key2 j1 hn1
      obtain ⟨f2, hu2⟩ := key2 j2 hn2
      refine commonScope_eq_inGuard_of_two_nested hpfxy
        (List.mem_map.mpr ⟨(_, f1), mem_dotUsages_iff.mpr ⟨k, _, hk, hu1⟩, rfl⟩)
        (List.mem_map.mpr ⟨(_, f2), mem_dotUsages_iff.mpr ⟨k, _, hk, hu2⟩, rfl⟩)
        (by omega)
  have hopty : optimalScope (transformTE m) = .inGuard k := by
    rw [optimalScope, hcsy]
  have hcov : ∀ vg ∈ versionGroups (assignFeatures (transformTE m)),
      checkExists (transformTE m) (.inGuard k) vg.1 .assign = true := by
    intro vg hvg
    obtain ⟨f, hfg, hfA, hfv⟩ := versionGroups_sound hvg
    have hfy : f ∈ stmtFeatures (.guardAssign v fs (guardNN m g ++ nested)) := by
      rw [assignFeatures] at hfA
      have hf2 := mem_dedupeL.mp hfA
      obtain ⟨⟨sc, f'⟩, hu, he⟩ := List.mem_map.mp hf2
      have hf' : f' = f := he
      subst hf'
      obtain ⟨i, s, hgi, hus⟩ := mem_dotUsages_iff.mp hu
      have hbs : featBearing s = true := by
        rw [← stmtUsages_ne_nil_iff i]
        intro hc
        rw [hc] at hus
        cases hus
      have hsM := hally s (List.mem_iff_get?.mpr ⟨i, hgi⟩) hbs
      subst hsM
      exact mem_stmtFeatures_of_usage hus
    rw [stmtFeatures_guard_append] at hfy
    apply checkExists_inGuard_assign.mpr
    refine ⟨v, fs, guardNN m g ++ nested, hk, ?_⟩
    rw [List.map_append, List.mem_append]
    rcases List.mem_append.mp hfy with hnew | hold
    · obtain ⟨nb, hnb, hf3⟩ := List.mem_flatMap.mp hnew
      obtain ⟨vg', hvg', he'⟩ := List.mem_map.mp hnb
      have hvgm : vg' ∈ versionGroups (assignFeatures m) :=
        mem_sortByVer.mp (List.mem_filter.mp hvg').1
      have hfvg' : f ∈ vg'.2 := by
        rw [← he'] at hf3
        exact (List.mem_filter.mp hf3).1
      have hver := (versionGroups_members hvgm hfvg').2
      rw [hfv] at hver
      injection hver with hvv
      left
      refine List.mem_map.mpr ⟨nb, hnb, ?_⟩
      rw [← he']
      exact hvv.symm
    · have hfm : f ∈ assignFeatures m := by
        rw [assignFeatures]
        apply mem_dedupeL.mpr
        rw [dotUsages_map_snd]
        exact List.mem_flatMap.mpr ⟨.guardAssign v fs nested,
          List.mem_iff_get?.mpr ⟨g, hγ⟩, hold⟩
      by_cases hchk : checkExists m (.inGuard g) vg.1 .assign = true
      · obtain ⟨v0, fs0, n0, hg0, hw0⟩ := checkExists_inGuard_assign.mp hchk
        rw [hγ] at hg0
        injection hg0 with h1
        injection h1 with e1 e2 e3
        right
        rw [e3]
        exact hw0
      · obtain ⟨grp, hgrp⟩ := versionGroups_complete hfm hfv
        have hchkf : checkExists m (.inGuard g) vg.1 .assign = false := by
          revert hchk
          cases checkExists m (.inGuard g) vg.1 .assign <;> simp
        have hfil : (vg.1, grp) ∈ (sortByVer (versionGroups (assignFeatures m))).filter
            fun vg => !checkExists m (.inGuard g) vg.1 .assign :=
          List.mem_filter.mpr ⟨mem_sortByVer.mpr hgrp, by rw [hchkf]; rfl⟩
        left
        exact List.mem_map.mpr ⟨(vg.1, grp),
          List.mem_map.mpr ⟨(vg.1, grp), hfil, rfl⟩, rfl⟩
  have hney : (dotUsages (transformTE m)).isEmpty = false := by
    cases h : (dotUsages (transformTE m)).isEmpty
    · rfl
    · exact absurd (List.isEmpty_iff.mp h) husy
  refine ⟨k, hopty, ?_⟩
  rw [nestedPhase_inGuard hopty hney]
  apply enum_map_id
  intro i s hgi
  by_cases hik : i = k
  · rw [hik] at hgi
    rw [hk] at hgi
    injection hgi with h1
    subst h1
    have hfil0 : (sortByVer (versionGroups (assignFeatures (transformTE m)))).filter
        (fun vg => !checkExists (transformTE m) (.inGuard k) vg.1 .assign) = [] := by
      rw [List.filter_eq_nil_iff]
      intro vg hvg
      rw [hcov vg (mem_sortByVer.mp hvg)]
      simp
    simp [hfil0, hik]
  · simp [hik]

/-- Statements other than `fromTyping` survive the import stripping. -/
theorem mem_removeFeatureImports_of_ne_fromTyping {l : List TStmt} {s : TStmt}
    (h : s ∈ l) (hs : ∀ ns, s ≠ .fromTyping ns) : s ∈ removeFeatureImports l := by
  refine List.mem_filterMap.mpr ⟨s, h, ?_⟩
  cases s
  case fromTyping ns => exact absurd rfl (hs ns)
  all_goals rfl

/-- A feature-bearing member of the stripped module is a member of the
nested-guard phase. -/
theorem mem_strippedModule_featBearing_elim {m : List TStmt} {s : TStmt}
    (hb : featBearing s = true) (h : s ∈ strippedModule m) : s ∈ nestedPhase m := by
  rw [strippedModule] at h
  split at h
  · exact (featBearing_removeFeatureImports hb).mp h
  · exact h

/-- The new blocks reduce to the conditional-import guards when there are
no typing-dot usages. -/
theorem newBlocks_no_usages {m : List TStmt} (h : dotUsages m = []) :
    newBlocks m =
      (sortByVer ((versionGroups ((fromTypingUsages m).map Prod.fst)).filter fun vg =>
        !checkExists m .top vg.1 .condImport)).map fun vg =>
          .guardCondImport vg.1 (((fromTypingUsages m).filter fun u =>
            featVer? u.1 == some vg.1).map condAlias) := by
  simp only [newBlocks]
  rw [if_neg, List.nil_append]
  intro hc
  rw [Bool.and_eq_true] at hc
  rw [h] at hc
  simpa using hc.2

/-- A nonempty pair list has a nonempty first-component projection. -/
theorem map_fst_ne_nil {L : List (TScope × String)} (h : L ≠ []) :
    L.map Prod.fst ≠ [] := by
  intro hc
  apply h
  cases L with
  | nil => rfl
  | cons a rest => cases hc

set_option maxHeartbeats 2000000 in
/-- In the module-level case the rewrite's output needs no further
nested-guard insertions, carries the direct `typing` import whenever its
own plan would need it, and every needed version guard already exists at
the top level. -/
theorem caseA_core {m : List TStmt}
    (htr : (hasImportStatements m || !(dotUsages m).isEmpty) = true)
    (hopt : optimalScope m = .top) :
    nestedPhase (transformTE m) = transformTE m ∧
    (dotUsages (transformTE m) ≠ [] →
      hasDirectTypingImport (transformTE m) = true) ∧
    ((versionGroups (assignFeatures (transformTE m))).filter
      (fun vg => !checkExists (transformTE m) .top vg.1 .assign) = [] ∨
      dotUsages (transformTE m) = []) := by
  have hnp : nestedPhase m = m := nestedPhase_top hopt
  by_cases hus : dotUsages m = []
  · -- no usages at all: the output has none either
    have husy : dotUsages (transformTE m) = [] := by
      rw [dotUsages_eq_nil_iff]
      intro s hs
      cases hb : featBearing s
      · rfl
      · exfalso
        rcases mem_transformTE_elim htr hs with h' | rfl | rfl | h'
        · rw [newBlocks_no_usages hus] at h'
          obtain ⟨vg, _, he⟩ := List.mem_map.mp h'
          rw [← he] at hb
          rw [featBearing_eq_true_iff] at hb
          exact hb rfl
        · exact absurd hb (by decide)
        · exact absurd hb (by decide)
        · have h'' : s ∈ m := by
            rw [← hnp]
            exact mem_strippedModule_featBearing_elim hb h'
          rw [dotUsages_eq_nil_iff] at hus
          rw [hus s h''] at hb
          cases hb
    exact ⟨nestedPhase_empty husy, fun hne => absurd husy hne, Or.inr husy⟩
  · -- usages exist, planned at the module level
    have hneA : (dotUsages m).isEmpty = false := by
      cases h : (dotUsages m).isEmpty
      · rfl
      · exact absurd (List.isEmpty_iff.mp h) hus
    have hcondT : (decide (optimalScope m = .top) && !(dotUsages m).isEmpty) = true := by
      rw [hopt, hneA]
      simp
    have hte4 : te4 m = ensureTypingImport (te3 m) := by
      rw [te4, if_pos hcondT]
    have hDirY : hasDirectTypingImport (transformTE m) = true := by
      apply hasDirectTypingImport_iff.mpr
      have h1 : TStmt.importTyping ∈ te4 m := by
        rw [hte4]
        exact hasDirectTypingImport_iff.mp hasDirect_ensureTyping
      rw [transformTE_pos htr]
      exact mem_insertAllAt.mpr (Or.inr h1)
    have hAFy : ∀ f ∈ assignFeatures (transformTE m), f ∈ assignFeatures m := by
      intro f hf
      rw [assignFeatures] at hf ⊢
      have hf2 := mem_dedupeL.mp hf
      apply mem_dedupeL.mpr
      obtain ⟨⟨sc, f'⟩, hu, he⟩ := List.mem_map.mp hf2
      have hff : f' = f := he
      rw [← hff]
      obtain ⟨i, s, hgi, hus'⟩ := mem_dotUsages_iff.mp hu
      have hbs : featBearing s = true := by
        rw [← stmtUsages_ne_nil_iff i]
        intro hc
        rw [hc] at hus'
        cases hus'
      have hf3 : f' ∈ stmtFeatures s := mem_stmtFeatures_of_usage hus'
      rcases mem_transformTE_elim htr (List.mem_iff_get?.mpr ⟨i, hgi⟩) with h' | rfl | rfl | h'
      · exact newBlocks_features h' hf3
      · cases hf3
      · cases hf3
      · have h'' : s ∈ m := by
          rw [← hnp]
          exact mem_strippedModule_featBearing_elim hbs h'
        rw [dotUsages_map_snd]
        exact List.mem_flatMap.mpr ⟨s, h'', hf3⟩
    have hcovA : ∀ vg ∈ versionGroups (assignFeatures (transformTE m)),
        checkExists (transformTE m) .top vg.1 .assign = true := by
      intro vg hvg
      obtain ⟨f, hfg, hfA, hfv⟩ := versionGroups_sound hvg
      have hfm : f ∈ assignFeatures m := hAFy f hfA
      by_cases hchk : checkExists m .top vg.1 .assign = true
      · obtain ⟨fs0, n0, hmem⟩ := checkExists_top_assign.mp hchk
        have hg2 : (.guardAssign vg.1 fs0 n0) ∈ strippedModule m := by
          rw [strippedModule]
          split
          · exact mem_removeFeatureImports_of_ne_fromTyping
              (by rw [hnp]; exact hmem) (by intro ns hc; cases hc)
          · rw [hnp]; exact hmem
      
        exact checkExists_top_assign.mpr ⟨fs0, n0, mem_transformTE_intro htr hg2⟩
      · obtain ⟨grp, hgrp⟩ := versionGroups_complete hfm hfv
        have hchkf : checkExists m .top vg.1 .assign = false := by
          revert hchk
          cases checkExists m .top vg.1 .assign <;> simp
        have hfil : (vg.1, grp) ∈ (versionGroups (assignFeatures m)).filter
            fun vg => !checkExists m .top vg.1 .assign :=
          List.mem_filter.mpr ⟨hgrp, by rw [hchkf]; rfl⟩
        have hblock : (.guardAssign vg.1 grp []) ∈ newBlocks m := by
          simp only [newBlocks]
          apply List.mem_append.mpr
          left
          rw [if_pos hcondT]
          exact List.mem_map.mpr ⟨(vg.1, grp), mem_sortByVer.mpr hfil, rfl⟩
        exact checkExists_top_assign.mpr ⟨grp, [], mem_transformTE_blocks htr hblock⟩
    refine ⟨?_, fun _ => hDirY, Or.inl ?_⟩
    · -- the nested-guard phase is the identity on the output
      rcases optimalScope_cases (transformTE m) with hoy | ⟨k, hoy, hcsy⟩
      · exact nestedPhase_top hoy
      · exfalso
        obtain ⟨v', fs', n', hky, honlyY, husneY⟩ := inGuard_analysis hcsy
        obtain ⟨⟨scm, fm⟩, hum⟩ := List.exists_mem_of_ne_nil _ hus
        obtain ⟨i0, s0, hg0, hus0⟩ := mem_dotUsages_iff.mp hum
        have hb0 : featBearing s0 = true := by
          rw [← stmtUsages_ne_nil_iff i0]
          intro hc
          rw [hc] at hus0
          cases hus0
        have hs0m : s0 ∈ m := List.mem_iff_get?.mpr ⟨i0, hg0⟩
        have hs0y : s0 ∈ transformTE m :=
          mem_transformTE_intro htr (mem_strippedModule_of_featBearing hb0
            (by rw [hnp]; exact hs0m))
        obtain ⟨i1, hg1⟩ := List.mem_iff_get?.mp hs0y
        obtain ⟨hi1k, hs0G⟩ := honlyY i1 s0 hg1 hb0
        subst hs0G
        have hcnty1 : (transformTE m).countP featBearing = 1 :=
          countP_eq_one_of_unique hky hb0 fun i t hi hpt => (honlyY i t hi hpt).1
        have hcntm : m.countP featBearing = 1 := by
          have h1 := countP_transformTE htr
          rw [hcnty1, countP_strippedModule, hnp] at h1
          have h2 : 0 < m.countP featBearing :=
            List.countP_pos_iff.mpr ⟨_, hs0m, hb0⟩
          omega
        obtain ⟨γ0, hγ0⟩ := List.mem_iff_get?.mp hs0m
        have honlym : ∀ i t, m.get? i = some t → featBearing t = true → i = γ0 :=
          fun i t hi hpt => countP_one_unique hcntm hi hγ0 hpt hb0
        have hshape : ∀ sc f, (sc, f) ∈ dotUsages m →
            (sc, f) ∈ stmtUsages γ0 (.guardAssign v' fs' n') := by
          intro sc f hu
          obtain ⟨i, s, hgi, hus'⟩ := mem_dotUsages_iff.mp hu
          have hbs : featBearing s = true := by
            rw [← stmtUsages_ne_nil_iff i]
            intro hc
            rw [hc] at hus'
            cases hus'
          have hig : i = γ0 := honlym i s hgi hbs
          rw [hig] at hgi hus'
          rw [hγ0] at hgi
          injection hgi with h1
          rw [← h1] at hus'
          exact hus'
        have hnotopm : ∀ x, commonScope ((dotUsages m).map Prod.fst) ≠ .inGuard x := by
          intro x hc
          rw [optimalScope, hc] at hopt
          cases hopt
        have hpfxm : ∀ sc ∈ (dotUsages m).map Prod.fst,
            pfxB (.inGuard γ0) sc = true := by
          intro sc hsc
          obtain ⟨⟨sc', f⟩, hu, he⟩ := List.mem_map.mp hsc
          have hsc2 : sc' = sc := he
          subst hsc2
          rcases stmtUsages_guard_shape (hshape sc' f hu) with h' | ⟨j, h'⟩ <;>
            rw [h'] <;> simp [pfxB]
        have hnomem : (TScope.inGuard γ0) ∉ (dotUsages m).map Prod.fst := by
          intro hmem2
          exact hnotopm γ0 (commonScope_eq_inGuard_of_mem hpfxm hmem2)
        have hmapne : (dotUsages m).map Prod.fst ≠ [] := map_fst_ne_nil hus
        obtain ⟨σ0, hσ0⟩ := List.exists_mem_of_ne_nil _ hmapne
        obtain ⟨j0, hσ0j⟩ : ∃ j0, σ0 = TScope.inNested γ0 j0 := by
          obtain ⟨⟨sc', f⟩, hu, he⟩ := List.mem_map.mp hσ0
          have hsc2 : σ0 = sc' := he.symm
          subst hsc2
          rcases stmtUsages_guard_shape (hshape σ0 f hu) with h' | ⟨j, h'⟩
          · exact absurd (h' ▸ hσ0) hnomem
          · exact ⟨j, h'⟩
        subst hσ0j
        have hallm : ∀ sc ∈ (dotUsages m).map Prod.fst, sc = TScope.inNested γ0 j0 := by
          intro sc hsc
          obtain ⟨⟨sc', f⟩, hu, he⟩ := List.mem_map.mp hsc
          have hsc2 : sc' = sc := he
          subst hsc2
          rcases stmtUsages_guard_shape (hshape sc' f hu) with h' | ⟨j, h'⟩
          · exact absurd (h' ▸ hu |> fun hu2 => List.mem_map.mpr
              ⟨(TScope.inGuard γ0, f), hu2, rfl⟩) hnomem
          · subst h'
            by_cases hj : j = j0
            · rw [hj]
            · exact absurd (commonScope_eq_inGuard_of_two_nested hpfxm
                (List.mem_map.mpr ⟨(TScope.inNested γ0 j, f), hu, rfl⟩) hσ0 hj)
                (hnotopm γ0)
        have hfs' : fs'.filter isFeature = [] := by
          cases hf : fs'.filter isFeature with
          | nil => rfl
          | cons a rest =>
            have haf : a ∈ fs'.filter isFeature := by
              rw [hf]
              exact List.mem_cons_self a rest
            obtain ⟨ha1, ha2⟩ := List.mem_filter.mp haf
            have husg : ((TScope.inGuard γ0 : TScope), a) ∈
                stmtUsages γ0 (.guardAssign v' fs' n') :=
              stmtUsages_inGuard_iff.mpr ⟨ha1, ha2⟩
            exact absurd (List.mem_map.mpr ⟨(TScope.inGuard γ0, a),
              mem_dotUsages_iff.mpr ⟨γ0, _, hγ0, husg⟩, rfl⟩) hnomem
        have hallY : ∀ sc ∈ (dotUsages (transformTE m)).map Prod.fst,
            sc = TScope.inNested k j0 := by
          intro sc hsc
          obtain ⟨⟨sc', f⟩, hu, he⟩ := List.mem_map.mp hsc
          have hsc2 : sc' = sc := he
          subst hsc2
          obtain ⟨i, s, hgi, hus'⟩ := mem_dotUsages_iff.mp hu
          have hbs : featBearing s = true := by
            rw [← stmtUsages_ne_nil_iff i]
            intro hc
            rw [hc] at hus'
            cases hus'
          obtain ⟨hik, hsG⟩ := honlyY i s hgi hbs
          subst hsG
          rw [hik] at hus'
          rcases stmtUsages_guard_shape hus' with h' | ⟨j, h'⟩
          · subst h'
            obtain ⟨ha1, ha2⟩ := stmtUsages_inGuard_iff.mp hus'
            have : f ∈ fs'.filter isFeature := List.mem_filter.mpr ⟨ha1, ha2⟩
            rw [hfs'] at this
            cases this
          · subst h'
            obtain ⟨nb, hnbj, hfnb, hfeat⟩ := stmtUsages_inNested_iff.mp hus'
            have husm : ((TScope.inNested γ0 j : TScope), f) ∈
                stmtUsages γ0 (.guardAssign v' fs' n') :=
              stmtUsages_inNested_iff.mpr ⟨nb, hnbj, hfnb, hfeat⟩
            have hjm : (TScope.inNested γ0 j) ∈ (dotUsages m).map Prod.fst :=
              List.mem_map.mpr ⟨(TScope.inNested γ0 j, f),
                mem_dotUsages_iff.mpr ⟨γ0, _, hγ0, husm⟩, rfl⟩
            have := hallm _ hjm
            injection this with e1 e2
            rw [e2]
        have hmapneY : (dotUsages (transformTE m)).map Prod.fst ≠ [] :=
          map_fst_ne_nil husneY
        have hcc : commonScope ((dotUsages (transformTE m)).map Prod.fst) =
            TScope.inNested k j0 := commonScope_const hmapneY hallY
        rw [hcsy] at hcc
        exact TScope.noConfusion hcc
    · rw [List.filter_eq_nil_iff]
      intro vg hvg
      rw [hcovA vg hvg]
      simp

/-- The stripped module is unchanged when there is no feature import and
the nested-guard phase is idle. -/
theorem strippedModule_id {y : List TStmt}
    (hmlfi : hasModuleLevelFeatureImport y = false)
    (hnp : nestedPhase y = y) : strippedModule y = y := by
  rw [strippedModule, if_neg]
  · exact hnp
  · rw [hmlfi]
    simp

/-- No new blocks are produced when the feature imports are gone and the
assignment plan is covered. -/
theorem newBlocks_nil {y : List TStmt}
    (hmlfi : hasModuleLevelFeatureImport y = false)
    (hassign : (versionGroups (assignFeatures y)).filter
      (fun vg => !checkExists y .top vg.1 .assign) = [] ∨
      dotUsages y = [] ∨ optimalScope y ≠ .top) :
    newBlocks y = [] := by
  simp only [newBlocks]
  rw [List.append_eq_nil]
  constructor
  · rcases hassign with h1 | h1 | h1
    · split
      · rw [h1]
        rfl
      · rfl
    · rw [if_neg]
      intro hc
      rw [Bool.and_eq_true, h1] at hc
      simpa using hc.2
    · rw [if_neg]
      intro hc
      rw [Bool.and_eq_true, decide_eq_true_eq] at hc
      exact h1 hc.1
  · rw [fromTypingUsages_nil hmlfi]
    rfl

/-- C9 (amended): the typing-extension rewriter is idempotent on every
module whose stripped form does not begin with a docstring: the second
run's analysis finds the guard blocks, the `sys`/`typing` imports and the
nested checks the first run established, and inserts nothing — in
particular no version-guard block (same scope, version tuple, and kind)
is ever duplicated. (With a leading docstring the early-`import sys`
scan stops at the docstring and duplicates `import sys`;
see the counterexample.) -/
theorem C9_idempotent_no_leading_docstring (m : List TStmt)
    (hD : noDocHead (strippedModule m) = true) :
    transformTE (transformTE m) = transformTE m := by
  by_cases htr : (hasImportStatements m || !(dotUsages m).isEmpty) = true
  · have hmlfiY := hasMLFI_transformTE htr
    have hEY := earlySys_transformTE htr hD
    have hkeyfacts :
        nestedPhase (transformTE m) = transformTE m ∧
        ((versionGroups (assignFeatures (transformTE m))).filter
          (fun vg => !checkExists (transformTE m) .top vg.1 .assign) = [] ∨
          dotUsages (transformTE m) = [] ∨ optimalScope (transformTE m) ≠ .top) ∧
        ((decide (optimalScope (transformTE m) = .top) &&
          !(dotUsages (transformTE m)).isEmpty) = true →
          hasDirectTypingImport (transformTE m) = true) := by
      rcases optimalScope_cases m with hopt | ⟨g, hopt, hcs⟩
      · obtain ⟨h1, h2, h3⟩ := caseA_core htr hopt
        refine ⟨h1, ?_, ?_⟩
        · rcases h3 with h3 | h3
          · exact Or.inl h3
          · exact Or.inr (Or.inl h3)
        · intro hc
          rw [Bool.and_eq_true] at hc
          apply h2
          intro hnil
          rw [hnil] at hc
          simpa using hc.2
      · obtain ⟨k, hoy, h1⟩ := caseB_core htr hopt hcs
        refine ⟨h1, Or.inr (Or.inr ?_), ?_⟩
        · rw [hoy]
          intro hc
          cases hc
        · intro hc
          rw [Bool.and_eq_true, decide_eq_true_eq, hoy] at hc
          exact TScope.noConfusion hc.1
    obtain ⟨hnpY, hassignY, hdirY⟩ := hkeyfacts
    have hsmY : strippedModule (transformTE m) = transformTE m :=
      strippedModule_id hmlfiY hnpY
    have hnbY : newBlocks (transformTE m) = [] := newBlocks_nil hmlfiY hassignY
    by_cases htr2 : (hasImportStatements (transformTE m) ||
        !(dotUsages (transformTE m)).isEmpty) = true
    · rw [transformTE_pos htr2]
      have hte3 : te3 (transformTE m) = transformTE m := by
        rw [te3, hsmY, ensureSysImport, if_pos hEY]
      have hte4 : te4 (transformTE m) = transformTE m := by
        rw [te4, hte3]
        split
        · rename_i hcond
          rw [ensureTypingImport, if_pos (hdirY hcond)]
        · rfl
      rw [hte4, hnbY, insertAllAt_nil]
    · exact transformTE_neg htr2
  · rw [transformTE_neg htr, transformTE_neg htr]

/-- Closed instance of the amended C9 idempotence theorem on the
`from typing import`-free module `import typing; typing.final`. -/
theorem C9_idempotent_no_leading_docstring_witness :
    noDocHead (strippedModule [TStmt.importTyping, TStmt.useTypingDot "final"]) = true ∧
    transformTE (transformTE [TStmt.importTyping, TStmt.useTypingDot "final"]) =
      transformTE [TStmt.importTyping, TStmt.useTypingDot "final"] :=
  ⟨by decide, C9_idempotent_no_leading_docstring _ (by decide)⟩
